import Mathlib

/-!
# algorithm-tool: searching, sorting and the benchmark engine

A shallow embedding of `src/algorithms/search.go`, `src/algorithms/sort.go`,
`src/data/generator.go` and `src/benchmark/benchmark.go`.

Conventions of the embedding.

* A Go `[]int` is a `List Int`; a Go `int` is an `Int`.  Element values are only
  copied and compared, and every index expression stays between `-1` and
  `2 * len + 2`, so no 64-bit overflow can occur in the sorting and searching
  code; durations and byte counters, where overflow matters, wrap explicitly.
* An index expression `a[i]` panics outside `0 ≤ i < len a`.  Functions that
  index return an `Option`: `none` is a run-time panic (or an exhausted
  iteration budget), `some v` is a normal return of `v`.
* Every `for` loop over a counter and every recursive function carries a `Nat`
  iteration budget as its first recursive argument.  The entry points pass a
  budget of `len + 1` (`Runs + 1` for the trials of a benchmark), and the
  theorems show that this budget is never exhausted.  A `for ... range` loop
  is a structural recursion over the list.
* Go integer division truncates toward zero: `Int.tdiv`.
* What a run observes of the outside world (random draws, elapsed times, heap
  counters) is a parameter: `world k` for trial `k` of a benchmark, `worlds c`
  for call number `c` of `RunBenchmark` in a sweep.
-/

namespace AlgoBench

/-! ## Slices -/

/-- Go `a[i]` as an expression: the element, or a panic outside the bounds. -/
def idx (a : List Int) (i : Int) : Option Int :=
  if i < 0 then none else a[i.toNat]?

/-- Go `a[i] = v`: the updated slice, or a panic outside the bounds. -/
def upd (a : List Int) (i : Int) (v : Int) : Option (List Int) :=
  if 0 ≤ i ∧ i < a.length then some (a.set i.toNat v) else none

/-- Go `a[i], a[j] = a[j], a[i]`: both operands are read first, then both
assignments are carried out from left to right. -/
def swap (a : List Int) (i j : Int) : Option (List Int) :=
  match idx a i, idx a j with
  | some x, some y =>
    match upd a i y with
    | some a1 => upd a1 j x
    | none => none
  | _, _ => none

/-- Go `a[:i]`. -/
def sliceTo (a : List Int) (i : Int) : Option (List Int) :=
  if 0 ≤ i ∧ i ≤ a.length then some (a.take i.toNat) else none

/-- Go `a[i:]`. -/
def sliceFrom (a : List Int) (i : Int) : Option (List Int) :=
  if 0 ≤ i ∧ i ≤ a.length then some (a.drop i.toNat) else none

/-- The standard library's `sort.Ints`: the slice in increasing order.  A list
of integers has exactly one non-decreasing rearrangement
(`sortInts_unique`), so the result does not depend on the algorithm used. -/
def sortInts (a : List Int) : List Int :=
  a.insertionSort (· ≤ ·)

/-! ## `algorithms/search.go` -/

/-- The `for i, v := range arr` loop of `LinearSearch`, started at index `i`. -/
def linearSearchFrom (target : Int) : List Int → Int → Int
  | [], _ => -1
  | v :: rest, i => if v = target then i else linearSearchFrom target rest (i + 1)

/-- `LinearSearch(arr, target)`. -/
def LinearSearch (arr : List Int) (target : Int) : Int :=
  linearSearchFrom target arr 0

/-- The `for left <= right` loop of `BinarySearch`. -/
def binarySearchLoop (arr : List Int) (target : Int) : Nat → Int → Int → Option Int
  | 0, _, _ => none
  | fuel + 1, left, right =>
    if left ≤ right then
      let mid := left + Int.tdiv (right - left) 2
      match idx arr mid with
      | none => none
      | some v =>
        if v = target then some mid
        else if v < target then binarySearchLoop arr target fuel (mid + 1) right
        else binarySearchLoop arr target fuel left (mid - 1)
    else some (-1)

/-- `BinarySearch(arr, target)`. -/
def BinarySearch (arr : List Int) (target : Int) : Option Int :=
  binarySearchLoop arr target (arr.length + 1) 0 (arr.length - 1)

/-- `BinarySearchSorted(arr, target)`. -/
def BinarySearchSorted (arr : List Int) (target : Int) : Option Int :=
  BinarySearch arr target

/-- `BinarySearchUnsorted(arr, target)`: search a sorted private copy, then scan
the original for the value found. -/
def BinarySearchUnsorted (arr : List Int) (target : Int) : Option Int :=
  let sorted := sortInts arr
  match BinarySearch sorted target with
  | none => none
  | some index =>
    if index = -1 then some (-1)
    else
      match idx sorted index with
      | none => none
      | some w => some (linearSearchFrom w arr 0)

/-! ## `algorithms/sort.go` -/

/-- The inner `for j := 0; j < n-i-1; j++` loop of `BubbleSort`, from `j`. -/
def bubbleInner (n i : Int) : Nat → List Int → Int → Bool → Option (List Int × Bool)
  | 0, _, _, _ => none
  | fuel + 1, result, j, swapped =>
    if j < n - i - 1 then
      match idx result j, idx result (j + 1) with
      | some x, some y =>
        if x > y then
          match swap result j (j + 1) with
          | some r => bubbleInner n i fuel r (j + 1) true
          | none => none
        else bubbleInner n i fuel result (j + 1) swapped
      | _, _ => none
    else some (result, swapped)

/-- The outer `for i := 0; i < n-1; i++` loop of `BubbleSort`, from `i`. -/
def bubbleOuter (n : Int) : Nat → List Int → Int → Option (List Int)
  | 0, _, _ => none
  | fuel + 1, result, i =>
    if i < n - 1 then
      match bubbleInner n i (result.length + 1) result 0 false with
      | none => none
      | some (r, swapped) =>
        if !swapped then some r else bubbleOuter n fuel r (i + 1)
    else some result

/-- `BubbleSort(arr)`. -/
def BubbleSort (arr : List Int) : Option (List Int) :=
  bubbleOuter arr.length (arr.length + 1) arr 0

/-- The `for j >= 0 && result[j] > key` loop of `InsertionSort`; returns the
slice and the final `j`. -/
def insertionInner (key : Int) : Nat → List Int → Int → Option (List Int × Int)
  | 0, _, _ => none
  | fuel + 1, result, j =>
    if 0 ≤ j then
      match idx result j with
      | none => none
      | some x =>
        if x > key then
          match upd result (j + 1) x with
          | none => none
          | some r => insertionInner key fuel r (j - 1)
        else some (result, j)
    else some (result, j)

/-- The `for i := 1; i < len(result); i++` loop of `InsertionSort`, from `i`. -/
def insertionOuter : Nat → List Int → Int → Option (List Int)
  | 0, _, _ => none
  | fuel + 1, result, i =>
    if i < result.length then
      match idx result i with
      | none => none
      | some key =>
        match insertionInner key (result.length + 1) result (i - 1) with
        | none => none
        | some (r, j) =>
          match upd r (j + 1) key with
          | none => none
          | some r2 => insertionOuter fuel r2 (i + 1)
    else some result

/-- `InsertionSort(arr)`. -/
def InsertionSort (arr : List Int) : Option (List Int) :=
  insertionOuter (arr.length + 1) arr 1

/-- The `for i < len(left) && j < len(right)` loop of `merge`; returns
`result`, `i` and `j` at the exit. -/
def mergeLoop (left right : List Int) : Nat → List Int → Int → Int →
    Option (List Int × Int × Int)
  | 0, _, _, _ => none
  | fuel + 1, result, i, j =>
    if i < left.length ∧ j < right.length then
      match idx left i, idx right j with
      | some x, some y =>
        if x ≤ y then mergeLoop left right fuel (result ++ [x]) (i + 1) j
        else mergeLoop left right fuel (result ++ [y]) i (j + 1)
      | _, _ => none
    else some (result, i, j)

/-- `merge(left, right)`. -/
def merge (left right : List Int) : Option (List Int) :=
  match mergeLoop left right (left.length + right.length + 1) [] 0 0 with
  | none => none
  | some (result, i, j) =>
    match sliceFrom left i, sliceFrom right j with
    | some l, some r => some ((result ++ l) ++ r)
    | _, _ => none

/-- `MergeSort(arr)`, with a budget for the depth of the recursion. -/
def mergeSortAux : Nat → List Int → Option (List Int)
  | 0, _ => none
  | fuel + 1, arr =>
    if (arr.length : Int) ≤ 1 then some arr
    else
      let mid := Int.tdiv (arr.length : Int) 2
      match sliceTo arr mid, sliceFrom arr mid with
      | some l, some r =>
        match mergeSortAux fuel l, mergeSortAux fuel r with
        | some left, some right => merge left right
        | _, _ => none
      | _, _ => none

/-- `MergeSort(arr)`. -/
def MergeSort (arr : List Int) : Option (List Int) :=
  mergeSortAux (arr.length + 1) arr

/-- The `for j := low; j < high; j++` loop of `partition`; returns the slice
and the final `i`. -/
def partitionLoop (pivot high : Int) : Nat → List Int → Int → Int → Option (List Int × Int)
  | 0, _, _, _ => none
  | fuel + 1, arr, i, j =>
    if j < high then
      match idx arr j with
      | none => none
      | some x =>
        if x ≤ pivot then
          match swap arr (i + 1) j with
          | none => none
          | some arr1 => partitionLoop pivot high fuel arr1 (i + 1) (j + 1)
        else partitionLoop pivot high fuel arr i (j + 1)
    else some (arr, i)

/-- `partition(arr, low, high)`: the slice after the call and the returned
pivot index. -/
def partition (arr : List Int) (low high : Int) : Option (List Int × Int) :=
  match idx arr high with
  | none => none
  | some pivot =>
    match partitionLoop pivot high (arr.length + 1) arr (low - 1) low with
    | none => none
    | some (arr1, i) =>
      match swap arr1 (i + 1) high with
      | none => none
      | some arr2 => some (arr2, i + 1)

/-- `quickSortHelper(arr, low, high)`: the slice after the call, with a budget
for the depth of the recursion. -/
def quickSortHelper : Nat → List Int → Int → Int → Option (List Int)
  | 0, _, _, _ => none
  | fuel + 1, arr, low, high =>
    if low < high then
      match partition arr low high with
      | none => none
      | some (arr1, pi) =>
        match quickSortHelper fuel arr1 low (pi - 1) with
        | none => none
        | some arr2 => quickSortHelper fuel arr2 (pi + 1) high
    else some arr

/-- `QuickSort(arr)`.  The call `rand.Seed` has no effect on the result: no
random number is drawn. -/
def QuickSort (arr : List Int) : Option (List Int) :=
  if (arr.length : Int) ≤ 1 then some arr
  else quickSortHelper (arr.length + 1) arr 0 (arr.length - 1)

/-- One statement `if c < n && arr[c] > arr[largest] then largest = c` of
`heapify`: the new value of `largest`. -/
def pickLarger (arr : List Int) (n largest c : Int) : Option Int :=
  if c < n then
    match idx arr c, idx arr largest with
    | some x, some y => some (if x > y then c else largest)
    | _, _ => none
  else some largest

/-- `heapify(arr, n, i)`: the slice after the call, with a budget for the depth
of the recursion. -/
def heapify (n : Int) : Nat → List Int → Int → Option (List Int)
  | 0, _, _ => none
  | fuel + 1, arr, i =>
    match pickLarger arr n i (2 * i + 1) with
    | none => none
    | some l1 =>
      match pickLarger arr n l1 (2 * i + 2) with
      | none => none
      | some largest =>
        if largest ≠ i then
          match swap arr i largest with
          | none => none
          | some arr1 => heapify n fuel arr1 largest
        else some arr

/-- The loop `for i := n/2 - 1; i >= 0; i--` of `HeapSort`, from `i`. -/
def heapBuild (n : Int) : Nat → List Int → Int → Option (List Int)
  | 0, _, _ => none
  | fuel + 1, result, i =>
    if 0 ≤ i then
      match heapify n (result.length + 1) result i with
      | none => none
      | some r => heapBuild n fuel r (i - 1)
    else some result

/-- The loop `for i := n - 1; i > 0; i--` of `HeapSort`, from `i`. -/
def heapExtract : Nat → List Int → Int → Option (List Int)
  | 0, _, _ => none
  | fuel + 1, result, i =>
    if 0 < i then
      match swap result 0 i with
      | none => none
      | some r1 =>
        match heapify i (result.length + 1) r1 0 with
        | none => none
        | some r2 => heapExtract fuel r2 (i - 1)
    else some result

/-- `HeapSort(arr)`. -/
def HeapSort (arr : List Int) : Option (List Int) :=
  let n : Int := arr.length
  match heapBuild n (arr.length + 1) arr (Int.tdiv n 2 - 1) with
  | none => none
  | some r => heapExtract (arr.length + 1) r (n - 1)

/-- `NativeSort(arr)`. -/
def NativeSort (arr : List Int) : List Int :=
  sortInts arr

/-! ## `data/generator.go` -/

/-- `data.ArrayType` is an `int`; the three declared constants. -/
abbrev ArrayType := Int

/-- `Random` (`iota` = 0). -/
def Random : ArrayType := 0

/-- `Sorted` (1). -/
def Sorted : ArrayType := 1

/-- `ReverseSorted` (2). -/
def ReverseSorted : ArrayType := 2

/-- `GenerateArray(size, arrayType)`.  `rand i` is the raw random draw used for
element `i`; `rand.Intn(size * 2)` reduces it to the range `[0, size * 2)`.
`make([]int, size)` panics on a negative size, and a tag that is none of the
three constants leaves the zero-filled slice. -/
def GenerateArray (rand : Nat → Int) (size : Int) (arrayType : ArrayType) : Option (List Int) :=
  if size < 0 then none
  else if arrayType = Random then
    some ((List.range size.toNat).map (fun i => rand i % (size * 2)))
  else if arrayType = Sorted then
    some ((List.range size.toNat).map (fun i => (i : Int)))
  else if arrayType = ReverseSorted then
    some ((List.range size.toNat).map (fun i => size - (i : Int) - 1))
  else some (List.replicate size.toNat 0)

/-- `GetArrayTypeName(arrayType)`. -/
def GetArrayTypeName (arrayType : ArrayType) : String :=
  if arrayType = Random then "Random"
  else if arrayType = Sorted then "Sorted"
  else if arrayType = ReverseSorted then "Reverse Sorted"
  else "Unknown"

/-- The comparison loop `for i := 0; i < len(originalCopy); i++` of
`VerifySorting`, from `i`. -/
def verifyLoop (originalCopy sorted : List Int) : Nat → Int → Option Bool
  | 0, _ => none
  | fuel + 1, i =>
    if i < originalCopy.length then
      match idx originalCopy i, idx sorted i with
      | some x, some y =>
        if x ≠ y then some false else verifyLoop originalCopy sorted fuel (i + 1)
      | _, _ => none
    else some true

/-- `VerifySorting(original, sorted)`. -/
def VerifySorting (original sorted : List Int) : Option Bool :=
  if original.length ≠ sorted.length then some false
  else verifyLoop (sortInts original) sorted (original.length + 1) 0

/-! ## `benchmark/benchmark.go` -/

/-- Reduction of an integer to the `int64` range (two's complement). -/
def wrapInt64 (x : Int) : Int :=
  (x + 2 ^ 63) % 2 ^ 64 - 2 ^ 63

/-- Reduction of an integer to the `uint64` range. -/
def wrapUint64 (x : Int) : Nat :=
  (x % 2 ^ 64).toNat

/-- `BenchmarkResult`; a `time.Duration` is a number of nanoseconds. -/
structure BenchmarkResult where
  Algorithm : String
  ArrayType : String
  Size : Int
  Duration : Int
  MemoryBefore : Nat
  MemoryAfter : Nat
  MemoryUsed : Nat
  Runs : Int
  MeanDuration : Int
  StdDeviation : Int
  MinDuration : Int
  MaxDuration : Int
deriving DecidableEq, Repr

/-- `BenchmarkConfig`. -/
structure BenchmarkConfig where
  Algorithm : String
  ArrayType : ArrayType
  Size : Int
  Runs : Int
  Target : Int
deriving DecidableEq, Repr

/-- `BenchmarkSuite`: the result store. -/
structure BenchmarkSuite where
  results : List BenchmarkResult
deriving DecidableEq, Repr

/-- What one trial observes of the outside world: the random draws of
`GenerateArray`, the elapsed time `time.Since(start)` in nanoseconds, and the
heap counters `memStatsBefore.Alloc` and `memStatsAfter.Alloc`. -/
structure Trial where
  rand : Nat → Int
  duration : Int
  allocBefore : Nat
  allocAfter : Nat

/-- How a call ends: a normal return, a returned `error` with its message, or a
crash (a run-time panic or an exhausted iteration budget). -/
inductive Outcome (α : Type) where
  | ok (v : α)
  | error (msg : String)
  | crash
deriving DecidableEq, Repr

/-- The value stored in `result interface{}`: an index or a slice. -/
inductive AlgoResult where
  | index (i : Int)
  | slice (a : List Int)
deriving DecidableEq, Repr

/-- The left-hand side of `result = f(...)` for a function that may panic. -/
def liftResult {α : Type} (f : α → AlgoResult) : Option α → Outcome AlgoResult
  | some v => .ok (f v)
  | none => .crash

/-- The `switch config.Algorithm` of `RunBenchmark`. -/
def runAlgorithm (config : BenchmarkConfig) (arr : List Int) : Outcome AlgoResult :=
  if config.Algorithm = "linear_search" then
    .ok (.index (LinearSearch arr config.Target))
  else if config.Algorithm = "binary_search" then
    if config.ArrayType = Sorted then
      liftResult .index (BinarySearchSorted arr config.Target)
    else
      liftResult .index (BinarySearchUnsorted arr config.Target)
  else if config.Algorithm = "bubble_sort" then liftResult .slice (BubbleSort arr)
  else if config.Algorithm = "insertion_sort" then liftResult .slice (InsertionSort arr)
  else if config.Algorithm = "merge_sort" then liftResult .slice (MergeSort arr)
  else if config.Algorithm = "quick_sort" then liftResult .slice (QuickSort arr)
  else if config.Algorithm = "heap_sort" then liftResult .slice (HeapSort arr)
  else if config.Algorithm = "native_sort" then .ok (.slice (NativeSort arr))
  else .error ("unknown algorithm: " ++ config.Algorithm)

/-- The sort verification at the end of a trial, for every algorithm but the two
searches: `ok` when the trial passes, the `sorting verification failed` error
when `VerifySorting` returns false. -/
def verifyTrial (config : BenchmarkConfig) (arr : List Int) (result : AlgoResult) :
    Outcome Unit :=
  if config.Algorithm ≠ "linear_search" ∧ config.Algorithm ≠ "binary_search" then
    match result with
    | .slice sortedResult =>
      match VerifySorting arr sortedResult with
      | none => .crash
      | some true => .ok ()
      | some false => .error ("sorting verification failed for " ++ config.Algorithm)
    | .index _ => .ok ()
  else .ok ()

/-- The loop `for run := 0; run < config.Runs; run++` of `RunBenchmark`, from
`run`, with the samples collected so far; `world k` is what trial `k`
observes. -/
def trialLoop (config : BenchmarkConfig) (world : Nat → Trial) :
    Nat → Int → List Int → List Nat → Outcome (List Int × List Nat)
  | 0, _, _, _ => .crash
  | fuel + 1, run, durations, memoryUsages =>
    if run < config.Runs then
      match GenerateArray (world run.toNat).rand config.Size config.ArrayType with
      | none => .crash
      | some arr =>
        match runAlgorithm config arr with
        | .crash => .crash
        | .error msg => .error msg
        | .ok result =>
          let duration := (world run.toNat).duration
          let memoryUsed :=
            wrapUint64 ((world run.toNat).allocAfter - (world run.toNat).allocBefore)
          let durations := durations ++ [duration]
          let memoryUsages := memoryUsages ++ [memoryUsed]
          match verifyTrial config arr result with
          | .crash => .crash
          | .error msg => .error msg
          | .ok _ => trialLoop config world fuel (run + 1) durations memoryUsages
    else .ok (durations, memoryUsages)

/-- `calculateMean(durations)`, in `int64` arithmetic. -/
def calculateMean (durations : List Int) : Int :=
  if durations.length = 0 then 0
  else
    let total := durations.foldl (fun total d => wrapInt64 (total + d)) 0
    Int.tdiv total durations.length

/-- `calculateStdDeviation(durations, mean)`, in `int64` arithmetic;
`time.Microsecond` is 1000. -/
def calculateStdDeviation (durations : List Int) (mean : Int) : Int :=
  if (durations.length : Int) ≤ 1 then 0
  else
    let sumSquares := durations.foldl
      (fun sumSquares d =>
        let diff := wrapInt64 (d - mean)
        wrapInt64 (sumSquares + wrapInt64 (diff * diff))) 0
    let variance := Int.tdiv sumSquares ((durations.length : Int) - 1)
    wrapInt64 (Int.tdiv variance 1000 * 1000)

/-- `calculateMin(durations)`. -/
def calculateMin (durations : List Int) : Int :=
  match durations with
  | [] => 0
  | d0 :: _ => durations.foldl (fun min d => if d < min then d else min) d0

/-- `calculateMax(durations)`. -/
def calculateMax (durations : List Int) : Int :=
  match durations with
  | [] => 0
  | d0 :: _ => durations.foldl (fun max d => if d > max then d else max) d0

/-- `calculateMeanUint64(values)`, in `uint64` arithmetic. -/
def calculateMeanUint64 (values : List Nat) : Nat :=
  if values.length = 0 then 0
  else
    let total := values.foldl (fun total v => (total + v) % 2 ^ 64) 0
    total / values.length

/-- `NewBenchmarkSuite()`. -/
def NewBenchmarkSuite : BenchmarkSuite :=
  { results := [] }

/-- `(*BenchmarkSuite).RunBenchmark(config)`: what the call returns and the
suite after the call. -/
def RunBenchmark (bs : BenchmarkSuite) (config : BenchmarkConfig) (world : Nat → Trial) :
    Outcome BenchmarkResult × BenchmarkSuite :=
  match trialLoop config world (config.Runs.toNat + 1) 0 [] [] with
  | .crash => (.crash, bs)
  | .error msg => (.error msg, bs)
  | .ok (durations, memoryUsages) =>
    let meanDuration := calculateMean durations
    let stdDeviation := calculateStdDeviation durations meanDuration
    let minDuration := calculateMin durations
    let maxDuration := calculateMax durations
    let meanMemory := calculateMeanUint64 memoryUsages
    let benchmarkResult : BenchmarkResult :=
      { Algorithm := config.Algorithm
        ArrayType := GetArrayTypeName config.ArrayType
        Size := config.Size
        Duration := meanDuration
        MemoryBefore := 0
        MemoryAfter := 0
        MemoryUsed := meanMemory
        Runs := config.Runs
        MeanDuration := meanDuration
        StdDeviation := stdDeviation
        MinDuration := minDuration
        MaxDuration := maxDuration }
    (.ok benchmarkResult, { results := bs.results ++ [benchmarkResult] })

/-- `(*BenchmarkSuite).GetResults()`. -/
def GetResults (bs : BenchmarkSuite) : List BenchmarkResult :=
  bs.results

/-- `(*BenchmarkSuite).ClearResults()`. -/
def ClearResults (_bs : BenchmarkSuite) : BenchmarkSuite :=
  { results := [] }

/-- The local `sumSquares` of `calculateStdDeviation` after its loop, in `int64`
arithmetic. -/
def sumSquaresOf (durations : List Int) (mean : Int) : Int :=
  durations.foldl
    (fun sumSquares d =>
      let diff := wrapInt64 (d - mean)
      wrapInt64 (sumSquares + wrapInt64 (diff * diff))) 0

/-- The local `variance` of `calculateStdDeviation`: the value that the last
line truncates to whole microseconds. -/
def varianceOf (durations : List Int) (mean : Int) : Int :=
  Int.tdiv (sumSquaresOf durations mean) ((durations.length : Int) - 1)

/-- `GetAllArrayTypes()`. -/
def GetAllArrayTypes : List ArrayType :=
  [Random, Sorted, ReverseSorted]

/-- The state of a sweep: the suite, and the calls of `RunBenchmark` made so
far, in order, each with the configuration passed and what the call returned.
The list of calls is not a variable of the program: it records the execution,
so that the order of the calls can be stated. -/
structure SweepState where
  suite : BenchmarkSuite
  calls : List (BenchmarkConfig × Outcome BenchmarkResult)
deriving DecidableEq, Repr

/-- The innermost loop `for _, size := range sizes` of `RunSearchBenchmarks` and
of `RunSortBenchmarks`.  The two functions differ only in their list of
algorithms and in the `Target` field, `target size` here (`size / 2` in the
first, `0` in the second).  `worlds k` is what call number `k` of
`RunBenchmark` in the sweep observes.  An error returned by `RunBenchmark`
ends the sweep with `fmt.Errorf("benchmark failed for %s: %v", algorithm, err)`. -/
def sweepSizes (worlds : Nat → Nat → Trial) (target : Int → Int) (runs : Int)
    (algorithm : String) (arrayType : ArrayType) :
    List Int → SweepState → Outcome Unit × SweepState
  | [], st => (.ok (), st)
  | size :: rest, st =>
    let config : BenchmarkConfig :=
      { Algorithm := algorithm, ArrayType := arrayType, Size := size, Runs := runs,
        Target := target size }
    match RunBenchmark st.suite config (worlds st.calls.length) with
    | (.ok r, bs) =>
      sweepSizes worlds target runs algorithm arrayType rest
        { suite := bs, calls := st.calls ++ [(config, .ok r)] }
    | (.error msg, bs) =>
      (.error ("benchmark failed for " ++ algorithm ++ ": " ++ msg),
        { suite := bs, calls := st.calls ++ [(config, .error msg)] })
    | (.crash, bs) => (.crash, { suite := bs, calls := st.calls ++ [(config, .crash)] })

/-- The middle loop `for _, arrayType := range arrayTypes` of a sweep. -/
def sweepArrayTypes (worlds : Nat → Nat → Trial) (target : Int → Int) (runs : Int)
    (sizes : List Int) (algorithm : String) :
    List ArrayType → SweepState → Outcome Unit × SweepState
  | [], st => (.ok (), st)
  | arrayType :: rest, st =>
    match sweepSizes worlds target runs algorithm arrayType sizes st with
    | (.ok _, st1) => sweepArrayTypes worlds target runs sizes algorithm rest st1
    | (.error msg, st1) => (.error msg, st1)
    | (.crash, st1) => (.crash, st1)

/-- The outer loop `for _, algorithm := range algorithms` of a sweep. -/
def sweepAlgorithms (worlds : Nat → Nat → Trial) (target : Int → Int) (runs : Int)
    (sizes : List Int) (arrayTypes : List ArrayType) :
    List String → SweepState → Outcome Unit × SweepState
  | [], st => (.ok (), st)
  | algorithm :: rest, st =>
    match sweepArrayTypes worlds target runs sizes algorithm arrayTypes st with
    | (.ok _, st1) => sweepAlgorithms worlds target runs sizes arrayTypes rest st1
    | (.error msg, st1) => (.error msg, st1)
    | (.crash, st1) => (.crash, st1)

/-- The `searchAlgorithms` of `RunSearchBenchmarks`. -/
def searchAlgorithms : List String :=
  ["linear_search", "binary_search"]

/-- The `sortAlgorithms` of `RunSortBenchmarks`. -/
def sortAlgorithms : List String :=
  ["bubble_sort", "insertion_sort", "merge_sort", "quick_sort", "heap_sort", "native_sort"]

/-- `(*BenchmarkSuite).RunSearchBenchmarks(sizes, runs)`: the returned error
(`ok` is `nil`) and the state after the call. -/
def RunSearchBenchmarks (bs : BenchmarkSuite) (sizes : List Int) (runs : Int)
    (worlds : Nat → Nat → Trial) : Outcome Unit × SweepState :=
  sweepAlgorithms worlds (fun size => Int.tdiv size 2) runs sizes GetAllArrayTypes
    searchAlgorithms { suite := bs, calls := [] }

/-- `(*BenchmarkSuite).RunSortBenchmarks(sizes, runs)`: the returned error
(`ok` is `nil`) and the state after the call. -/
def RunSortBenchmarks (bs : BenchmarkSuite) (sizes : List Int) (runs : Int)
    (worlds : Nat → Nat → Trial) : Outcome Unit × SweepState :=
  sweepAlgorithms worlds (fun _ => 0) runs sizes GetAllArrayTypes
    sortAlgorithms { suite := bs, calls := [] }

/-! ## `data/generator.go`: loops written out -/

/-- A loop `for i := 0; i < size; i++ { arr[i] = f(i) }` of `GenerateArray`,
from `i`. -/
def fillLoop (f : Int → Int) (size : Int) : Nat → List Int → Int → Option (List Int)
  | 0, _, _ => none
  | fuel + 1, arr, i =>
    if i < size then
      match upd arr i (f i) with
      | none => none
      | some arr1 => fillLoop f size fuel arr1 (i + 1)
    else some arr

/-- `GenerateArray(size, arrayType)` statement by statement: `make([]int, size)`
gives `size` zeros (a panic on a negative size), and the case selected by the
`switch` fills the slice by indexed writes.  It is the function
`GenerateArray` (`generateArrayLoop_eq`). -/
def GenerateArrayLoop (rand : Nat → Int) (size : Int) (arrayType : ArrayType) :
    Option (List Int) :=
  if size < 0 then none
  else
    let arr := List.replicate size.toNat (0 : Int)
    if arrayType = Random then
      fillLoop (fun i => rand i.toNat % (size * 2)) size (size.toNat + 1) arr 0
    else if arrayType = Sorted then
      fillLoop (fun i => i) size (size.toNat + 1) arr 0
    else if arrayType = ReverseSorted then
      fillLoop (fun i => size - i - 1) size (size.toNat + 1) arr 0
    else some arr

/-- The loop `for i := 1; i < len(arr); i++` of `IsSorted`, from `i`. -/
def isSortedLoop (arr : List Int) : Nat → Int → Option Bool
  | 0, _ => none
  | fuel + 1, i =>
    if i < arr.length then
      match idx arr i, idx arr (i - 1) with
      | some x, some y =>
        if x < y then some false else isSortedLoop arr fuel (i + 1)
      | _, _ => none
    else some true

/-- `IsSorted(arr)`. -/
def IsSorted (arr : List Int) : Option Bool :=
  isSortedLoop arr (arr.length + 1) 1

/-! ## `export/export.go` -/

/-- The `header` of `ExportToCSV`. -/
def csvHeader : List String :=
  ["Algorithm", "Array Type", "Size", "Mean Duration (ns)", "Std Deviation (ns)",
    "Min Duration (ns)", "Max Duration (ns)", "Memory Used (bytes)", "Runs"]

/-- The `record` that `ExportToCSV` writes for one result: `strconv.Itoa`,
`strconv.FormatInt(_, 10)` and `strconv.FormatUint(_, 10)` are the decimal
notation. -/
def csvRecord (result : BenchmarkResult) : List String :=
  [result.Algorithm, result.ArrayType, toString result.Size,
    toString result.MeanDuration, toString result.StdDeviation,
    toString result.MinDuration, toString result.MaxDuration,
    toString result.MemoryUsed, toString result.Runs]

/-- `ExportToCSV(results, filename)` when the file is created and every write
succeeds: the rows handed to `writer.Write`, in order. -/
def ExportToCSV (results : List BenchmarkResult) : List (List String) :=
  csvHeader :: results.map csvRecord

/-! ## Sequences of calls on a suite -/

/-- One call of a method of `BenchmarkSuite` that can change the store, with
its arguments and what the call observes of the outside world. -/
inductive SuiteCall where
  | runBenchmark (config : BenchmarkConfig) (world : Nat → Trial)
  | runSearchBenchmarks (sizes : List Int) (runs : Int) (worlds : Nat → Nat → Trial)
  | runSortBenchmarks (sizes : List Int) (runs : Int) (worlds : Nat → Nat → Trial)
  | clearResults

/-- The suite after one call. -/
def applyCall (bs : BenchmarkSuite) : SuiteCall → BenchmarkSuite
  | .runBenchmark config world => (RunBenchmark bs config world).2
  | .runSearchBenchmarks sizes runs worlds => (RunSearchBenchmarks bs sizes runs worlds).2.suite
  | .runSortBenchmarks sizes runs worlds => (RunSortBenchmarks bs sizes runs worlds).2.suite
  | .clearResults => ClearResults bs

/-- The suite after a sequence of calls, made in order. -/
def applyCalls (bs : BenchmarkSuite) (calls : List SuiteCall) : BenchmarkSuite :=
  calls.foldl applyCall bs

/-! ## The sort functions on shared backing arrays

In the definitions above a slice is the list of its elements, which is all
that the results of the functions depend on.  To state which memory a sort
function writes, a slice is here a window into a backing array of a heap, as
in Go: two slices can share a backing array, and a write through one is seen
through the other. -/

/-- A Go slice value: the backing array it points into, the offset of its first
element and its length. -/
structure Slice where
  array : Nat
  off : Nat
  len : Nat
deriving DecidableEq, Repr

/-- The backing arrays allocated so far; array number `k` is element `k`. -/
abbrev Heap := List (List Int)

/-- The elements seen through a slice. -/
def sliceContents (h : Heap) (s : Slice) : List Int :=
  ((h.getD s.array []).drop s.off).take s.len

/-- A freshly allocated backing array holding `l`, and the slice over all of
it: `result := make([]int, len(arr))` followed by `copy(result, arr)`, or the
`result` of `merge` after its appends. -/
def allocSlice (h : Heap) (l : List Int) : Heap × Slice :=
  (h ++ [l], { array := h.length, off := 0, len := l.length })

/-- The heap after the elements seen through `s` are overwritten by `l`. -/
def storeContents (h : Heap) (s : Slice) (l : List Int) : Heap :=
  h.set s.array
    ((h.getD s.array []).take s.off ++ l ++ (h.getD s.array []).drop (s.off + s.len))

/-- A slice value of a program points into an allocated backing array, and its
window lies inside that array. -/
def ValidSlice (h : Heap) (s : Slice) : Prop :=
  s.array < h.length ∧ s.off + s.len ≤ (h.getD s.array []).length

/-- Go `s[i]` as an expression, on the heap. -/
def readAt (h : Heap) (s : Slice) (i : Int) : Option Int :=
  if 0 ≤ i ∧ i < s.len then (h.getD s.array [])[s.off + i.toNat]? else none

/-- Go `s[i] = v` on the heap: one element of the backing array of `s` is
overwritten. -/
def writeAt (h : Heap) (s : Slice) (i : Int) (v : Int) : Option Heap :=
  if 0 ≤ i ∧ i < s.len then
    some (h.set s.array ((h.getD s.array []).set (s.off + i.toNat) v))
  else none

/-- Statements that read and write elements through the slice `s` only, and
whose effect on the elements of `s` is `f`: the heap after them. -/
def inPlace (h : Heap) (s : Slice) (f : List Int → Option (List Int)) : Option Heap :=
  match f (sliceContents h s) with
  | none => none
  | some l => some (storeContents h s l)

/-- `BubbleSort(arr)` on the heap: the loops index `result` only. -/
def BubbleSortMem (h : Heap) (arr : Slice) : Option (Heap × Slice) :=
  match allocSlice h (sliceContents h arr) with
  | (h1, result) =>
    match inPlace h1 result
        (fun r => bubbleOuter (r.length : Int) (r.length + 1) r 0) with
    | none => none
    | some h2 => some (h2, result)

/-- `InsertionSort(arr)` on the heap: the loops index `result` only. -/
def InsertionSortMem (h : Heap) (arr : Slice) : Option (Heap × Slice) :=
  match allocSlice h (sliceContents h arr) with
  | (h1, result) =>
    match inPlace h1 result (fun r => insertionOuter (r.length + 1) r 1) with
    | none => none
    | some h2 => some (h2, result)

/-- `merge(left, right)` on the heap: it reads `left` and `right` and appends to
its own `result`, made with the capacity `len(left)+len(right)`. -/
def mergeMem (h : Heap) (left right : Slice) : Option (Heap × Slice) :=
  match merge (sliceContents h left) (sliceContents h right) with
  | none => none
  | some l => some (allocSlice h l)

/-- `MergeSort(arr)` on the heap, with a budget for the depth of the recursion:
`arr[:mid]` and `arr[mid:]` are windows into the backing array of `arr`, and a
slice of length at most 1 is returned as it is. -/
def mergeSortMemAux : Nat → Heap → Slice → Option (Heap × Slice)
  | 0, _, _ => none
  | fuel + 1, h, arr =>
    if arr.len ≤ 1 then some (h, arr)
    else
      let mid := arr.len / 2
      match mergeSortMemAux fuel h { array := arr.array, off := arr.off, len := mid } with
      | none => none
      | some (h1, left) =>
        match mergeSortMemAux fuel h1
            { array := arr.array, off := arr.off + mid, len := arr.len - mid } with
        | none => none
        | some (h2, right) => mergeMem h2 left right

/-- `MergeSort(arr)` on the heap. -/
def MergeSortMem (h : Heap) (arr : Slice) : Option (Heap × Slice) :=
  mergeSortMemAux (arr.len + 1) h arr

/-- `QuickSort(arr)` on the heap: a slice of length at most 1 is returned as it
is; otherwise `quickSortHelper` and `partition` index `result` only. -/
def QuickSortMem (h : Heap) (arr : Slice) : Option (Heap × Slice) :=
  if arr.len ≤ 1 then some (h, arr)
  else
    match allocSlice h (sliceContents h arr) with
    | (h1, result) =>
      match inPlace h1 result
          (fun r => quickSortHelper (r.length + 1) r 0 ((r.length : Int) - 1)) with
      | none => none
      | some h2 => some (h2, result)

/-- `HeapSort(arr)` on the heap: the two loops and `heapify` index `result`
only; their effect on the elements of `result` is `HeapSort`. -/
def HeapSortMem (h : Heap) (arr : Slice) : Option (Heap × Slice) :=
  match allocSlice h (sliceContents h arr) with
  | (h1, result) =>
    match inPlace h1 result HeapSort with
    | none => none
    | some h2 => some (h2, result)

/-- `NativeSort(arr)` on the heap: `sort.Ints(result)` sorts `result` in
place. -/
def NativeSortMem (h : Heap) (arr : Slice) : Option (Heap × Slice) :=
  match allocSlice h (sliceContents h arr) with
  | (h1, result) =>
    match inPlace h1 result (fun r => some (sortInts r)) with
    | none => none
    | some h2 => some (h2, result)

/-! ## The reads of `BinarySearch` -/

/-- The indices `mid` at which the loop of `BinarySearch` evaluates `arr[mid]`,
in order, the last one included when it is outside the bounds: the same loop
as `binarySearchLoop`, recording its reads. -/
def binarySearchReads (arr : List Int) (target : Int) : Nat → Int → Int → List Int
  | 0, _, _ => []
  | fuel + 1, left, right =>
    if left ≤ right then
      let mid := left + Int.tdiv (right - left) 2
      mid ::
        (match idx arr mid with
        | none => []
        | some v =>
          if v = target then []
          else if v < target then binarySearchReads arr target fuel (mid + 1) right
          else binarySearchReads arr target fuel left (mid - 1))
    else []

/-! ## Specification vocabulary -/

/-- The element at position `i` of a slice (0 outside the bounds); used only
in statements, where the position is known to be in range. -/
def elemAt (a : List Int) (i : Int) : Int :=
  a.getD i.toNat 0

/-- The slice `a` with the elements at positions `i` and `j` exchanged. -/
def swapL (a : List Int) (i j : Int) : List Int :=
  (a.set i.toNat (elemAt a j)).set j.toNat (elemAt a i)

/-- After `i` passes the last `i` positions hold their final values: every
element at a position from `n - i` on is at least every element before it. -/
def SuffixDone (a : List Int) (n i : Int) : Prop :=
  ∀ p q : Int, 0 ≤ p → p < q → q < n → n - i ≤ q → elemAt a p ≤ elemAt a q

/-- What an in-place step confined to the positions `low..high` leaves of a
slice `a`: the length, the multiset of values, every element outside the
range, and every property shared by all elements inside the range. -/
def RangeStable (a r : List Int) (low high : Int) : Prop :=
  r.length = a.length ∧ r.Perm a ∧
  (∀ p : Int, 0 ≤ p → p < low ∨ high < p → elemAt r p = elemAt a p) ∧
  (∀ Q : Int → Prop, (∀ p : Int, low ≤ p → p ≤ high → Q (elemAt a p)) →
    ∀ p : Int, low ≤ p → p ≤ high → Q (elemAt r p))

/-- Node `k` of the heap stored in positions `0..n-1` is at least each of its
children. -/
def HeapAt (a : List Int) (n k : Int) : Prop :=
  (2 * k + 1 < n → elemAt a (2 * k + 1) ≤ elemAt a k) ∧
  (2 * k + 2 < n → elemAt a (2 * k + 2) ≤ elemAt a k)

/-- The configurations of a sweep in the order of the three nested loops:
algorithm outermost, distribution in the middle, size innermost. -/
def sweepConfigs (target : Int → Int) (runs : Int) (sizes : List Int)
    (arrayTypes : List ArrayType) (algorithms : List String) : List BenchmarkConfig :=
  algorithms.flatMap (fun algorithm =>
    arrayTypes.flatMap (fun arrayType =>
      sizes.map (fun size =>
        { Algorithm := algorithm, ArrayType := arrayType, Size := size, Runs := runs,
          Target := target size })))

/-- Running the configurations of a list in order, one call of `RunBenchmark`
each, stopping at the first call that does not return normally. -/
def runConfigs (worlds : Nat → Nat → Trial) :
    List BenchmarkConfig → SweepState → Outcome Unit × SweepState
  | [], st => (.ok (), st)
  | config :: rest, st =>
    match RunBenchmark st.suite config (worlds st.calls.length) with
    | (.ok r, bs) =>
      runConfigs worlds rest { suite := bs, calls := st.calls ++ [(config, .ok r)] }
    | (.error msg, bs) =>
      (.error ("benchmark failed for " ++ config.Algorithm ++ ": " ++ msg),
        { suite := bs, calls := st.calls ++ [(config, .error msg)] })
    | (.crash, bs) => (.crash, { suite := bs, calls := st.calls ++ [(config, .crash)] })

/-- The result of a call that returned normally. -/
def okResult : BenchmarkConfig × Outcome BenchmarkResult → Option BenchmarkResult
  | (_, .ok r) => some r
  | (_, _) => none

/-- No trial of the configuration can fail: on every input slice the algorithm
returns and its result passes the verification. -/
def TrialSafe (config : BenchmarkConfig) : Prop :=
  ∀ arr : List Int, ∃ result : AlgoResult,
    runAlgorithm config arr = .ok result ∧ verifyTrial config arr result = .ok ()

/-- The duration samples of the trials `run`, ..., `config.Runs - 1`. -/
def durationSamples (config : BenchmarkConfig) (world : Nat → Trial) (run : Int) : List Int :=
  (List.range (config.Runs - run).toNat).map (fun k => (world (run.toNat + k)).duration)

/-- The memory samples of the trials `run`, ..., `config.Runs - 1`. -/
def memorySamples (config : BenchmarkConfig) (world : Nat → Trial) (run : Int) : List Nat :=
  (List.range (config.Runs - run).toNat).map (fun k =>
    wrapUint64 ((world (run.toNat + k)).allocAfter - (world (run.toNat + k)).allocBefore))

/-- The record of a sweep over the configurations `E`, started in `st` and
ended in `st1` with `out`: the pairs `R` of the calls that returned normally
with their results, followed by at most one call `tail` that did not.  The
results are appended to the store in the order of the calls, and the sweep
runs the configurations of `E` in order, up to the first call that does not
return normally. -/
def SweepTrace (worlds : Nat → Nat → Trial) (E : List BenchmarkConfig) (st st1 : SweepState)
    (out : Outcome Unit) (R : List (BenchmarkConfig × BenchmarkResult))
    (tail : List (BenchmarkConfig × Outcome BenchmarkResult)) : Prop :=
  st1.calls = st.calls ++ R.map (fun p => (p.1, Outcome.ok p.2)) ++ tail ∧
  st1.suite.results = st.suite.results ++ R.map Prod.snd ∧
  (∀ p ∈ R, p.2.Algorithm = p.1.Algorithm ∧ p.2.Size = p.1.Size ∧ p.2.Runs = p.1.Runs) ∧
  ((tail = [] ∧ out = .ok () ∧ R.map Prod.fst = E) ∨
    (∃ (c : BenchmarkConfig) (e : String) (rest : List BenchmarkConfig),
      tail = [(c, .error e)] ∧
      out = .error ("benchmark failed for " ++ c.Algorithm ++ ": " ++ e) ∧
      E = R.map Prod.fst ++ c :: rest ∧
      RunBenchmark st1.suite c (worlds (st.calls.length + R.length)) =
        (.error e, st1.suite)) ∨
    (∃ (c : BenchmarkConfig) (rest : List BenchmarkConfig),
      tail = [(c, .crash)] ∧ out = .crash ∧ E = R.map Prod.fst ++ c :: rest))

/-- What a call of a sort function on the slice `arr` in the heap `h` has done
when it returned `res`: it returned, with a heap `h1` and a slice `out`; every
backing array that existed before the call is the same in `h1`, so every slice
into one of them, `arr` among them, has the contents it had before; and the
contents of `out` are those of `arr` in non-decreasing order. -/
def LeavesHeapAndSorts (h : Heap) (arr : Slice) (res : Option (Heap × Slice)) : Prop :=
  ∃ (h1 : Heap) (out : Slice), res = some (h1, out) ∧
    (∀ k : Nat, k < h.length → h1.getD k [] = h.getD k []) ∧
    (∀ s : Slice, ValidSlice h s → sliceContents h1 s = sliceContents h s) ∧
    sliceContents h1 arr = sliceContents h arr ∧
    sliceContents h1 out = sortInts (sliceContents h arr)

/-- The sum of the squared differences `(d - mean)^2` over the samples, as a
number, without wrap-around. -/
def sumSquaresExact (durations : List Int) (mean : Int) : Int :=
  (durations.map (fun d => (d - mean) * (d - mean))).sum

/-! ## Slices: basic facts -/

theorem idx_eq {a : List Int} {i : Int} (h0 : 0 ≤ i) (h1 : i < a.length) :
    idx a i = some (elemAt a i) := by
  have h2 : i.toNat < a.length := by omega
  simp [idx, elemAt, List.getD, List.getElem?_eq_getElem h2, not_lt.mpr h0]

theorem idx_some_bounds {a : List Int} {i v : Int} (h : idx a i = some v) :
    0 ≤ i ∧ i < a.length ∧ elemAt a i = v := by
  unfold idx at h
  split at h
  · simp at h
  · rename_i hi
    have h2 := List.getElem?_eq_some_iff.mp h
    obtain ⟨hlt, hv⟩ := h2
    refine ⟨by omega, by omega, ?_⟩
    simp [elemAt, List.getD, List.getElem?_eq_getElem hlt, hv]

theorem upd_eq {a : List Int} {i : Int} (v : Int) (h0 : 0 ≤ i) (h1 : i < a.length) :
    upd a i v = some (a.set i.toNat v) := by
  simp [upd, h0, h1]

theorem elemAt_set {a : List Int} {i p : Int} (v : Int) (h0 : 0 ≤ i) (h1 : i < a.length)
    (hp : 0 ≤ p) : elemAt (a.set i.toNat v) p = if p = i then v else elemAt a p := by
  unfold elemAt
  by_cases hpi : p = i
  · subst hpi
    have h2 : p.toNat < a.length := by omega
    simp [List.getD, List.getElem?_set_self, h2]
  · have hne : i.toNat ≠ p.toNat := by omega
    simp [List.getD, List.getElem?_set_ne hne, hpi]

theorem swap_eq {a : List Int} {i j : Int} (hi0 : 0 ≤ i) (hi1 : i < a.length)
    (hj0 : 0 ≤ j) (hj1 : j < a.length) : swap a i j = some (swapL a i j) := by
  have h1 : j < ((a.set i.toNat (elemAt a j)).length : Int) := by simpa using hj1
  simp [swap, idx_eq hi0 hi1, idx_eq hj0 hj1, upd_eq _ hi0 hi1, upd_eq _ hj0 h1, swapL]

theorem length_swapL (a : List Int) (i j : Int) : (swapL a i j).length = a.length := by
  simp [swapL]

theorem elemAt_swapL {a : List Int} {i j p : Int} (hi0 : 0 ≤ i) (hi1 : i < a.length)
    (hj0 : 0 ≤ j) (hj1 : j < a.length) (hp : 0 ≤ p) :
    elemAt (swapL a i j) p =
      if p = j then elemAt a i else if p = i then elemAt a j else elemAt a p := by
  have h1 : j < ((a.set i.toNat (elemAt a j)).length : Int) := by simpa using hj1
  unfold swapL
  rw [elemAt_set _ hj0 h1 hp, elemAt_set _ hi0 hi1 hp]

theorem elemAt_eq_getElem {a : List Int} {k : Nat} (h : k < a.length) :
    elemAt a (k : Int) = a[k] := by
  simp [elemAt, List.getD, List.getElem?_eq_getElem h]

theorem count_set_add (a : List Int) (k : Nat) (h : k < a.length) (v c : Int) :
    (a.set k v).count c + (if a[k] = c then 1 else 0) =
      a.count c + (if v = c then 1 else 0) := by
  have h1 := List.count_set v c a k h
  have h2 : (if a[k] = c then 1 else 0) ≤ a.count c := by
    split
    · rename_i hc
      have : c ∈ a := hc ▸ List.getElem_mem h
      exact List.count_pos_iff.mpr this
    · omega
  simp only [beq_iff_eq] at h1
  omega

theorem swapL_perm {a : List Int} {i j : Int} (hi0 : 0 ≤ i) (hi1 : i < a.length)
    (hj0 : 0 ≤ j) (hj1 : j < a.length) : (swapL a i j).Perm a := by
  rw [List.perm_iff_count]
  intro c
  have hi : i.toNat < a.length := by omega
  have hj : j.toNat < a.length := by omega
  have hai : elemAt a i = a[i.toNat] := by
    have := elemAt_eq_getElem hi
    rwa [Int.toNat_of_nonneg hi0] at this
  have haj : elemAt a j = a[j.toNat] := by
    have := elemAt_eq_getElem hj
    rwa [Int.toNat_of_nonneg hj0] at this
  unfold swapL
  rw [hai, haj]
  have hj2 : j.toNat < (a.set i.toNat a[j.toNat]).length := by simpa using hj
  have e1 := count_set_add a i.toNat hi a[j.toNat] c
  have e2 := count_set_add (a.set i.toNat a[j.toNat]) j.toNat hj2 a[i.toNat] c
  rw [List.getElem_set] at e2
  by_cases hij : i.toNat = j.toNat
  · simp only [hij, if_true] at e1 e2 ⊢
    omega
  · simp only [hij, if_false] at e2
    omega

theorem sorted_of_elemAt {a : List Int}
    (h : ∀ p q : Int, 0 ≤ p → p < q → q < a.length → elemAt a p ≤ elemAt a q) :
    a.Sorted (· ≤ ·) := by
  rw [List.Sorted, List.pairwise_iff_getElem]
  intro i j hi hj hij
  have := h i j (by omega) (by omega) (by omega)
  rwa [elemAt_eq_getElem hi, elemAt_eq_getElem hj] at this

theorem elemAt_of_sorted {a : List Int} (h : a.Sorted (· ≤ ·)) {p q : Int}
    (hp : 0 ≤ p) (hpq : p ≤ q) (hq : q < a.length) : elemAt a p ≤ elemAt a q := by
  rw [List.Sorted, List.pairwise_iff_getElem] at h
  have hp' : p.toNat < a.length := by omega
  have hq' : q.toNat < a.length := by omega
  have e1 := elemAt_eq_getElem hp'
  have e2 := elemAt_eq_getElem hq'
  rw [Int.toNat_of_nonneg hp] at e1
  rw [Int.toNat_of_nonneg (by omega)] at e2
  rw [e1, e2]
  rcases Nat.lt_or_ge p.toNat q.toNat with hlt | hge
  · exact h _ _ hp' hq' hlt
  · have : p.toNat = q.toNat := by omega
    simp [this]

theorem sortInts_sorted (a : List Int) : (sortInts a).Sorted (· ≤ ·) :=
  List.sorted_insertionSort (· ≤ ·) a

theorem sortInts_perm (a : List Int) : (sortInts a).Perm a :=
  List.perm_insertionSort (· ≤ ·) a

theorem sortInts_length (a : List Int) : (sortInts a).length = a.length :=
  (sortInts_perm a).length_eq

/-- A list of integers has exactly one non-decreasing rearrangement. -/
theorem sortInts_unique {a out : List Int} (hp : out.Perm a) (hs : out.Sorted (· ≤ ·)) :
    out = sortInts a :=
  List.eq_of_perm_of_sorted (hp.trans (sortInts_perm a).symm) hs (sortInts_sorted a)

/-! ## Searching -/

theorem mem_iff_elemAt {a : List Int} {t : Int} :
    t ∈ a ↔ ∃ p : Int, 0 ≤ p ∧ p < a.length ∧ elemAt a p = t := by
  constructor
  · intro h
    obtain ⟨k, hk, e⟩ := List.getElem_of_mem h
    exact ⟨k, by omega, by omega, by rw [elemAt_eq_getElem hk, e]⟩
  · rintro ⟨p, hp0, hp1, e⟩
    have hk : p.toNat < a.length := by omega
    have e1 := elemAt_eq_getElem hk
    rw [Int.toNat_of_nonneg hp0, e] at e1
    exact e1 ▸ List.getElem_mem hk

theorem getElem?_toNat_eq {a : List Int} {p : Int} (hp0 : 0 ≤ p) (hp1 : p < a.length) :
    a[p.toNat]? = some (elemAt a p) := by
  have hk : p.toNat < a.length := by omega
  simp [elemAt, List.getD, List.getElem?_eq_getElem hk]

theorem linearSearchFrom_absent {t : Int} {l : List Int} (h : t ∉ l) (i : Int) :
    linearSearchFrom t l i = -1 := by
  induction l generalizing i with
  | nil => rfl
  | cons v rest ih =>
    have hv : v ≠ t := fun e => h (by simp [e])
    have hr : t ∉ rest := fun e => h (by simp [e])
    simp [linearSearchFrom, hv, ih hr]

theorem linearSearchFrom_present {t : Int} {l : List Int} (h : t ∈ l) (i : Int) :
    ∃ k : Nat, linearSearchFrom t l i = i + k ∧ l[k]? = some t ∧
      ∀ m : Nat, m < k → l[m]? ≠ some t := by
  induction l generalizing i with
  | nil => simp at h
  | cons v rest ih =>
    by_cases hv : v = t
    · exact ⟨0, by simp [linearSearchFrom, hv], by simp [hv], by simp⟩
    · have hr : t ∈ rest := by
        rcases List.mem_cons.mp h with e | e
        · exact absurd e.symm hv
        · exact e
      obtain ⟨k, e1, e2, e3⟩ := ih hr (i + 1)
      refine ⟨k + 1, ?_, by simpa using e2, ?_⟩
      · simp only [linearSearchFrom, hv, if_false, e1]
        push_cast
        omega
      · intro m hm
        cases m with
        | zero => simpa using hv
        | succ m => simpa using e3 m (by omega)

theorem linearSearch_present {t : Int} {arr : List Int} (h : t ∈ arr) :
    0 ≤ LinearSearch arr t ∧ LinearSearch arr t < arr.length ∧
      arr[(LinearSearch arr t).toNat]? = some t ∧
      ∀ k : Nat, (k : Int) < LinearSearch arr t → arr[k]? ≠ some t := by
  obtain ⟨k, e1, e2, e3⟩ := linearSearchFrom_present h 0
  have hk : k < arr.length := by
    rcases Nat.lt_or_ge k arr.length with h1 | h1
    · exact h1
    · rw [List.getElem?_eq_none h1] at e2
      simp at e2
  have e : LinearSearch arr t = k := by simp [LinearSearch, e1]
  rw [e]
  refine ⟨by omega, by omega, by simpa using e2, ?_⟩
  intro m hm
  exact e3 m (by omega)

theorem binarySearchLoop_sorted {arr : List Int} (hs : arr.Sorted (· ≤ ·)) (t : Int) :
    ∀ (fuel : Nat) (left right : Int), 0 ≤ left → right < arr.length →
      left ≤ right + 1 → right - left + 1 < fuel →
      (∀ p : Int, 0 ≤ p → p < arr.length → elemAt arr p = t → left ≤ p ∧ p ≤ right) →
      ∃ r : Int, binarySearchLoop arr t fuel left right = some r ∧
        ((r = -1 ∧ ∀ p : Int, 0 ≤ p → p < arr.length → elemAt arr p ≠ t) ∨
          (0 ≤ r ∧ r < arr.length ∧ elemAt arr r = t)) := by
  intro fuel
  induction fuel with
  | zero => intro left right _ _ _ h; omega
  | succ fuel ih =>
    intro left right hl hr hlr1 hf hinv
    by_cases hlr : left ≤ right
    · have hmid : Int.tdiv (right - left) 2 = (right - left) / 2 :=
        Int.tdiv_eq_ediv (by omega) (by omega)
      have hm0 : 0 ≤ left + (right - left) / 2 := by omega
      have hm1 : left + (right - left) / 2 < arr.length := by omega
      simp only [binarySearchLoop, hlr, if_true, hmid, idx_eq hm0 hm1]
      by_cases hv : elemAt arr (left + (right - left) / 2) = t
      · exact ⟨_, by simp [hv], Or.inr ⟨hm0, hm1, hv⟩⟩
      · simp only [hv, if_false]
        by_cases hlt : elemAt arr (left + (right - left) / 2) < t
        · simp only [hlt, if_true]
          apply ih _ _ (by omega) hr (by omega) (by omega)
          intro p hp0 hp1 hpt
          have := hinv p hp0 hp1 hpt
          refine ⟨?_, this.2⟩
          by_contra hc
          have := elemAt_of_sorted hs hp0 (show p ≤ left + (right - left) / 2 by omega) hm1
          omega
        · simp only [hlt, if_false]
          apply ih _ _ hl (by omega) (by omega) (by omega)
          intro p hp0 hp1 hpt
          have := hinv p hp0 hp1 hpt
          refine ⟨this.1, ?_⟩
          by_contra hc
          have := elemAt_of_sorted hs hm0 (show left + (right - left) / 2 ≤ p by omega) hp1
          omega
    · refine ⟨-1, by simp [binarySearchLoop, hlr], Or.inl ⟨rfl, ?_⟩⟩
      intro p hp0 hp1 hpt
      have := hinv p hp0 hp1 hpt
      omega

theorem binarySearch_sorted {arr : List Int} (hs : arr.Sorted (· ≤ ·)) (t : Int) :
    ∃ r : Int, BinarySearch arr t = some r ∧
      ((r = -1 ∧ t ∉ arr) ∨ (0 ≤ r ∧ r < arr.length ∧ elemAt arr r = t)) := by
  obtain ⟨r, e, h⟩ := binarySearchLoop_sorted hs t (arr.length + 1) 0 (arr.length - 1)
    (by omega) (by omega) (by omega) (by push_cast; omega) (by intro p h0 h1 _; omega)
  refine ⟨r, e, ?_⟩
  rcases h with ⟨h1, h2⟩ | h
  · left
    refine ⟨h1, ?_⟩
    intro hm
    obtain ⟨p, hp0, hp1, hp⟩ := mem_iff_elemAt.mp hm
    exact h2 p hp0 hp1 hp
  · exact Or.inr h

theorem binarySearchUnsorted_eq (arr : List Int) (t : Int) :
    BinarySearchUnsorted arr t = some (LinearSearch arr t) := by
  obtain ⟨r, e, h⟩ := binarySearch_sorted (sortInts_sorted arr) t
  rcases h with ⟨h1, h2⟩ | ⟨h0, h1, h2⟩
  · have hn : t ∉ arr := fun hm => h2 ((sortInts_perm arr).mem_iff.mpr hm)
    simp [BinarySearchUnsorted, e, h1, LinearSearch, linearSearchFrom_absent hn]
  · have hne : r ≠ -1 := by omega
    simp [BinarySearchUnsorted, e, hne, idx_eq h0 h1, h2, LinearSearch]

/-! ## `VerifySorting` -/

theorem list_eq_of_elemAt {c s : List Int} (hlen : c.length = s.length)
    (h : ∀ p : Int, 0 ≤ p → p < c.length → elemAt c p = elemAt s p) : c = s := by
  apply List.ext_getElem hlen
  intro k h1 h2
  have := h k (by omega) (by omega)
  rwa [elemAt_eq_getElem h1, elemAt_eq_getElem h2] at this

theorem verifyLoop_eq {c s : List Int} (hlen : c.length = s.length) :
    ∀ (fuel : Nat) (i : Int), 0 ≤ i → i ≤ c.length → c.length - i < fuel →
      (∀ p : Int, 0 ≤ p → p < i → elemAt c p = elemAt s p) →
      verifyLoop c s fuel i = some (decide (c = s)) := by
  intro fuel
  induction fuel with
  | zero => intro i _ _ h; omega
  | succ fuel ih =>
    intro i hi0 hi1 hf hinv
    by_cases hlt : i < c.length
    · have hs : i < s.length := by omega
      simp only [verifyLoop, hlt, if_true, idx_eq hi0 hlt, idx_eq hi0 hs]
      by_cases hv : elemAt c i = elemAt s i
      · simp only [ne_eq, hv, not_true_eq_false, if_false]
        apply ih (i + 1) (by omega) (by omega) (by omega)
        intro p hp0 hp1
        by_cases hpi : p = i
        · rw [hpi, hv]
        · exact hinv p hp0 (by omega)
      · have hne : c ≠ s := fun e => hv (by rw [e])
        simp [hv, hne]
    · have hcs : c = s := list_eq_of_elemAt hlen (fun p hp0 hp1 => hinv p hp0 (by omega))
      simp only [verifyLoop, hlt, if_false]
      simp [hcs]

theorem verifySorting_eq (original out : List Int) :
    VerifySorting original out = some (decide (out = sortInts original)) := by
  unfold VerifySorting
  by_cases hlen : original.length = out.length
  · have h1 : (sortInts original).length = out.length := by rw [sortInts_length, hlen]
    have h2 := verifyLoop_eq h1 (original.length + 1) 0 (by omega) (by omega)
      (by rw [sortInts_length]; push_cast; omega) (by intro p h0 h1; omega)
    rw [if_neg (not_not.mpr hlen), h2]
    by_cases e : sortInts original = out
    · simp [e]
    · have e2 : ¬ out = sortInts original := fun h => e h.symm
      simp [e, e2]
  · have hne : out ≠ sortInts original := by
      intro e
      apply hlen
      rw [e, sortInts_length]
    simp [hlen, hne]

/-! ## `BubbleSort` -/

theorem adjacent_le_chain {a : List Int} {m : Int}
    (h : ∀ p : Int, 0 ≤ p → p < m → elemAt a p ≤ elemAt a (p + 1)) :
    ∀ (d : Nat) (p : Int), 0 ≤ p → p + d ≤ m → elemAt a p ≤ elemAt a (p + d) := by
  intro d
  induction d with
  | zero => intro p _ _; simp
  | succ d ih =>
    intro p hp0 hpd
    have h1 := ih p hp0 (by push_cast at hpd; omega)
    have h2 := h (p + d) (by omega) (by push_cast at hpd; omega)
    have e : p + ((d + 1 : Nat) : Int) = p + d + 1 := by push_cast; omega
    rw [e]
    omega

theorem bubbleInner_spec (n i : Int) (hi : 0 ≤ i) :
    ∀ (fuel : Nat) (a : List Int) (j : Int) (swapped : Bool),
      (a.length : Int) = n → 0 ≤ j → j ≤ n - i - 1 → n - i - 1 - j < fuel →
      SuffixDone a n i →
      (∀ p : Int, 0 ≤ p → p < j → elemAt a p ≤ elemAt a j) →
      ∃ (r : List Int) (sw : Bool), bubbleInner n i fuel a j swapped = some (r, sw) ∧
        (r.length : Int) = n ∧ r.Perm a ∧ SuffixDone r n i ∧
        (∀ p : Int, 0 ≤ p → p < n - i - 1 → elemAt r p ≤ elemAt r (n - i - 1)) ∧
        (sw = false → swapped = false ∧ r = a ∧
          ∀ p : Int, j ≤ p → p < n - i - 1 → elemAt a p ≤ elemAt a (p + 1)) := by
  intro fuel
  induction fuel with
  | zero => intro a j _ _ _ _ h; omega
  | succ fuel ih =>
    intro a j swapped hlen hj0 hj1 hf hsuf hmax
    by_cases hlt : j < n - i - 1
    · have b0 : j < a.length := by omega
      have b1 : j + 1 < a.length := by omega
      have b2 : (0 : Int) ≤ j + 1 := by omega
      simp only [bubbleInner, hlt, if_true, idx_eq hj0 b0, idx_eq b2 b1]
      by_cases hgt : elemAt a j > elemAt a (j + 1)
      · simp only [hgt, if_true, swap_eq hj0 b0 b2 b1]
        have hel : ∀ p : Int, 0 ≤ p → elemAt (swapL a j (j + 1)) p =
            if p = j + 1 then elemAt a j else if p = j then elemAt a (j + 1) else elemAt a p :=
          fun p hp => elemAt_swapL hj0 b0 b2 b1 hp
        have hlen1 : ((swapL a j (j + 1)).length : Int) = n := by rw [length_swapL]; exact hlen
        have hsuf1 : SuffixDone (swapL a j (j + 1)) n i := by
          intro p q hp0 hpq hqn hq
          rw [hel p hp0, hel q (by omega)]
          have hq1 : q ≠ j + 1 := by omega
          have hq2 : q ≠ j := by omega
          simp only [hq1, hq2, if_false]
          split_ifs
          · exact hsuf j q hj0 (by omega) hqn hq
          · exact hsuf (j + 1) q b2 (by omega) hqn hq
          · exact hsuf p q hp0 hpq hqn hq
        have hmax1 : ∀ p : Int, 0 ≤ p → p < j + 1 →
            elemAt (swapL a j (j + 1)) p ≤ elemAt (swapL a j (j + 1)) (j + 1) := by
          intro p hp0 hp1
          rw [hel p hp0, hel (j + 1) b2]
          have hp2 : p ≠ j + 1 := by omega
          simp only [hp2, if_false, if_true]
          split_ifs
          · omega
          · exact hmax p hp0 (by omega)
        obtain ⟨r, sw, e, h1, h2, h3, h4, h5⟩ :=
          ih (swapL a j (j + 1)) (j + 1) true hlen1 b2 (by omega) (by omega) hsuf1 hmax1
        refine ⟨r, sw, e, h1, h2.trans (swapL_perm hj0 b0 b2 b1), h3, h4, ?_⟩
        intro hsw
        have := (h5 hsw).1
        simp at this
      · simp only [hgt, if_false]
        have hmax1 : ∀ p : Int, 0 ≤ p → p < j + 1 → elemAt a p ≤ elemAt a (j + 1) := by
          intro p hp0 hp1
          by_cases hpj : p = j
          · rw [hpj]; omega
          · have := hmax p hp0 (by omega)
            omega
        obtain ⟨r, sw, e, h1, h2, h3, h4, h5⟩ :=
          ih a (j + 1) swapped hlen b2 (by omega) (by omega) hsuf hmax1
        refine ⟨r, sw, e, h1, h2, h3, h4, ?_⟩
        intro hsw
        obtain ⟨k1, k2, k3⟩ := h5 hsw
        refine ⟨k1, k2, ?_⟩
        intro p hp0 hp1
        by_cases hpj : p = j
        · rw [hpj]; omega
        · exact k3 p (by omega) hp1
    · have hj : j = n - i - 1 := by omega
      refine ⟨a, swapped, by simp [bubbleInner, hlt], hlen, List.Perm.refl _, hsuf, ?_, ?_⟩
      · intro p hp0 hp1
        rw [← hj]
        exact hmax p hp0 (by omega)
      · intro hsw
        refine ⟨hsw, rfl, ?_⟩
        intro p hp0 hp1
        omega

theorem bubbleOuter_spec (n : Int) :
    ∀ (fuel : Nat) (a : List Int) (i : Int),
      (a.length : Int) = n → 0 ≤ i → 0 < fuel → n - 1 - i < fuel → SuffixDone a n i →
      ∃ r : List Int, bubbleOuter n fuel a i = some r ∧ r.Perm a ∧ r.Sorted (· ≤ ·) := by
  intro fuel
  induction fuel with
  | zero =>
    intro a i _ _ h0
    omega
  | succ fuel ih =>
    intro a i hlen hi _ hf hsuf
    by_cases hlt : i < n - 1
    · obtain ⟨r, sw, e, h1, h2, h3, h4, h5⟩ :=
        bubbleInner_spec n i hi (a.length + 1) a 0 false hlen (by omega) (by omega)
          (by push_cast; omega) hsuf (by intro p h0 h1; omega)
      simp only [bubbleOuter, hlt, if_true, e]
      cases sw with
      | false =>
        obtain ⟨_, hra, hadj⟩ := h5 rfl
        refine ⟨r, by simp, h2, ?_⟩
        subst hra
        apply sorted_of_elemAt
        intro p q hp0 hpq hq
        by_cases hqs : n - i ≤ q
        · exact hsuf p q hp0 hpq (by omega) hqs
        · have hd := adjacent_le_chain (m := n - i - 1) (fun p h0 h1 => hadj p h0 h1)
            (q - p).toNat p hp0 (by omega)
          have e2 : p + ((q - p).toNat : Int) = q := by omega
          rwa [e2] at hd
      | true =>
        have hsuf1 : SuffixDone r n (i + 1) := by
          intro p q hp0 hpq hqn hq
          by_cases hqs : n - i ≤ q
          · exact h3 p q hp0 hpq hqn hqs
          · have hq2 : q = n - i - 1 := by omega
            rw [hq2]
            exact h4 p hp0 (by omega)
        obtain ⟨r2, e2, k1, k2⟩ := ih r (i + 1) h1 (by omega) (by omega) (by omega) hsuf1
        exact ⟨r2, by simpa using e2, k1.trans h2, k2⟩
    · refine ⟨a, by simp [bubbleOuter, hlt], List.Perm.refl _, ?_⟩
      apply sorted_of_elemAt
      intro p q hp0 hpq hq
      exact hsuf p q hp0 hpq (by omega) (by omega)

theorem bubbleSort_spec (arr : List Int) :
    ∃ out : List Int, BubbleSort arr = some out ∧ out.Perm arr ∧ out.Sorted (· ≤ ·) := by
  apply bubbleOuter_spec arr.length (arr.length + 1) arr 0 rfl (by omega) (by omega) (by push_cast; omega)
  intro p q hp0 hpq hqn hq
  omega

/-! ## `InsertionSort` -/

theorem idx_append_cons (l1 l2 : List Int) (x : Int) (i : Int) (hi : i = l1.length) :
    idx (l1 ++ x :: l2) i = some x := by
  subst hi
  have h : (l1 ++ x :: l2)[l1.length]? = some x := by
    rw [List.getElem?_append_right (le_refl _)]
    simp
  have h2 : ¬ ((l1.length : Int) < 0) := by omega
  simp only [idx, h2, if_false, Int.toNat_ofNat, h]

theorem upd_append_cons (l1 l2 : List Int) (x v : Int) (i : Int) (hi : i = l1.length) :
    upd (l1 ++ x :: l2) i v = some (l1 ++ v :: l2) := by
  subst hi
  have h : (l1.length : Int) < (l1.length : Int) + ((l2.length : Int) + 1) := by omega
  simp [upd, h]

theorem insertionInner_spec (key : Int) (S : List Int) :
    ∀ (fuel : Nat) (A B : List Int) (h : Int), A.length < fuel → (∀ x ∈ B, key < x) →
      ∃ (A1 B1 : List Int) (h1 : Int),
        insertionInner key fuel (A ++ h :: (B ++ S)) ((A.length : Int) - 1) =
          some (A1 ++ h1 :: (B1 ++ S), (A1.length : Int) - 1) ∧
        A1 ++ B1 = A ++ B ∧ (∀ x ∈ B1, key < x) ∧
        (∀ (A0 : List Int) (y : Int), A1 = A0 ++ [y] → y ≤ key) := by
  intro fuel
  induction fuel with
  | zero => intro A B h hf; omega
  | succ fuel ih =>
    intro A B h hf hB
    rcases List.eq_nil_or_concat A with hA | ⟨A0, x, hA⟩
    · subst hA
      refine ⟨[], B, h, by simp [insertionInner], rfl, hB, ?_⟩
      intro A0 y e
      simp at e
    · rw [List.concat_eq_append] at hA
      subst hA
      have hj : ((A0 ++ [x]).length : Int) - 1 = A0.length := by simp
      have hj0 : (0 : Int) ≤ A0.length := by omega
      have e1 : idx (A0 ++ [x] ++ h :: (B ++ S)) (A0.length : Int) = some x := by
        rw [List.append_assoc]
        exact idx_append_cons A0 _ x _ rfl
      rw [hj]
      simp only [insertionInner, hj0, if_true, e1]
      by_cases hx : x > key
      · have e2 : upd (A0 ++ [x] ++ h :: (B ++ S)) ((A0.length : Int) + 1) x =
            some (A0 ++ x :: ((x :: B) ++ S)) := by
          rw [upd_append_cons (A0 ++ [x]) (B ++ S) h x _ (by simp)]
          simp
        simp only [hx, if_true, e2]
        have hB1 : ∀ y ∈ x :: B, key < y := by
          intro y hy
          rcases List.mem_cons.mp hy with e | e
          · rw [e]; exact hx
          · exact hB y e
        obtain ⟨A1, B1, h1, k1, k2, k3, k4⟩ :=
          ih A0 (x :: B) x (by simp at hf; omega) hB1
        exact ⟨A1, B1, h1, k1, by simp [k2], k3, k4⟩
      · simp only [hx, if_false]
        refine ⟨A0 ++ [x], B, h, ?_, rfl, hB, ?_⟩
        · simp
        · intro A2 y e
          have := List.append_inj_right' e rfl
          simp at this
          omega

theorem sorted_insert_middle {A B : List Int} {key : Int} (hs : (A ++ B).Sorted (· ≤ ·))
    (hB : ∀ x ∈ B, key < x) (hA : ∀ (A0 : List Int) (y : Int), A = A0 ++ [y] → y ≤ key) :
    (A ++ key :: B).Sorted (· ≤ ·) := by
  rw [List.Sorted, List.pairwise_append] at hs ⊢
  obtain ⟨s1, s2, s3⟩ := hs
  refine ⟨s1, ?_, ?_⟩
  · rw [List.pairwise_cons]
    exact ⟨fun y hy => le_of_lt (hB y hy), s2⟩
  · have hk : ∀ x ∈ A, x ≤ key := by
      rcases List.eq_nil_or_concat A with e | ⟨A0, y, e⟩
      · subst e; simp
      · rw [List.concat_eq_append] at e
        subst e
        have hy := hA A0 y rfl
        rw [List.pairwise_append] at s1
        intro x hx
        rcases List.mem_append.mp hx with h1 | h1
        · have := s1.2.2 x h1 y (by simp)
          omega
        · simp at h1
          omega
    intro x hx y hy
    rcases List.mem_cons.mp hy with e | e
    · rw [e]; exact hk x hx
    · exact s3 x hx y e

theorem insertionOuter_spec :
    ∀ (fuel : Nat) (a : List Int) (i : Int), 0 ≤ i → 0 < fuel → (a.length : Int) - i < fuel →
      (a.take i.toNat).Sorted (· ≤ ·) →
      ∃ r : List Int, insertionOuter fuel a i = some r ∧ r.Perm a ∧ r.Sorted (· ≤ ·) := by
  intro fuel
  induction fuel with
  | zero => intro a i _ h; omega
  | succ fuel ih =>
    intro a i hi0 _ hf hs
    by_cases hlt : i < a.length
    · have hk : i.toNat < a.length := by omega
      have hsplit : a = a.take i.toNat ++ a[i.toNat] :: ([] ++ a.drop (i.toNat + 1)) := by
        rw [List.nil_append, ← List.drop_eq_getElem_cons hk, List.take_append_drop]
      have hkey : elemAt a i = a[i.toNat] := by
        have := elemAt_eq_getElem hk
        rwa [Int.toNat_of_nonneg hi0] at this
      have hlenP : ((a.take i.toNat).length : Int) = i := by
        rw [List.length_take]; omega
      obtain ⟨A1, B1, h1, k1, k2, k3, k4⟩ :=
        insertionInner_spec a[i.toNat] (a.drop (i.toNat + 1)) (a.length + 1)
          (a.take i.toNat) [] a[i.toNat] (by rw [List.length_take]; omega) (by simp)
      rw [← hsplit, hlenP] at k1
      simp only [insertionOuter, hlt, if_true, idx_eq hi0 hlt, hkey, k1]
      rw [upd_append_cons A1 _ h1 _ _ (by omega)]
      simp only
      have hperm : (A1 ++ a[i.toNat] :: (B1 ++ a.drop (i.toNat + 1))).Perm a := by
        have p1 : (A1 ++ a[i.toNat] :: (B1 ++ a.drop (i.toNat + 1))).Perm
            (a[i.toNat] :: (A1 ++ (B1 ++ a.drop (i.toNat + 1)))) := List.perm_middle
        have p2 : (a.take i.toNat ++ a[i.toNat] :: a.drop (i.toNat + 1)).Perm
            (a[i.toNat] :: (a.take i.toNat ++ a.drop (i.toNat + 1))) := List.perm_middle
        have e : A1 ++ (B1 ++ a.drop (i.toNat + 1)) =
            a.take i.toNat ++ a.drop (i.toNat + 1) := by
          rw [← List.append_assoc, k2, List.append_nil]
        rw [e] at p1
        have e2 : a = a.take i.toNat ++ a[i.toNat] :: a.drop (i.toNat + 1) := by
          rw [← List.drop_eq_getElem_cons hk, List.take_append_drop]
        exact (p1.trans p2.symm).trans (List.Perm.of_eq e2.symm)
      have hlen2 : (A1 ++ a[i.toNat] :: (B1 ++ a.drop (i.toNat + 1))).length = a.length :=
        hperm.length_eq
      have hAB : A1.length + B1.length = i.toNat := by
        have := congrArg List.length k2
        simp only [List.length_append, List.length_nil, List.length_take] at this
        omega
      have htake : (A1 ++ a[i.toNat] :: (B1 ++ a.drop (i.toNat + 1))).take (i + 1).toNat =
          A1 ++ a[i.toNat] :: B1 := by
        have e : A1 ++ a[i.toNat] :: (B1 ++ a.drop (i.toNat + 1)) =
            (A1 ++ a[i.toNat] :: B1) ++ a.drop (i.toNat + 1) := by simp
        rw [e]
        apply List.take_left'
        simp only [List.length_append, List.length_cons]
        omega
      have hs2 : (A1 ++ a[i.toNat] :: B1).Sorted (· ≤ ·) := by
        apply sorted_insert_middle _ k3 k4
        rw [k2, List.append_nil]
        exact hs
      obtain ⟨r, e, p, s⟩ := ih (A1 ++ a[i.toNat] :: (B1 ++ a.drop (i.toNat + 1))) (i + 1)
        (by omega) (by omega) (by rw [hlen2]; omega) (by rw [htake]; exact hs2)
      exact ⟨r, e, p.trans hperm, s⟩
    · refine ⟨a, by simp [insertionOuter, hlt], List.Perm.refl _, ?_⟩
      rwa [List.take_of_length_le (by omega)] at hs

theorem insertionSort_spec (arr : List Int) :
    ∃ out : List Int, InsertionSort arr = some out ∧ out.Perm arr ∧ out.Sorted (· ≤ ·) := by
  apply insertionOuter_spec (arr.length + 1) arr 1 (by omega) (by omega) (by push_cast; omega)
  have h1 : (1 : Int).toNat = 1 := rfl
  rw [h1]
  cases arr with
  | nil => simp
  | cons x xs => simp

/-! ## `MergeSort` -/

theorem sliceFrom_eq {a : List Int} {k : Nat} (h : k ≤ a.length) :
    sliceFrom a (k : Int) = some (a.drop k) := by
  have h1 : (k : Int) ≤ a.length := by omega
  simp [sliceFrom, h1]

theorem sliceTo_eq {a : List Int} {k : Nat} (h : k ≤ a.length) :
    sliceTo a (k : Int) = some (a.take k) := by
  have h1 : (k : Int) ≤ a.length := by omega
  simp [sliceTo, h1]

theorem sorted_tail_of_drop {a : List Int} {k : Nat} (hk : k < a.length)
    (hs : (a.drop k).Sorted (· ≤ ·)) :
    (a.drop (k + 1)).Sorted (· ≤ ·) ∧ ∀ z ∈ a.drop (k + 1), a[k] ≤ z := by
  rw [List.drop_eq_getElem_cons hk, List.Sorted, List.pairwise_cons] at hs
  exact ⟨hs.2, hs.1⟩

theorem mergeLoop_spec (left right : List Int) :
    ∀ (fuel : Nat) (res : List Int) (i j : Nat), i ≤ left.length → j ≤ right.length →
      (left.length - i) + (right.length - j) < fuel →
      (left.drop i).Sorted (· ≤ ·) → (right.drop j).Sorted (· ≤ ·) →
      ∃ (res1 : List Int) (i1 j1 : Nat),
        mergeLoop left right fuel res i j = some (res1, (i1 : Int), (j1 : Int)) ∧
        i1 ≤ left.length ∧ j1 ≤ right.length ∧
        ∃ T : List Int, (res1 ++ left.drop i1) ++ right.drop j1 = res ++ T ∧
          T.Perm (left.drop i ++ right.drop j) ∧ T.Sorted (· ≤ ·) := by
  intro fuel
  induction fuel with
  | zero => intro res i j _ _ h; omega
  | succ fuel ih =>
    intro res i j hi hj hf hl hr
    by_cases hc : (i : Int) < left.length ∧ (j : Int) < right.length
    · obtain ⟨hc1, hc2⟩ := hc
      have hi1 : i < left.length := by omega
      have hj1 : j < right.length := by omega
      have ex : elemAt left i = left[i] := elemAt_eq_getElem hi1
      have ey : elemAt right j = right[j] := elemAt_eq_getElem hj1
      obtain ⟨hl1, hl2⟩ := sorted_tail_of_drop hi1 hl
      obtain ⟨hr1, hr2⟩ := sorted_tail_of_drop hj1 hr
      simp only [mergeLoop, hc1, hc2, and_self, if_true,
        idx_eq (Int.natCast_nonneg i) hc1, idx_eq (Int.natCast_nonneg j) hc2, ex, ey]
      by_cases hxy : left[i] ≤ right[j]
      · simp only [hxy, if_true]
        obtain ⟨res1, i1, j1, e, b1, b2, T, t1, t2, t3⟩ :=
          ih (res ++ [left[i]]) (i + 1) j (by omega) hj (by omega) hl1 hr
        refine ⟨res1, i1, j1, by exact_mod_cast e, b1, b2, left[i] :: T, by simp [t1], ?_, ?_⟩
        · rw [List.drop_eq_getElem_cons hi1]
          exact List.Perm.cons _ t2
        · rw [List.Sorted, List.pairwise_cons]
          refine ⟨?_, t3⟩
          intro z hz
          rcases List.mem_append.mp (t2.mem_iff.mp hz) with h1 | h1
          · exact hl2 z h1
          · rw [List.drop_eq_getElem_cons hj1] at h1
            rcases List.mem_cons.mp h1 with h2 | h2
            · rw [h2]; exact hxy
            · exact le_trans hxy (hr2 z h2)
      · simp only [hxy, if_false]
        obtain ⟨res1, i1, j1, e, b1, b2, T, t1, t2, t3⟩ :=
          ih (res ++ [right[j]]) i (j + 1) hi (by omega) (by omega) hl hr1
        refine ⟨res1, i1, j1, by exact_mod_cast e, b1, b2, right[j] :: T, by simp [t1], ?_, ?_⟩
        · rw [List.drop_eq_getElem_cons hj1]
          exact (List.Perm.cons _ t2).trans List.perm_middle.symm
        · rw [List.Sorted, List.pairwise_cons]
          refine ⟨?_, t3⟩
          intro z hz
          have hyx : right[j] ≤ left[i] := by omega
          rcases List.mem_append.mp (t2.mem_iff.mp hz) with h1 | h1
          · rw [List.drop_eq_getElem_cons hi1] at h1
            rcases List.mem_cons.mp h1 with h2 | h2
            · rw [h2]; exact hyx
            · exact le_trans hyx (hl2 z h2)
          · exact hr2 z h1
    · refine ⟨res, i, j, by simp only [mergeLoop, hc, if_false], hi, hj,
        left.drop i ++ right.drop j, by simp, List.Perm.refl _, ?_⟩
      have hor : left.length ≤ i ∨ right.length ≤ j := by omega
      rcases hor with h1 | h1
      · rw [List.drop_eq_nil_of_le h1]
        simpa using hr
      · rw [List.drop_eq_nil_of_le h1]
        simpa using hl

theorem merge_spec {left right : List Int} (hl : left.Sorted (· ≤ ·))
    (hr : right.Sorted (· ≤ ·)) :
    ∃ out : List Int, merge left right = some out ∧ out.Perm (left ++ right) ∧
      out.Sorted (· ≤ ·) := by
  obtain ⟨res1, i1, j1, e, b1, b2, T, t1, t2, t3⟩ :=
    mergeLoop_spec left right (left.length + right.length + 1) [] 0 0 (by omega) (by omega)
      (by omega) (by simpa using hl) (by simpa using hr)
  refine ⟨T, ?_, by simpa using t2, t3⟩
  have e0 : ((0 : Nat) : Int) = 0 := rfl
  rw [e0] at e
  simp only [merge, e, sliceFrom_eq b1, sliceFrom_eq b2]
  simpa using t1

theorem mergeSortAux_spec :
    ∀ (fuel : Nat) (arr : List Int), arr.length < fuel →
      ∃ out : List Int, mergeSortAux fuel arr = some out ∧ out.Perm arr ∧
        out.Sorted (· ≤ ·) := by
  intro fuel
  induction fuel with
  | zero => intro arr h; omega
  | succ fuel ih =>
    intro arr hf
    by_cases hle : (arr.length : Int) ≤ 1
    · refine ⟨arr, by simp [mergeSortAux, hle], List.Perm.refl _, ?_⟩
      match arr, hle with
      | [], _ => simp
      | [x], _ => simp
      | x :: y :: rest, h => simp at h; omega
    · have hmid : Int.tdiv (arr.length : Int) 2 = ((arr.length / 2 : Nat) : Int) := by
        rw [Int.tdiv_eq_ediv (by omega) (by omega)]
        simp
      have hm1 : arr.length / 2 ≤ arr.length := by omega
      have hm2 : arr.length / 2 < arr.length := by omega
      have hm3 : 0 < arr.length / 2 := by omega
      obtain ⟨l, e1, p1, s1⟩ := ih (arr.take (arr.length / 2))
        (by rw [List.length_take]; omega)
      obtain ⟨r, e2, p2, s2⟩ := ih (arr.drop (arr.length / 2))
        (by rw [List.length_drop]; omega)
      obtain ⟨out, e3, p3, s3⟩ := merge_spec s1 s2
      refine ⟨out, ?_, ?_, s3⟩
      · simp only [mergeSortAux, hle, if_false, hmid, sliceTo_eq hm1, sliceFrom_eq hm1, e1, e2,
          e3]
      · have := p3.trans (List.Perm.append p1 p2)
        rwa [List.take_append_drop] at this

theorem mergeSort_spec (arr : List Int) :
    ∃ out : List Int, MergeSort arr = some out ∧ out.Perm arr ∧ out.Sorted (· ≤ ·) :=
  mergeSortAux_spec (arr.length + 1) arr (by omega)

/-! ## `QuickSort` -/

theorem RangeStable.refl (a : List Int) (low high : Int) : RangeStable a a low high :=
  ⟨rfl, List.Perm.refl _, fun _ _ _ => rfl, fun _ h => h⟩

theorem RangeStable.trans {a b c : List Int} {low high : Int}
    (h1 : RangeStable a b low high) (h2 : RangeStable b c low high) :
    RangeStable a c low high := by
  obtain ⟨l1, p1, f1, q1⟩ := h1
  obtain ⟨l2, p2, f2, q2⟩ := h2
  refine ⟨l2.trans l1, p2.trans p1, ?_, ?_⟩
  · intro p hp0 hp
    rw [f2 p hp0 hp, f1 p hp0 hp]
  · intro Q hQ
    exact q2 Q (q1 Q hQ)

theorem RangeStable.mono {a r : List Int} {low high low1 high1 : Int}
    (h : RangeStable a r low1 high1) (h0 : 0 ≤ low) (hl : low ≤ low1) (hh : high1 ≤ high) :
    RangeStable a r low high := by
  obtain ⟨l1, p1, f1, q1⟩ := h
  refine ⟨l1, p1, ?_, ?_⟩
  · intro p hp0 hp
    exact f1 p hp0 (by omega)
  · intro Q hQ p hp1 hp2
    by_cases hin : low1 ≤ p ∧ p ≤ high1
    · exact q1 Q (fun p' h1 h2 => hQ p' (by omega) (by omega)) p hin.1 hin.2
    · rw [f1 p (by omega) (by omega)]
      exact hQ p hp1 hp2

theorem RangeStable.swapL {a : List Int} {low high i j : Int} (h0 : 0 ≤ low)
    (hh : high < a.length) (hi1 : low ≤ i) (hi2 : i ≤ high) (hj1 : low ≤ j) (hj2 : j ≤ high) :
    RangeStable a (swapL a i j) low high := by
  have bi0 : 0 ≤ i := by omega
  have bi1 : i < a.length := by omega
  have bj0 : 0 ≤ j := by omega
  have bj1 : j < a.length := by omega
  refine ⟨length_swapL a i j, swapL_perm bi0 bi1 bj0 bj1, ?_, ?_⟩
  · intro p hp0 hp
    rw [elemAt_swapL bi0 bi1 bj0 bj1 hp0]
    have h1 : p ≠ j := by omega
    have h2 : p ≠ i := by omega
    simp [h1, h2]
  · intro Q hQ p hp1 hp2
    rw [elemAt_swapL bi0 bi1 bj0 bj1 (by omega)]
    split_ifs
    · exact hQ i hi1 hi2
    · exact hQ j hj1 hj2
    · exact hQ p hp1 hp2

theorem partitionLoop_spec (pivot low high : Int) (h0 : 0 ≤ low) :
    ∀ (fuel : Nat) (arr : List Int) (i j : Int), high < arr.length →
      low - 1 ≤ i → i < j → j ≤ high → high - j < fuel →
      (∀ p : Int, low ≤ p → p ≤ i → elemAt arr p ≤ pivot) →
      (∀ p : Int, i < p → p < j → pivot < elemAt arr p) →
      ∃ (arr1 : List Int) (i1 : Int), partitionLoop pivot high fuel arr i j = some (arr1, i1) ∧
        low - 1 ≤ i1 ∧ i1 < high ∧ RangeStable arr arr1 low (high - 1) ∧
        (∀ p : Int, low ≤ p → p ≤ i1 → elemAt arr1 p ≤ pivot) ∧
        (∀ p : Int, i1 < p → p < high → pivot < elemAt arr1 p) := by
  intro fuel
  induction fuel with
  | zero => intro arr i j _ _ _ _ h; omega
  | succ fuel ih =>
    intro arr i j hh hi hij hj hf hle hgt
    by_cases hlt : j < high
    · have bj0 : 0 ≤ j := by omega
      have bj1 : j < arr.length := by omega
      have bi0 : 0 ≤ i + 1 := by omega
      have bi1 : i + 1 < arr.length := by omega
      simp only [partitionLoop, hlt, if_true, idx_eq bj0 bj1]
      by_cases hx : elemAt arr j ≤ pivot
      · simp only [hx, if_true, swap_eq bi0 bi1 bj0 bj1]
        have hel : ∀ p : Int, 0 ≤ p → elemAt (swapL arr (i + 1) j) p =
            if p = j then elemAt arr (i + 1) else if p = i + 1 then elemAt arr j
              else elemAt arr p :=
          fun p hp => elemAt_swapL bi0 bi1 bj0 bj1 hp
        have hst : RangeStable arr (swapL arr (i + 1) j) low (high - 1) :=
          RangeStable.swapL h0 (by omega) (by omega) (by omega) (by omega) (by omega)
        obtain ⟨arr1, i1, e, k1, k2, k3, k4, k5⟩ :=
          ih (swapL arr (i + 1) j) (i + 1) (j + 1) (by rw [length_swapL]; exact hh)
            (by omega) (by omega) (by omega) (by omega)
            (by
              intro p hp1 hp2
              rw [hel p (by omega)]
              split_ifs with c1 c2
              · rw [c1] at hp2
                have : i + 1 = j := by omega
                rw [this]; exact hx
              · exact hx
              · exact hle p hp1 (by omega))
            (by
              intro p hp1 hp2
              rw [hel p (by omega)]
              split_ifs with c1 c2
              · exact hgt (i + 1) (by omega) (by omega)
              · omega
              · exact hgt p (by omega) (by omega))
        exact ⟨arr1, i1, e, by omega, k2, hst.trans k3, k4, k5⟩
      · simp only [hx, if_false]
        obtain ⟨arr1, i1, e, k1, k2, k3, k4, k5⟩ :=
          ih arr i (j + 1) hh hi (by omega) (by omega) (by omega) hle
            (by
              intro p hp1 hp2
              by_cases hpj : p = j
              · rw [hpj]; omega
              · exact hgt p hp1 (by omega))
        exact ⟨arr1, i1, e, k1, k2, k3, k4, k5⟩
    · have hjh : j = high := by omega
      subst hjh
      exact ⟨arr, i, by simp [partitionLoop], hi, hij, RangeStable.refl _ _ _, hle, hgt⟩

theorem partition_spec {arr : List Int} {low high : Int} (h0 : 0 ≤ low) (hlh : low ≤ high)
    (hh : high < arr.length) :
    ∃ (arr2 : List Int) (pi : Int), partition arr low high = some (arr2, pi) ∧
      low ≤ pi ∧ pi ≤ high ∧ RangeStable arr arr2 low high ∧
      (∀ p : Int, low ≤ p → p < pi → elemAt arr2 p ≤ elemAt arr2 pi) ∧
      (∀ p : Int, pi < p → p ≤ high → elemAt arr2 pi < elemAt arr2 p) := by
  have bh0 : 0 ≤ high := by omega
  obtain ⟨arr1, i1, e, k1, k2, k3, k4, k5⟩ :=
    partitionLoop_spec (elemAt arr high) low high h0 (arr.length + 1) arr (low - 1) low hh
      (by omega) (by omega) hlh (by omega) (by intro p h1 h2; omega)
      (by intro p h1 h2; omega)
  have hlen1 : arr1.length = arr.length := k3.1
  have bi0 : 0 ≤ i1 + 1 := by omega
  have bi1 : i1 + 1 < arr1.length := by omega
  have bh1 : high < arr1.length := by omega
  have hpiv : elemAt arr1 high = elemAt arr high := k3.2.2.1 high bh0 (by omega)
  have hel : ∀ p : Int, 0 ≤ p → elemAt (swapL arr1 (i1 + 1) high) p =
      if p = high then elemAt arr1 (i1 + 1) else if p = i1 + 1 then elemAt arr1 high
        else elemAt arr1 p :=
    fun p hp => elemAt_swapL bi0 bi1 bh0 bh1 hp
  refine ⟨swapL arr1 (i1 + 1) high, i1 + 1, ?_, by omega, by omega, ?_, ?_, ?_⟩
  · simp only [partition, idx_eq bh0 hh, e, swap_eq bi0 bi1 bh0 bh1]
  · exact (k3.mono h0 (le_refl _) (by omega)).trans
      (RangeStable.swapL h0 bh1 (by omega) (by omega) (by omega) (le_refl _))
  · intro p hp1 hp2
    rw [hel p (by omega), hel (i1 + 1) bi0]
    have c1 : p ≠ high := by omega
    have c2 : p ≠ i1 + 1 := by omega
    simp only [c1, c2, if_false, if_true]
    have := k4 p hp1 (by omega)
    split_ifs with c3
    · rw [c3, hpiv]; exact this
    · rw [hpiv]; exact this
  · intro p hp1 hp2
    rw [hel p (by omega), hel (i1 + 1) bi0]
    have c1 : i1 + 1 ≠ high := by omega
    have c2 : p ≠ i1 + 1 := by omega
    simp only [c1, c2, if_false, if_true, hpiv]
    split_ifs with c3
    · exact k5 (i1 + 1) (by omega) (by omega)
    · exact k5 p (by omega) (by omega)

theorem quickSortHelper_spec :
    ∀ (fuel : Nat) (arr : List Int) (low high : Int), 0 ≤ low → high < arr.length →
      0 < fuel → high - low + 1 < fuel →
      ∃ r : List Int, quickSortHelper fuel arr low high = some r ∧
        RangeStable arr r low high ∧
        (∀ p q : Int, low ≤ p → p < q → q ≤ high → elemAt r p ≤ elemAt r q) := by
  intro fuel
  induction fuel with
  | zero => intro arr low high _ _ h; omega
  | succ fuel ih =>
    intro arr low high h0 hh _ hf
    by_cases hlt : low < high
    · obtain ⟨arr1, pi, e, b1, b2, st, hL, hG⟩ := partition_spec h0 (le_of_lt hlt) hh
      have hlen1 : arr1.length = arr.length := st.1
      obtain ⟨r1, e1, st1, s1⟩ := ih arr1 low (pi - 1) h0 (by omega) (by omega) (by omega)
      have hlen2 : r1.length = arr1.length := st1.1
      obtain ⟨r2, e2, st2, s2⟩ := ih r1 (pi + 1) high (by omega) (by omega) (by omega)
        (by omega)
      refine ⟨r2, by simp only [quickSortHelper, hlt, if_true, e, e1, e2], ?_, ?_⟩
      · exact st.trans ((st1.mono h0 (le_refl _) (by omega)).trans
          (st2.mono h0 (by omega) (le_refl _)))
      · have hv : elemAt r2 pi = elemAt arr1 pi := by
          rw [st2.2.2.1 pi (by omega) (by omega), st1.2.2.1 pi (by omega) (by omega)]
        have hLow : ∀ p : Int, low ≤ p → p < pi → elemAt r2 p ≤ elemAt arr1 pi := by
          intro p hp1 hp2
          rw [st2.2.2.1 p (by omega) (by omega)]
          exact st1.2.2.2 (fun x => x ≤ elemAt arr1 pi)
            (fun p' h1 h2 => hL p' h1 (by omega)) p hp1 (by omega)
        have hHigh : ∀ p : Int, pi < p → p ≤ high → elemAt arr1 pi < elemAt r2 p := by
          intro p hp1 hp2
          apply st2.2.2.2 (fun x => elemAt arr1 pi < x) _ p (by omega) hp2
          intro p' h1 h2
          rw [st1.2.2.1 p' (by omega) (by omega)]
          exact hG p' (by omega) h2
        intro p q hp hpq hq
        by_cases c1 : q < pi
        · rw [st2.2.2.1 p (by omega) (by omega), st2.2.2.1 q (by omega) (by omega)]
          exact s1 p q hp hpq (by omega)
        · by_cases c2 : pi < p
          · exact s2 p q (by omega) hpq hq
          · by_cases c3 : p = pi
            · rw [c3, hv]
              exact le_of_lt (hHigh q (by omega) hq)
            · have hp2 : p < pi := by omega
              have k1 := hLow p hp hp2
              by_cases c4 : q = pi
              · rw [c4, hv]; exact k1
              · have k2 := hHigh q (by omega) hq
                omega
    · refine ⟨arr, by simp [quickSortHelper, hlt], RangeStable.refl _ _ _, ?_⟩
      intro p q hp hpq hq
      omega

theorem quickSort_spec (arr : List Int) :
    ∃ out : List Int, QuickSort arr = some out ∧ out.Perm arr ∧ out.Sorted (· ≤ ·) := by
  by_cases hle : (arr.length : Int) ≤ 1
  · refine ⟨arr, by simp [QuickSort, hle], List.Perm.refl _, ?_⟩
    match arr, hle with
    | [], _ => simp
    | [x], _ => simp
    | x :: y :: rest, h => simp at h; omega
  · obtain ⟨r, e, st, s⟩ := quickSortHelper_spec (arr.length + 1) arr 0 (arr.length - 1)
      (by omega) (by omega) (by omega) (by push_cast; omega)
    refine ⟨r, by simp only [QuickSort, hle, if_false, e], st.2.1, ?_⟩
    apply sorted_of_elemAt
    intro p q hp hpq hq
    have := st.1
    exact s p q hp hpq (by omega)

/-! ## `HeapSort` -/

theorem pickLarger_eq {arr : List Int} {n largest c : Int} (hn : n ≤ arr.length)
    (hc : 0 ≤ c) (hl0 : 0 ≤ largest) (hl1 : largest < arr.length) :
    pickLarger arr n largest c =
      some (if c < n ∧ elemAt arr c > elemAt arr largest then c else largest) := by
  unfold pickLarger
  by_cases h : c < n
  · simp only [h, if_true, true_and, idx_eq hc (show c < arr.length by omega), idx_eq hl0 hl1]
  · simp [h]

theorem heap_root_max {a : List Int} {m : Int}
    (h : ∀ k : Int, 0 ≤ k → k < m → HeapAt a m k) :
    ∀ (k : Nat), (k : Int) < m → elemAt a k ≤ elemAt a 0 := by
  intro k
  induction k using Nat.strong_induction_on with
  | _ k ih =>
    intro hk
    rcases Nat.eq_zero_or_pos k with h0 | h0
    · subst h0; simp
    · have hp := ih ((k - 1) / 2) (by omega) (by omega)
      obtain ⟨c1, c2⟩ := h (((k - 1) / 2 : Nat) : Int) (by omega) (by omega)
      rcases Nat.even_or_odd k with he | ho
      · obtain ⟨t, ht⟩ := he
        have e : (k : Int) = 2 * (((k - 1) / 2 : Nat) : Int) + 2 := by omega
        have := c2 (by omega)
        rw [← e] at this
        omega
      · obtain ⟨t, ht⟩ := ho
        have e : (k : Int) = 2 * (((k - 1) / 2 : Nat) : Int) + 1 := by omega
        have := c1 (by omega)
        rw [← e] at this
        omega

theorem heapify_spec (n lo : Int) (hlo : 0 ≤ lo) :
    ∀ (fuel : Nat) (a : List Int) (i : Int), n ≤ a.length → lo ≤ i → i < n → n - i < fuel →
      (∀ k : Int, lo ≤ k → k < n → k ≠ i → HeapAt a n k) →
      (∀ k : Int, lo ≤ k → i = 2 * k + 1 ∨ i = 2 * k + 2 →
        (2 * i + 1 < n → elemAt a (2 * i + 1) ≤ elemAt a k) ∧
        (2 * i + 2 < n → elemAt a (2 * i + 2) ≤ elemAt a k)) →
      ∃ r : List Int, heapify n fuel a i = some r ∧ RangeStable a r i (n - 1) ∧
        ∀ k : Int, lo ≤ k → k < n → HeapAt r n k := by
  intro fuel
  induction fuel with
  | zero => intro a i _ _ _ h; omega
  | succ fuel ih =>
    intro a i hn hi0 hi1 hf hA hB
    have bi0 : 0 ≤ i := by omega
    have bi1 : i < a.length := by omega
    rw [heapify, pickLarger_eq hn (by omega) bi0 bi1]
    simp only
    generalize hl1 : (if 2 * i + 1 < n ∧ elemAt a (2 * i + 1) > elemAt a i then 2 * i + 1
      else i) = l1
    have l1p : (l1 = i ∨ (l1 = 2 * i + 1 ∧ 2 * i + 1 < n ∧ elemAt a i < elemAt a l1)) ∧
        (2 * i + 1 < n → elemAt a (2 * i + 1) ≤ elemAt a l1) ∧ elemAt a i ≤ elemAt a l1 := by
      rw [← hl1]
      split_ifs with c
      · exact ⟨Or.inr ⟨rfl, c.1, c.2⟩, fun _ => le_refl _, le_of_lt c.2⟩
      · refine ⟨Or.inl rfl, ?_, le_refl _⟩
        intro h
        by_contra hc
        exact c ⟨h, by omega⟩
    obtain ⟨l1a, l1b, l1c⟩ := l1p
    have bl0 : 0 ≤ l1 := by omega
    have bl1 : l1 < a.length := by omega
    rw [pickLarger_eq hn (by omega) bl0 bl1]
    simp only
    generalize hlg : (if 2 * i + 2 < n ∧ elemAt a (2 * i + 2) > elemAt a l1 then 2 * i + 2
      else l1) = largest
    have lp : (largest = i ∨ ((largest = 2 * i + 1 ∨ largest = 2 * i + 2) ∧ largest < n ∧
          elemAt a i < elemAt a largest)) ∧
        (2 * i + 1 < n → elemAt a (2 * i + 1) ≤ elemAt a largest) ∧
        (2 * i + 2 < n → elemAt a (2 * i + 2) ≤ elemAt a largest) := by
      rw [← hlg]
      split_ifs with c
      · refine ⟨Or.inr ⟨Or.inr rfl, c.1, by omega⟩, fun h => ?_, fun _ => le_refl _⟩
        have := l1b h
        omega
      · refine ⟨?_, l1b, ?_⟩
        · rcases l1a with e | ⟨e1, e2, e3⟩
          · exact Or.inl e
          · exact Or.inr ⟨Or.inl e1, by omega, e3⟩
        · intro h
          by_contra hc
          exact c ⟨h, by omega⟩
    obtain ⟨lpa, lpb, lpc⟩ := lp
    by_cases hne : largest = i
    · subst hne
      refine ⟨a, by simp, RangeStable.refl _ _ _, ?_⟩
      intro k hk0 hk1
      by_cases hki : k = largest
      · rw [hki]; exact ⟨lpb, lpc⟩
      · exact hA k hk0 hk1 hki
    · rcases lpa with e | ⟨hch, hlt, hgt⟩
      · exact absurd e hne
      · have bL0 : 0 ≤ largest := by omega
        have bL1 : largest < a.length := by omega
        have hel : ∀ p : Int, 0 ≤ p → elemAt (swapL a i largest) p =
            if p = largest then elemAt a i else if p = i then elemAt a largest
              else elemAt a p :=
          fun p hp => elemAt_swapL bi0 bi1 bL0 bL1 hp
        simp only [ne_eq, hne, not_false_eq_true, if_true, swap_eq bi0 bi1 bL0 bL1]
        have hHL := hA largest (by omega) hlt hne
        have hA1 : ∀ k : Int, lo ≤ k → k < n → k ≠ largest →
            HeapAt (swapL a i largest) n k := by
          intro k hk0 hk1 hk2
          by_cases hki : k = i
          · subst hki
            constructor
            · intro h
              rw [hel _ (by omega), hel k bi0]
              have := lpb h
              split_ifs <;> omega
            · intro h
              rw [hel _ (by omega), hel k bi0]
              have := lpc h
              split_ifs <;> omega
          · obtain ⟨q1, q2⟩ := hA k hk0 hk1 hki
            constructor
            · intro h
              have hc1 : 2 * k + 1 ≠ largest := by omega
              have e1 : elemAt (swapL a i largest) k = elemAt a k := by
                rw [hel k (by omega)]
                simp only [hk2, hki, if_false]
              rw [e1, hel _ (by omega)]
              simp only [hc1, if_false]
              by_cases hci : 2 * k + 1 = i
              · simp only [hci, if_true]
                have hb := hB k hk0 (Or.inl hci.symm)
                rcases hch with e | e
                · rw [e]; exact hb.1 (by omega)
                · rw [e]; exact hb.2 (by omega)
              · simp only [hci, if_false]
                exact q1 h
            · intro h
              have hc1 : 2 * k + 2 ≠ largest := by omega
              have e1 : elemAt (swapL a i largest) k = elemAt a k := by
                rw [hel k (by omega)]
                simp only [hk2, hki, if_false]
              rw [e1, hel _ (by omega)]
              simp only [hc1, if_false]
              by_cases hci : 2 * k + 2 = i
              · simp only [hci, if_true]
                have hb := hB k hk0 (Or.inr hci.symm)
                rcases hch with e | e
                · rw [e]; exact hb.1 (by omega)
                · rw [e]; exact hb.2 (by omega)
              · simp only [hci, if_false]
                exact q2 h
        have hB1 : ∀ k : Int, lo ≤ k → largest = 2 * k + 1 ∨ largest = 2 * k + 2 →
            (2 * largest + 1 < n →
              elemAt (swapL a i largest) (2 * largest + 1) ≤ elemAt (swapL a i largest) k) ∧
            (2 * largest + 2 < n →
              elemAt (swapL a i largest) (2 * largest + 2) ≤ elemAt (swapL a i largest) k) := by
          intro k hk0 hk
          have hki : k = i := by omega
          subst hki
          constructor
          · intro h
            rw [hel _ (by omega), hel k bi0]
            have := hHL.1 h
            split_ifs <;> omega
          · intro h
            rw [hel _ (by omega), hel k bi0]
            have := hHL.2 h
            split_ifs <;> omega
        obtain ⟨r, e, st, hr⟩ := ih (swapL a i largest) largest
          (by rw [length_swapL]; exact hn) (by omega) hlt (by omega) hA1 hB1
        refine ⟨r, e, ?_, hr⟩
        exact (RangeStable.swapL bi0 (by omega) (le_refl _) (by omega) (by omega)
          (by omega)).trans (st.mono bi0 (by omega) (le_refl _))

theorem heapBuild_spec (n : Int) :
    ∀ (fuel : Nat) (a : List Int) (i : Int), (a.length : Int) = n → -1 ≤ i → i < n ∨ i = -1 →
      i + 1 < fuel → (∀ k : Int, i < k → k < n → HeapAt a n k) →
      ∃ r : List Int, heapBuild n fuel a i = some r ∧ (r.length : Int) = n ∧ r.Perm a ∧
        ∀ k : Int, 0 ≤ k → k < n → HeapAt r n k := by
  intro fuel
  induction fuel with
  | zero => intro a i _ _ _ h; omega
  | succ fuel ih =>
    intro a i hlen hi0 hi1 hf hH
    by_cases hge : 0 ≤ i
    · have hin : i < n := by omega
      obtain ⟨r, e, st, hr⟩ := heapify_spec n i hge (a.length + 1) a i (by omega) (le_refl _)
        hin (by omega) (fun k h1 h2 h3 => hH k (by omega) h2)
        (by intro k h1 h2; omega)
      have hlen1 : (r.length : Int) = n := by rw [st.1]; exact hlen
      obtain ⟨r2, e2, k1, k2, k3⟩ := ih r (i - 1) hlen1 (by omega) (by omega) (by omega)
        (fun k h1 h2 => hr k (by omega) h2)
      exact ⟨r2, by simp only [heapBuild, hge, if_true, e, e2], k1, k2.trans st.2.1, k3⟩
    · refine ⟨a, by simp [heapBuild, hge], hlen, List.Perm.refl _, ?_⟩
      intro k h1 h2
      exact hH k (by omega) h2

theorem heapExtract_spec :
    ∀ (fuel : Nat) (a : List Int) (i : Int), -1 ≤ i → i < a.length → 0 < fuel → i < fuel →
      (∀ k : Int, 0 ≤ k → k < i + 1 → HeapAt a (i + 1) k) →
      (∀ p q : Int, 0 ≤ p → p < q → q < a.length → i < q → elemAt a p ≤ elemAt a q) →
      ∃ r : List Int, heapExtract fuel a i = some r ∧ r.Perm a ∧ r.Sorted (· ≤ ·) := by
  intro fuel
  induction fuel with
  | zero => intro a i _ _ h; omega
  | succ fuel ih =>
    intro a i hi0 hi1 _ hf hH hS
    by_cases hpos : 0 < i
    · have b0 : (0 : Int) ≤ 0 := le_refl _
      have b1 : (0 : Int) < a.length := by omega
      have bi0 : 0 ≤ i := by omega
      have hel : ∀ p : Int, 0 ≤ p → elemAt (swapL a 0 i) p =
          if p = i then elemAt a 0 else if p = 0 then elemAt a i else elemAt a p :=
        fun p hp => elemAt_swapL b0 b1 bi0 hi1 hp
      have hmax : ∀ k : Int, 0 ≤ k → k < i + 1 → elemAt a k ≤ elemAt a 0 := by
        intro k hk0 hk1
        have := heap_root_max hH k.toNat (by omega)
        rwa [Int.toNat_of_nonneg hk0] at this
      have hlen1 : (swapL a 0 i).length = a.length := length_swapL a 0 i
      obtain ⟨r2, e2, st, hr⟩ := heapify_spec i 0 (le_refl _) ((swapL a 0 i).length + 1)
        (swapL a 0 i) 0 (by omega) (le_refl _) hpos (by omega)
        (by
          intro k h1 h2 h3
          obtain ⟨q1, q2⟩ := hH k h1 (by omega)
          constructor
          · intro h
            rw [hel _ (by omega), hel k h1]
            have := q1 (by omega)
            split_ifs <;> omega
          · intro h
            rw [hel _ (by omega), hel k h1]
            have := q2 (by omega)
            split_ifs <;> omega)
        (by intro k h1 h2; omega)
      have hlen2 : r2.length = a.length := by rw [st.1, hlen1]
      have hfr : ∀ p : Int, i ≤ p → elemAt r2 p = elemAt (swapL a 0 i) p :=
        fun p hp => st.2.2.1 p (by omega) (Or.inr (by omega))
      obtain ⟨r3, e3, k1, k2⟩ := ih r2 (i - 1) (by omega) (by omega) (by omega) (by omega)
        (by
          intro k h1 h2
          have e : i - 1 + 1 = i := by omega
          rw [e]
          exact hr k h1 (by omega))
        (by
          intro p q hp0 hpq hq hiq
          rw [hfr q (by omega), hel q (by omega)]
          by_cases hqi : q = i
          · simp only [hqi, if_true]
            apply st.2.2.2 (fun x => x ≤ elemAt a 0) _ p hp0 (by omega)
            intro p' h1 h2
            rw [hel p' h1]
            have m1 := hmax i bi0 (by omega)
            have m2 := hmax p' h1 (by omega)
            split_ifs <;> omega
          · have hq0 : q ≠ 0 := by omega
            simp only [hqi, hq0, if_false]
            by_cases hpi : p < i
            · apply st.2.2.2 (fun x => x ≤ elemAt a q) _ p hp0 (by omega)
              intro p' h1 h2
              rw [hel p' h1]
              have m1 := hS i q bi0 (by omega) (by omega) (by omega)
              have m2 := hS p' q h1 (by omega) (by omega) (by omega)
              have m3 := hS 0 q b0 (by omega) (by omega) (by omega)
              split_ifs <;> omega
            · rw [hfr p (by omega), hel p hp0]
              have m1 := hS p q hp0 hpq (by omega) (by omega)
              have m3 := hS 0 q b0 (by omega) (by omega) (by omega)
              split_ifs <;> omega)
      refine ⟨r3, ?_, ?_, k2⟩
      · simp only [heapExtract, hpos, if_true, swap_eq b0 b1 bi0 hi1]
        rw [← hlen1, e2]
        exact e3
      · exact k1.trans (st.2.1.trans (swapL_perm b0 b1 bi0 hi1))
    · refine ⟨a, by simp [heapExtract, hpos], List.Perm.refl _, ?_⟩
      apply sorted_of_elemAt
      intro p q hp0 hpq hq
      exact hS p q hp0 hpq hq (by omega)

theorem heapSort_spec (arr : List Int) :
    ∃ out : List Int, HeapSort arr = some out ∧ out.Perm arr ∧ out.Sorted (· ≤ ·) := by
  have hdiv : Int.tdiv (arr.length : Int) 2 = (arr.length : Int) / 2 :=
    Int.tdiv_eq_ediv (by omega) (by omega)
  obtain ⟨r, e, hlen, hp, hH⟩ := heapBuild_spec (arr.length : Int) (arr.length + 1) arr
    ((arr.length : Int) / 2 - 1) rfl (by omega) (by omega) (by push_cast; omega)
    (by
      intro k h1 h2
      constructor <;> intro h <;> omega)
  have hlen1 : r.length = arr.length := by omega
  obtain ⟨r2, e2, hp2, hs2⟩ := heapExtract_spec (arr.length + 1) r ((arr.length : Int) - 1)
    (by omega) (by omega) (by omega) (by push_cast; omega)
    (by
      intro k h1 h2
      have e : (arr.length : Int) - 1 + 1 = arr.length := by omega
      rw [e]
      exact hH k h1 (by omega))
    (by intro p q _ _ hq hiq; omega)
  refine ⟨r2, ?_, hp2.trans hp, hs2⟩
  simp only [HeapSort, hdiv, e, e2]

/-! ## The benchmark engine -/

theorem generateArray_isSome (rand : Nat → Int) {size : Int} (h : 0 ≤ size)
    (arrayType : ArrayType) : ∃ arr : List Int, GenerateArray rand size arrayType = some arr := by
  unfold GenerateArray
  have h1 : ¬ size < 0 := by omega
  simp only [h1, if_false]
  split_ifs <;> exact ⟨_, rfl⟩

theorem runAlgorithm_unknown {config : BenchmarkConfig}
    (h : config.Algorithm ∉ ["linear_search", "binary_search", "bubble_sort",
      "insertion_sort", "merge_sort", "quick_sort", "heap_sort", "native_sort"])
    (arr : List Int) :
    runAlgorithm config arr = .error ("unknown algorithm: " ++ config.Algorithm) := by
  simp only [List.mem_cons, List.mem_singleton, List.not_mem_nil, or_false, not_or] at h
  obtain ⟨h1, h2, h3, h4, h5, h6, h7, h8⟩ := h
  simp only [runAlgorithm, h1, h2, h3, h4, h5, h6, h7, h8, if_false]

/-! ## The claims -/

/-- Claim C1. `VerifySorting(original, out)` always returns; it returns true
exactly when `out` has the length of `original`, is in non-decreasing order and
is a permutation of `original`; and every `out` that differs from the
canonically sorted `original` (in length or in some position) is rejected. -/
theorem C1_verifySorting_iff (original out : List Int) :
    (∃ b : Bool, VerifySorting original out = some b) ∧
    (VerifySorting original out = some true ↔
      out.length = original.length ∧ out.Sorted (· ≤ ·) ∧ out.Perm original) ∧
    (out ≠ sortInts original → VerifySorting original out = some false) := by
  rw [verifySorting_eq]
  refine ⟨⟨_, rfl⟩, ?_, ?_⟩
  · constructor
    · intro h
      have e : out = sortInts original := by simpa using h
      rw [e]
      exact ⟨sortInts_length original, sortInts_sorted original, sortInts_perm original⟩
    · rintro ⟨_, hs, hp⟩
      simp [sortInts_unique hp hs]
  · intro h
    simp [h]

/-- The theorem of claim C1 at the original `[3, 1, 2]`: the sorted slice
`[1, 2, 3]` is accepted, and `[1, 3, 2]`, in which two adjacent elements are
swapped, is rejected. -/
theorem C1_verifySorting_iff_witness :
    VerifySorting [3, 1, 2] [1, 2, 3] = some true ∧
      VerifySorting [3, 1, 2] [1, 3, 2] = some false :=
  ⟨(C1_verifySorting_iff [3, 1, 2] [1, 2, 3]).2.1.mpr ⟨by decide, by decide, by decide⟩,
    (C1_verifySorting_iff [3, 1, 2] [1, 3, 2]).2.2 (by decide)⟩

/-- Claim C2. For every slice, `QuickSort` returns (no panic, the recursion
ends) a slice of the same length, in non-decreasing order, that is a
permutation of the input: the canonically sorted input. -/
theorem C2_quickSort_sorts (arr : List Int) :
    ∃ out : List Int, QuickSort arr = some out ∧ out.length = arr.length ∧
      out.Sorted (· ≤ ·) ∧ out.Perm arr ∧ out = sortInts arr := by
  obtain ⟨out, e, hp, hs⟩ := quickSort_spec arr
  exact ⟨out, e, hp.length_eq, hs, hp, sortInts_unique hp hs⟩

/-- Claim C3. For every slice, `HeapSort` returns (no panic, the recursion
ends) a slice of the same length, in non-decreasing order, that is a
permutation of the input: the canonically sorted input. -/
theorem C3_heapSort_sorts (arr : List Int) :
    ∃ out : List Int, HeapSort arr = some out ∧ out.length = arr.length ∧
      out.Sorted (· ≤ ·) ∧ out.Perm arr ∧ out = sortInts arr := by
  obtain ⟨out, e, hp, hs⟩ := heapSort_spec arr
  exact ⟨out, e, hp.length_eq, hs, hp, sortInts_unique hp hs⟩

/-- Claim C4. For every slice, `MergeSort` returns (no panic, the recursion
ends) a slice of the same length, in non-decreasing order, that is a
permutation of the input: the canonically sorted input. -/
theorem C4_mergeSort_sorts (arr : List Int) :
    ∃ out : List Int, MergeSort arr = some out ∧ out.length = arr.length ∧
      out.Sorted (· ≤ ·) ∧ out.Perm arr ∧ out = sortInts arr := by
  obtain ⟨out, e, hp, hs⟩ := mergeSort_spec arr
  exact ⟨out, e, hp.length_eq, hs, hp, sortInts_unique hp hs⟩

/-- Claim C5. For every slice, `BubbleSort` returns a slice of the same length,
in non-decreasing order, that is a permutation of the input: the canonically
sorted input.  The early exit after a pass without swaps is one of the return
paths covered, so it never returns an unsorted slice. -/
theorem C5_bubbleSort_sorts (arr : List Int) :
    ∃ out : List Int, BubbleSort arr = some out ∧ out.length = arr.length ∧
      out.Sorted (· ≤ ·) ∧ out.Perm arr ∧ out = sortInts arr := by
  obtain ⟨out, e, hp, hs⟩ := bubbleSort_spec arr
  exact ⟨out, e, hp.length_eq, hs, hp, sortInts_unique hp hs⟩

/-- Claim C6. For every slice, `InsertionSort` returns a slice of the same
length, in non-decreasing order, that is a permutation of the input: the
canonically sorted input. -/
theorem C6_insertionSort_sorts (arr : List Int) :
    ∃ out : List Int, InsertionSort arr = some out ∧ out.length = arr.length ∧
      out.Sorted (· ≤ ·) ∧ out.Perm arr ∧ out = sortInts arr := by
  obtain ⟨out, e, hp, hs⟩ := insertionSort_spec arr
  exact ⟨out, e, hp.length_eq, hs, hp, sortInts_unique hp hs⟩

/-- Claim C7. On a slice in non-decreasing order, `BinarySearch` (and
`BinarySearchSorted`, which returns what `BinarySearch` returns) finds a
target that occurs, returning an index `j` with `0 ≤ j < len(arr)` and
`arr[j] == t`, and returns `-1` for a target that does not occur. -/
theorem C7_binarySearch_sorted (arr : List Int) (t : Int) (hs : arr.Sorted (· ≤ ·)) :
    BinarySearchSorted arr t = BinarySearch arr t ∧
    (t ∈ arr → ∃ j : Int, BinarySearch arr t = some j ∧ 0 ≤ j ∧ j < arr.length ∧
      arr[j.toNat]? = some t) ∧
    (t ∉ arr → BinarySearch arr t = some (-1)) := by
  obtain ⟨r, e, h⟩ := binarySearch_sorted hs t
  refine ⟨rfl, ?_, ?_⟩
  · intro hm
    rcases h with ⟨_, h2⟩ | ⟨h0, h1, h2⟩
    · exact absurd hm h2
    · exact ⟨r, e, h0, h1, by rw [getElem?_toNat_eq h0 h1, h2]⟩
  · intro hm
    rcases h with ⟨h1, _⟩ | ⟨h0, h1, h2⟩
    · rw [e, h1]
    · exact absurd (mem_iff_elemAt.mpr ⟨r, h0, h1, h2⟩) hm

/-- The theorem of claim C7 at the sorted slice `[1, 3, 5, 7, 9, 11, 13, 15]` and
the target 5. -/
theorem C7_binarySearch_sorted_witness :
    [1, 3, 5, 7, 9, 11, 13, 15].Sorted (· ≤ ·) ∧
    (BinarySearchSorted [1, 3, 5, 7, 9, 11, 13, 15] 5 =
        BinarySearch [1, 3, 5, 7, 9, 11, 13, 15] 5 ∧
      ((5 : Int) ∈ [1, 3, 5, 7, 9, 11, 13, 15] →
        ∃ j : Int, BinarySearch [1, 3, 5, 7, 9, 11, 13, 15] 5 = some j ∧ 0 ≤ j ∧
          j < ([1, 3, 5, 7, 9, 11, 13, 15] : List Int).length ∧
          ([1, 3, 5, 7, 9, 11, 13, 15] : List Int)[j.toNat]? = some 5) ∧
      ((5 : Int) ∉ [1, 3, 5, 7, 9, 11, 13, 15] →
        BinarySearch [1, 3, 5, 7, 9, 11, 13, 15] 5 = some (-1))) :=
  ⟨by decide, C7_binarySearch_sorted [1, 3, 5, 7, 9, 11, 13, 15] 5 (by decide)⟩

/-- Claim C8. On a slice in any order, `BinarySearchUnsorted` returns for a
target that occurs an index `i` into the original slice, `0 ≤ i < len(arr)`
with `arr[i] == t`, and returns `-1` for a target that does not occur. -/
theorem C8_binarySearchUnsorted_original_index (arr : List Int) (t : Int) :
    (t ∈ arr → ∃ i : Int, BinarySearchUnsorted arr t = some i ∧ 0 ≤ i ∧ i < arr.length ∧
      arr[i.toNat]? = some t) ∧
    (t ∉ arr → BinarySearchUnsorted arr t = some (-1)) := by
  rw [binarySearchUnsorted_eq]
  constructor
  · intro hm
    obtain ⟨h0, h1, h2, _⟩ := linearSearch_present hm
    exact ⟨_, rfl, h0, h1, h2⟩
  · intro hm
    rw [LinearSearch, linearSearchFrom_absent hm]

/-- The theorem of claim C8 at the unsorted slice `[5, 1, 9, 3, 7, 11, 15, 13]`,
for the target 15, which occurs, and the target 4, which does not. -/
theorem C8_binarySearchUnsorted_original_index_witness :
    (∃ i : Int, BinarySearchUnsorted [5, 1, 9, 3, 7, 11, 15, 13] 15 = some i ∧ 0 ≤ i ∧
        i < ([5, 1, 9, 3, 7, 11, 15, 13] : List Int).length ∧
        ([5, 1, 9, 3, 7, 11, 15, 13] : List Int)[i.toNat]? = some 15) ∧
      BinarySearchUnsorted [5, 1, 9, 3, 7, 11, 15, 13] 4 = some (-1) :=
  ⟨(C8_binarySearchUnsorted_original_index [5, 1, 9, 3, 7, 11, 15, 13] 15).1 (by decide),
    (C8_binarySearchUnsorted_original_index [5, 1, 9, 3, 7, 11, 15, 13] 4).2 (by decide)⟩

/-- Claim C9. `LinearSearch` returns the smallest index at which the target
occurs, and `-1` when the target does not occur. -/
theorem C9_linearSearch_first_index (arr : List Int) (t : Int) :
    (t ∈ arr → 0 ≤ LinearSearch arr t ∧ LinearSearch arr t < arr.length ∧
      arr[(LinearSearch arr t).toNat]? = some t ∧
      ∀ k : Nat, (k : Int) < LinearSearch arr t → arr[k]? ≠ some t) ∧
    (t ∉ arr → LinearSearch arr t = -1) :=
  ⟨fun hm => linearSearch_present hm, fun hm => linearSearchFrom_absent hm 0⟩

/-- The theorem of claim C9 at the slice `[1, 3, 5, 3]`, for the target 3, which
occurs twice, and the target 4, which does not occur. -/
theorem C9_linearSearch_first_index_witness :
    (0 ≤ LinearSearch [1, 3, 5, 3] 3 ∧
        LinearSearch [1, 3, 5, 3] 3 < ([1, 3, 5, 3] : List Int).length ∧
        ([1, 3, 5, 3] : List Int)[(LinearSearch [1, 3, 5, 3] 3).toNat]? = some 3 ∧
        ∀ k : Nat, (k : Int) < LinearSearch [1, 3, 5, 3] 3 →
          ([1, 3, 5, 3] : List Int)[k]? ≠ some 3) ∧
      LinearSearch [1, 3, 5, 3] 4 = -1 :=
  ⟨(C9_linearSearch_first_index [1, 3, 5, 3] 3).1 (by decide),
    (C9_linearSearch_first_index [1, 3, 5, 3] 4).2 (by decide)⟩

/-- Claim C10. With `Runs ≥ 1` and `Size ≥ 0`, a configuration whose algorithm
name is none of the eight registered names makes `RunBenchmark` return the
error `unknown algorithm: ` followed by the name, and leaves the result store
as it was. -/
theorem C10_unknown_algorithm_rejected (bs : BenchmarkSuite) (config : BenchmarkConfig)
    (world : Nat → Trial) (hruns : 1 ≤ config.Runs) (hsize : 0 ≤ config.Size)
    (hname : config.Algorithm ∉ ["linear_search", "binary_search", "bubble_sort",
      "insertion_sort", "merge_sort", "quick_sort", "heap_sort", "native_sort"]) :
    RunBenchmark bs config world =
        (Outcome.error ("unknown algorithm: " ++ config.Algorithm), bs) ∧
      GetResults (RunBenchmark bs config world).2 = GetResults bs := by
  obtain ⟨arr, harr⟩ := generateArray_isSome (world (0 : Int).toNat).rand hsize config.ArrayType
  have hlt : (0 : Int) < config.Runs := by omega
  have h : RunBenchmark bs config world =
      (Outcome.error ("unknown algorithm: " ++ config.Algorithm), bs) := by
    simp only [RunBenchmark, trialLoop, hlt, if_true, harr, runAlgorithm_unknown hname]
  rw [h]
  exact ⟨rfl, rfl⟩

/-- The theorem of claim C10 at the unregistered name `bogo_sort`, three runs of
size 10, on a store that already holds one result. -/
theorem C10_unknown_algorithm_rejected_witness :
    RunBenchmark
        { results := [{ Algorithm := "linear_search", ArrayType := "Sorted", Size := 4,
                        Duration := 7, MemoryBefore := 0, MemoryAfter := 0, MemoryUsed := 0,
                        Runs := 1, MeanDuration := 7, StdDeviation := 0, MinDuration := 7,
                        MaxDuration := 7 }] }
        { Algorithm := "bogo_sort", ArrayType := Random, Size := 10, Runs := 3, Target := 0 }
        (fun _ => { rand := fun i => i, duration := 5, allocBefore := 0, allocAfter := 0 }) =
      (Outcome.error "unknown algorithm: bogo_sort",
        { results := [{ Algorithm := "linear_search", ArrayType := "Sorted", Size := 4,
                        Duration := 7, MemoryBefore := 0, MemoryAfter := 0, MemoryUsed := 0,
                        Runs := 1, MeanDuration := 7, StdDeviation := 0, MinDuration := 7,
                        MaxDuration := 7 }] }) :=
  (C10_unknown_algorithm_rejected _ _ _ (by decide) (by decide) (by decide)).1

/-! ## Trials -/

theorem binarySearchLoop_total (arr : List Int) (t : Int) :
    ∀ (fuel : Nat) (left right : Int), 0 ≤ left → right < arr.length →
      left ≤ right + 1 → right - left + 1 < fuel →
      ∃ r : Int, binarySearchLoop arr t fuel left right = some r ∧
        (r = -1 ∨ (0 ≤ r ∧ r < arr.length ∧ elemAt arr r = t)) := by
  intro fuel
  induction fuel with
  | zero => intro left right _ _ _ h; omega
  | succ fuel ih =>
    intro left right hl hr hlr1 hf
    by_cases hlr : left ≤ right
    · have hmid : Int.tdiv (right - left) 2 = (right - left) / 2 :=
        Int.tdiv_eq_ediv (by omega) (by omega)
      have hm0 : 0 ≤ left + (right - left) / 2 := by omega
      have hm1 : left + (right - left) / 2 < arr.length := by omega
      simp only [binarySearchLoop, hlr, if_true, hmid, idx_eq hm0 hm1]
      by_cases hv : elemAt arr (left + (right - left) / 2) = t
      · exact ⟨_, by simp [hv], Or.inr ⟨hm0, hm1, hv⟩⟩
      · simp only [hv, if_false]
        by_cases hlt : elemAt arr (left + (right - left) / 2) < t
        · simp only [hlt, if_true]
          exact ih _ _ (by omega) hr (by omega) (by omega)
        · simp only [hlt, if_false]
          exact ih _ _ hl (by omega) (by omega) (by omega)
    · exact ⟨-1, by simp [binarySearchLoop, hlr], Or.inl rfl⟩

theorem binarySearch_total (arr : List Int) (t : Int) :
    ∃ r : Int, BinarySearch arr t = some r ∧
      (r = -1 ∨ (0 ≤ r ∧ r < arr.length ∧ elemAt arr r = t)) :=
  binarySearchLoop_total arr t (arr.length + 1) 0 (arr.length - 1) (by omega) (by omega)
    (by omega) (by push_cast; omega)

theorem verifySorting_sortInts (arr : List Int) :
    VerifySorting arr (sortInts arr) = some true := by
  rw [verifySorting_eq]
  simp

theorem trialSafe_search {config : BenchmarkConfig}
    (h : config.Algorithm = "linear_search" ∨ config.Algorithm = "binary_search") :
    TrialSafe config := by
  intro arr
  have hv : ∀ result, verifyTrial config arr result = .ok () := by
    intro result
    rcases h with h | h <;> simp [verifyTrial, h]
  rcases h with h | h
  · exact ⟨.index (LinearSearch arr config.Target), by simp [runAlgorithm, h], hv _⟩
  · have hne : ¬ config.Algorithm = "linear_search" := by rw [h]; decide
    by_cases hs : config.ArrayType = Sorted
    · obtain ⟨r, e, _⟩ := binarySearch_total arr config.Target
      exact ⟨.index r, by simp [runAlgorithm, h, hs, BinarySearchSorted, e, liftResult], hv _⟩
    · exact ⟨.index (LinearSearch arr config.Target),
        by simp [runAlgorithm, h, hs, binarySearchUnsorted_eq, liftResult], hv _⟩

theorem trialSafe_sort {config : BenchmarkConfig} (h : config.Algorithm ∈ sortAlgorithms) :
    TrialSafe config := by
  intro arr
  have hv : verifyTrial config arr (.slice (sortInts arr)) = .ok () := by
    have h1 : config.Algorithm ≠ "linear_search" := by
      intro e; rw [e] at h; revert h; decide
    have h2 : config.Algorithm ≠ "binary_search" := by
      intro e; rw [e] at h; revert h; decide
    simp [verifyTrial, h1, h2, verifySorting_sortInts]
  refine ⟨.slice (sortInts arr), ?_, hv⟩
  simp only [sortAlgorithms, List.mem_cons, List.mem_singleton, List.not_mem_nil,
    or_false] at h
  rcases h with h | h | h | h | h | h
  · obtain ⟨out, e, hp, hs⟩ := bubbleSort_spec arr
    rw [sortInts_unique hp hs] at e
    simp [runAlgorithm, h, e, liftResult]
  · obtain ⟨out, e, hp, hs⟩ := insertionSort_spec arr
    rw [sortInts_unique hp hs] at e
    simp [runAlgorithm, h, e, liftResult]
  · obtain ⟨out, e, hp, hs⟩ := mergeSort_spec arr
    rw [sortInts_unique hp hs] at e
    simp [runAlgorithm, h, e, liftResult]
  · obtain ⟨out, e, hp, hs⟩ := quickSort_spec arr
    rw [sortInts_unique hp hs] at e
    simp [runAlgorithm, h, e, liftResult]
  · obtain ⟨out, e, hp, hs⟩ := heapSort_spec arr
    rw [sortInts_unique hp hs] at e
    simp [runAlgorithm, h, e, liftResult]
  · simp [runAlgorithm, h, NativeSort]

theorem samples_step {α : Type} (f : Nat → α) (runs run : Int) (h0 : 0 ≤ run)
    (hlt : run < runs) :
    (List.range (runs - run).toNat).map (fun k => f (run.toNat + k)) =
      f run.toNat ::
        (List.range (runs - (run + 1)).toNat).map (fun k => f ((run + 1).toNat + k)) := by
  have e1 : (runs - run).toNat = (runs - (run + 1)).toNat + 1 := by omega
  have e2 : (run + 1).toNat = run.toNat + 1 := by omega
  rw [e1, List.range_succ_eq_map, List.map_cons, List.map_map, e2]
  congr 1
  apply List.map_congr_left
  intro k _
  simp only [Function.comp, Nat.add_zero]
  congr 1
  omega

theorem trialLoop_shape (config : BenchmarkConfig) (world : Nat → Trial) :
    ∀ (fuel : Nat) (run : Int) (ds : List Int) (ms : List Nat) (ds1 : List Int)
      (ms1 : List Nat), 0 ≤ run →
      trialLoop config world fuel run ds ms = .ok (ds1, ms1) →
      ds1 = ds ++ durationSamples config world run ∧
        ms1 = ms ++ memorySamples config world run := by
  intro fuel
  induction fuel with
  | zero => intro run ds ms ds1 ms1 _ h; simp [trialLoop] at h
  | succ fuel ih =>
    intro run ds ms ds1 ms1 h0 h
    by_cases hlt : run < config.Runs
    · simp only [trialLoop, hlt, if_true] at h
      cases hG : GenerateArray (world run.toNat).rand config.Size config.ArrayType with
      | none => simp [hG] at h
      | some arr =>
        simp only [hG] at h
        cases hR : runAlgorithm config arr with
        | crash => simp [hR] at h
        | error msg => simp [hR] at h
        | ok result =>
          simp only [hR] at h
          cases hV : verifyTrial config arr result with
          | crash => simp [hV] at h
          | error msg => simp [hV] at h
          | ok u =>
            simp only [hV] at h
            obtain ⟨e1, e2⟩ := ih _ _ _ _ _ (by omega) h
            unfold durationSamples memorySamples
            rw [samples_step (fun k => (world k).duration) _ _ h0 hlt,
              samples_step (fun k =>
                wrapUint64 ((world k).allocAfter - (world k).allocBefore)) _ _ h0 hlt]
            constructor
            · rw [e1]; simp [durationSamples]
            · rw [e2]; simp [memorySamples]
    · simp only [trialLoop, hlt, if_false, Outcome.ok.injEq, Prod.mk.injEq] at h
      have e : (config.Runs - run).toNat = 0 := by omega
      simp [durationSamples, memorySamples, e, h.1.symm, h.2.symm]

theorem trialLoop_ok {config : BenchmarkConfig} (world : Nat → Trial)
    (hsize : 0 ≤ config.Size) (hsafe : TrialSafe config) :
    ∀ (fuel : Nat) (run : Int) (ds : List Int) (ms : List Nat), 0 < fuel →
      config.Runs - run < fuel →
      ∃ (ds1 : List Int) (ms1 : List Nat),
        trialLoop config world fuel run ds ms = .ok (ds1, ms1) := by
  intro fuel
  induction fuel with
  | zero => intro run ds ms h; omega
  | succ fuel ih =>
    intro run ds ms _ hf
    by_cases hlt : run < config.Runs
    · obtain ⟨arr, hG⟩ := generateArray_isSome (world run.toNat).rand hsize config.ArrayType
      obtain ⟨result, hR, hV⟩ := hsafe arr
      simp only [trialLoop, hlt, if_true, hG, hR, hV]
      exact ih _ _ _ (by omega) (by omega)
    · exact ⟨ds, ms, by simp [trialLoop, hlt]⟩

/-! ## `RunBenchmark` -/

theorem runBenchmark_ok_inv {bs bs1 : BenchmarkSuite} {config : BenchmarkConfig}
    {world : Nat → Trial} {r : BenchmarkResult}
    (h : RunBenchmark bs config world = (.ok r, bs1)) :
    bs1.results = bs.results ++ [r] ∧
      r.Algorithm = config.Algorithm ∧ r.ArrayType = GetArrayTypeName config.ArrayType ∧
      r.Size = config.Size ∧ r.Runs = config.Runs ∧
      r.MeanDuration = calculateMean (durationSamples config world 0) ∧
      r.Duration = calculateMean (durationSamples config world 0) ∧
      r.StdDeviation = calculateStdDeviation (durationSamples config world 0)
        (calculateMean (durationSamples config world 0)) ∧
      r.MinDuration = calculateMin (durationSamples config world 0) ∧
      r.MaxDuration = calculateMax (durationSamples config world 0) ∧
      r.MemoryUsed = calculateMeanUint64 (memorySamples config world 0) := by
  unfold RunBenchmark at h
  cases hT : trialLoop config world (config.Runs.toNat + 1) 0 [] [] with
  | crash => simp [hT] at h
  | error msg => simp [hT] at h
  | ok p =>
    obtain ⟨ds, ms⟩ := p
    obtain ⟨e1, e2⟩ := trialLoop_shape config world _ _ _ _ _ _ (le_refl _) hT
    simp only [List.nil_append] at e1 e2
    simp only [hT, Prod.mk.injEq, Outcome.ok.injEq] at h
    obtain ⟨hr, hb⟩ := h
    subst e1 e2
    subst hr
    subst hb
    simp

theorem runBenchmark_not_ok_inv {bs bs1 : BenchmarkSuite} {config : BenchmarkConfig}
    {world : Nat → Trial} {out : Outcome BenchmarkResult}
    (h : RunBenchmark bs config world = (out, bs1)) (hne : ∀ r, out ≠ .ok r) : bs1 = bs := by
  unfold RunBenchmark at h
  cases hT : trialLoop config world (config.Runs.toNat + 1) 0 [] [] with
  | crash =>
    simp only [hT, Prod.mk.injEq] at h
    exact h.2.symm
  | error msg =>
    simp only [hT, Prod.mk.injEq] at h
    exact h.2.symm
  | ok p =>
    simp only [hT, Prod.mk.injEq] at h
    exact absurd h.1.symm (hne _)

theorem runBenchmark_ok (bs : BenchmarkSuite) {config : BenchmarkConfig} (world : Nat → Trial)
    (hsize : 0 ≤ config.Size) (hsafe : TrialSafe config) :
    ∃ r : BenchmarkResult,
      RunBenchmark bs config world = (.ok r, { results := bs.results ++ [r] }) := by
  obtain ⟨ds, ms, hT⟩ := trialLoop_ok world hsize hsafe (config.Runs.toNat + 1) 0 [] []
    (by omega) (by push_cast; omega)
  simp only [RunBenchmark, hT]
  exact ⟨_, rfl⟩

/-! ## Statistics -/

theorem wrapInt64_eq {x : Int} (h0 : -2 ^ 63 ≤ x) (h1 : x < 2 ^ 63) : wrapInt64 x = x := by
  unfold wrapInt64
  omega

theorem wrapInt64_range (x : Int) : -2 ^ 63 ≤ wrapInt64 x ∧ wrapInt64 x < 2 ^ 63 := by
  unfold wrapInt64
  omega

theorem foldl_wrap_sum :
    ∀ (ds : List Int) (acc : Int), 0 ≤ acc → (∀ d ∈ ds, 0 ≤ d) → acc + ds.sum < 2 ^ 63 →
      ds.foldl (fun total d => wrapInt64 (total + d)) acc = acc + ds.sum := by
  intro ds
  induction ds with
  | nil => intro acc _ _ _; simp
  | cons d rest ih =>
    intro acc h0 hd hs
    have hd0 : 0 ≤ d := hd d (by simp)
    have hr : ∀ x ∈ rest, 0 ≤ x := fun x hx => hd x (by simp [hx])
    have hrs : 0 ≤ rest.sum := List.sum_nonneg hr
    simp only [List.sum_cons] at hs
    have e : wrapInt64 (acc + d) = acc + d := wrapInt64_eq (by omega) (by omega)
    simp only [List.foldl_cons, e, List.sum_cons]
    rw [ih (acc + d) (by omega) hr (by omega)]
    omega

theorem minFold_spec :
    ∀ (l : List Int) (m : Int),
      l.foldl (fun min d => if d < min then d else min) m ≤ m ∧
      (∀ d ∈ l, l.foldl (fun min d => if d < min then d else min) m ≤ d) ∧
      (l.foldl (fun min d => if d < min then d else min) m = m ∨
        l.foldl (fun min d => if d < min then d else min) m ∈ l) := by
  intro l
  induction l with
  | nil => intro m; simp
  | cons x rest ih =>
    intro m
    simp only [List.foldl_cons]
    obtain ⟨h1, h2, h3⟩ := ih (if x < m then x else m)
    by_cases c : x < m
    · simp only [c, if_true] at h1 h2 h3 ⊢
      refine ⟨by omega, ?_, ?_⟩
      · intro d hd
        rcases List.mem_cons.mp hd with e | e
        · rw [e]; exact h1
        · exact h2 d e
      · rcases h3 with e | e
        · right; rw [e]; simp
        · right; exact List.mem_cons_of_mem _ e
    · simp only [c, if_false] at h1 h2 h3 ⊢
      refine ⟨h1, ?_, ?_⟩
      · intro d hd
        rcases List.mem_cons.mp hd with e | e
        · rw [e]; omega
        · exact h2 d e
      · rcases h3 with e | e
        · left; exact e
        · right; exact List.mem_cons_of_mem _ e

theorem maxFold_spec :
    ∀ (l : List Int) (m : Int),
      m ≤ l.foldl (fun max d => if d > max then d else max) m ∧
      (∀ d ∈ l, d ≤ l.foldl (fun max d => if d > max then d else max) m) ∧
      (l.foldl (fun max d => if d > max then d else max) m = m ∨
        l.foldl (fun max d => if d > max then d else max) m ∈ l) := by
  intro l
  induction l with
  | nil => intro m; simp
  | cons x rest ih =>
    intro m
    simp only [List.foldl_cons]
    obtain ⟨h1, h2, h3⟩ := ih (if x > m then x else m)
    by_cases c : x > m
    · simp only [c, if_true] at h1 h2 h3 ⊢
      refine ⟨by omega, ?_, ?_⟩
      · intro d hd
        rcases List.mem_cons.mp hd with e | e
        · rw [e]; exact h1
        · exact h2 d e
      · rcases h3 with e | e
        · right; rw [e]; simp
        · right; exact List.mem_cons_of_mem _ e
    · simp only [c, if_false] at h1 h2 h3 ⊢
      refine ⟨h1, ?_, ?_⟩
      · intro d hd
        rcases List.mem_cons.mp hd with e | e
        · rw [e]; omega
        · exact h2 d e
      · rcases h3 with e | e
        · left; exact e
        · right; exact List.mem_cons_of_mem _ e

theorem calculateMin_spec {ds : List Int} (h : ds ≠ []) :
    calculateMin ds ∈ ds ∧ ∀ d ∈ ds, calculateMin ds ≤ d := by
  cases ds with
  | nil => exact absurd rfl h
  | cons d0 rest =>
    obtain ⟨_, h2, h3⟩ := minFold_spec (d0 :: rest) d0
    refine ⟨?_, h2⟩
    rcases h3 with e | e
    · simp only [calculateMin, e]; simp
    · exact e

theorem calculateMax_spec {ds : List Int} (h : ds ≠ []) :
    calculateMax ds ∈ ds ∧ ∀ d ∈ ds, d ≤ calculateMax ds := by
  cases ds with
  | nil => exact absurd rfl h
  | cons d0 rest =>
    obtain ⟨_, h2, h3⟩ := maxFold_spec (d0 :: rest) d0
    refine ⟨?_, h2⟩
    rcases h3 with e | e
    · simp only [calculateMax, e]; simp
    · exact e

theorem mul_length_le_sum {l : List Int} {m : Int} (h : ∀ d ∈ l, m ≤ d) :
    m * l.length ≤ l.sum := by
  induction l with
  | nil => simp
  | cons x rest ih =>
    have h1 := h x (by simp)
    have h2 := ih (fun d hd => h d (by simp [hd]))
    simp only [List.length_cons, List.sum_cons]
    push_cast
    rw [mul_add, mul_one]
    omega

theorem sum_le_mul_length {l : List Int} {m : Int} (h : ∀ d ∈ l, d ≤ m) :
    l.sum ≤ m * l.length := by
  induction l with
  | nil => simp
  | cons x rest ih =>
    have h1 := h x (by simp)
    have h2 := ih (fun d hd => h d (by simp [hd]))
    simp only [List.length_cons, List.sum_cons]
    push_cast
    rw [mul_add, mul_one]
    omega

theorem calculateMean_eq_sum_div {ds : List Int} (hne : ds ≠ []) (h0 : ∀ d ∈ ds, 0 ≤ d)
    (hs : ds.sum < 2 ^ 63) : calculateMean ds = ds.sum / (ds.length : Int) := by
  have hlen : ds.length ≠ 0 := by
    intro e; exact hne (List.length_eq_zero.mp e)
  have hf := foldl_wrap_sum ds 0 (le_refl _) h0 (by simpa using hs)
  simp only [zero_add] at hf
  unfold calculateMean
  rw [if_neg hlen]
  show Int.tdiv (ds.foldl (fun total d => wrapInt64 (total + d)) 0) ds.length = _
  rw [hf]
  exact Int.tdiv_eq_ediv (List.sum_nonneg h0) (Int.natCast_nonneg _)

theorem min_le_mean_le_max {ds : List Int} (hne : ds ≠ []) (h0 : ∀ d ∈ ds, 0 ≤ d)
    (hs : ds.sum < 2 ^ 63) :
    calculateMin ds ≤ calculateMean ds ∧ calculateMean ds ≤ calculateMax ds := by
  have hlen : 0 < (ds.length : Int) := by
    have : ds.length ≠ 0 := fun e => hne (List.length_eq_zero.mp e)
    omega
  rw [calculateMean_eq_sum_div hne h0 hs]
  exact ⟨Int.le_ediv_of_mul_le hlen (mul_length_le_sum (calculateMin_spec hne).2),
    Int.ediv_le_of_le_mul hlen (sum_le_mul_length (calculateMax_spec hne).2)⟩

theorem calculateStdDeviation_short {ds : List Int} (h : ds.length ≤ 1) (mean : Int) :
    calculateStdDeviation ds mean = 0 := by
  have h1 : (ds.length : Int) ≤ 1 := by omega
  simp [calculateStdDeviation, h1]

theorem tdiv_cases (a b : Int) (hb : 0 < b) :
    (0 ≤ a ∧ a.tdiv b = a / b) ∨ (a < 0 ∧ a.tdiv b = -((-a) / b)) := by
  rcases lt_or_ge a 0 with h | h
  · right
    refine ⟨h, ?_⟩
    have e : a = -(-a) := by omega
    rw [e, Int.neg_tdiv, Int.tdiv_eq_ediv (by omega) (by omega)]
    simp
  · exact Or.inl ⟨h, Int.tdiv_eq_ediv h (by omega)⟩

theorem tdiv_range {a b : Int} (hb : 0 < b) (h0 : -2 ^ 63 ≤ a) (h1 : a < 2 ^ 63) :
    -2 ^ 63 ≤ a.tdiv b ∧ a.tdiv b < 2 ^ 63 := by
  rcases tdiv_cases a b hb with ⟨h, e⟩ | ⟨h, e⟩
  · rw [e]
    have k1 := Int.ediv_le_self b h
    have k2 := Int.ediv_nonneg h (le_of_lt hb)
    omega
  · rw [e]
    have k1 := Int.ediv_le_self b (show 0 ≤ -a by omega)
    have k2 := Int.ediv_nonneg (show 0 ≤ -a by omega) (le_of_lt hb)
    omega

theorem varianceOf_range {ds : List Int} (h : 2 ≤ ds.length) (mean : Int) :
    -2 ^ 63 ≤ varianceOf ds mean ∧ varianceOf ds mean < 2 ^ 63 := by
  have hr : ∀ (l : List Int) (acc : Int), -2 ^ 63 ≤ acc → acc < 2 ^ 63 →
      -2 ^ 63 ≤ l.foldl (fun sumSquares d =>
          wrapInt64 (sumSquares + wrapInt64 (wrapInt64 (d - mean) * wrapInt64 (d - mean)))) acc ∧
        l.foldl (fun sumSquares d =>
          wrapInt64 (sumSquares + wrapInt64 (wrapInt64 (d - mean) * wrapInt64 (d - mean)))) acc
          < 2 ^ 63 := by
    intro l
    induction l with
    | nil => intro acc h0 h1; exact ⟨h0, h1⟩
    | cons x rest ih =>
      intro acc _ _
      simp only [List.foldl_cons]
      exact ih _ (wrapInt64_range _).1 (wrapInt64_range _).2
  have hs := hr ds 0 (by omega) (by omega)
  exact tdiv_range (by omega) hs.1 hs.2

theorem calculateStdDeviation_eq_truncated {ds : List Int} (h : 2 ≤ ds.length) (mean : Int) :
    calculateStdDeviation ds mean = Int.tdiv (varianceOf ds mean) 1000 * 1000 := by
  have h1 : ¬ (ds.length : Int) ≤ 1 := by omega
  have hv := varianceOf_range h mean
  have e : calculateStdDeviation ds mean =
      wrapInt64 (Int.tdiv (varianceOf ds mean) 1000 * 1000) := by
    simp only [calculateStdDeviation, h1, if_false, varianceOf, sumSquaresOf]
  rw [e]
  apply wrapInt64_eq
  · rcases tdiv_cases (varianceOf ds mean) 1000 (by omega) with ⟨k, e1⟩ | ⟨k, e1⟩ <;>
      rw [e1] <;> omega
  · rcases tdiv_cases (varianceOf ds mean) 1000 (by omega) with ⟨k, e1⟩ | ⟨k, e1⟩ <;>
      rw [e1] <;> omega

theorem calculateStdDeviation_multiple (ds : List Int) (mean : Int) :
    calculateStdDeviation ds mean % 1000 = 0 := by
  rcases Nat.lt_or_ge ds.length 2 with h | h
  · rw [calculateStdDeviation_short (by omega)]
    rfl
  · rw [calculateStdDeviation_eq_truncated h]
    exact Int.mul_emod_left _ _

/-! ## Sweeps -/

theorem runConfigs_append (worlds : Nat → Nat → Trial) :
    ∀ (l1 l2 : List BenchmarkConfig) (st : SweepState),
      runConfigs worlds (l1 ++ l2) st =
        match runConfigs worlds l1 st with
        | (.ok _, st1) => runConfigs worlds l2 st1
        | (.error msg, st1) => (.error msg, st1)
        | (.crash, st1) => (.crash, st1) := by
  intro l1
  induction l1 with
  | nil => intro l2 st; simp [runConfigs]
  | cons c rest ih =>
    intro l2 st
    simp only [List.cons_append, runConfigs]
    cases hR : RunBenchmark st.suite c (worlds st.calls.length) with
    | mk out bs =>
      cases out with
      | ok r => exact ih l2 _
      | error msg => rfl
      | crash => rfl

theorem sweepSizes_eq (worlds : Nat → Nat → Trial) (target : Int → Int) (runs : Int)
    (algorithm : String) (arrayType : ArrayType) :
    ∀ (sizes : List Int) (st : SweepState),
      sweepSizes worlds target runs algorithm arrayType sizes st =
        runConfigs worlds (sizes.map (fun size =>
          { Algorithm := algorithm, ArrayType := arrayType, Size := size, Runs := runs,
            Target := target size })) st := by
  intro sizes
  induction sizes with
  | nil => intro st; rfl
  | cons size rest ih =>
    intro st
    simp only [sweepSizes, List.map_cons, runConfigs]
    split <;> rename_i h <;> simp only [h, ih]

theorem sweepArrayTypes_eq (worlds : Nat → Nat → Trial) (target : Int → Int) (runs : Int)
    (sizes : List Int) (algorithm : String) :
    ∀ (arrayTypes : List ArrayType) (st : SweepState),
      sweepArrayTypes worlds target runs sizes algorithm arrayTypes st =
        runConfigs worlds (arrayTypes.flatMap (fun arrayType =>
          sizes.map (fun size =>
            { Algorithm := algorithm, ArrayType := arrayType, Size := size, Runs := runs,
              Target := target size }))) st := by
  intro arrayTypes
  induction arrayTypes with
  | nil => intro st; rfl
  | cons t rest ih =>
    intro st
    simp only [sweepArrayTypes, List.flatMap_cons, runConfigs_append, sweepSizes_eq]
    split <;> rename_i h <;> simp only [h, ih]

theorem sweepAlgorithms_eq (worlds : Nat → Nat → Trial) (target : Int → Int) (runs : Int)
    (sizes : List Int) (arrayTypes : List ArrayType) :
    ∀ (algorithms : List String) (st : SweepState),
      sweepAlgorithms worlds target runs sizes arrayTypes algorithms st =
        runConfigs worlds (sweepConfigs target runs sizes arrayTypes algorithms) st := by
  intro algorithms
  induction algorithms with
  | nil => intro st; rfl
  | cons a rest ih =>
    intro st
    simp only [sweepAlgorithms, sweepConfigs, List.flatMap_cons, runConfigs_append,
      sweepArrayTypes_eq]
    split <;> rename_i h <;> simp only [h, ih, sweepConfigs]

theorem runConfigs_trace (worlds : Nat → Nat → Trial) :
    ∀ (E : List BenchmarkConfig) (st : SweepState),
      ∃ (R : List (BenchmarkConfig × BenchmarkResult))
        (tail : List (BenchmarkConfig × Outcome BenchmarkResult)),
        SweepTrace worlds E st (runConfigs worlds E st).2 (runConfigs worlds E st).1 R tail := by
  intro E
  induction E with
  | nil =>
    intro st
    exact ⟨[], [], by simp [runConfigs], by simp [runConfigs], by simp,
      Or.inl ⟨rfl, rfl, rfl⟩⟩
  | cons c rest ih =>
    intro st
    cases hR : RunBenchmark st.suite c (worlds st.calls.length) with
    | mk out bs =>
      cases out with
      | ok r =>
        obtain ⟨hres, ha, _, hs, hr, _⟩ := runBenchmark_ok_inv hR
        obtain ⟨R, tail, t1, t2, t3, t4⟩ :=
          ih { suite := bs, calls := st.calls ++ [(c, .ok r)] }
        have e : runConfigs worlds (c :: rest) st =
            runConfigs worlds rest { suite := bs, calls := st.calls ++ [(c, .ok r)] } := by
          simp only [runConfigs, hR]
        rw [e]
        refine ⟨(c, r) :: R, tail, ?_, ?_, ?_, ?_⟩
        · rw [t1]; simp
        · rw [t2]; simp [hres]
        · intro p hp
          rcases List.mem_cons.mp hp with h | h
          · rw [h]; exact ⟨ha, hs, hr⟩
          · exact t3 p h
        · rcases t4 with ⟨k1, k2, k3⟩ | ⟨c1, e1, rest1, k1, k2, k3, k4⟩ |
            ⟨c1, rest1, k1, k2, k3⟩
          · exact Or.inl ⟨k1, k2, by simp [k3]⟩
          · refine Or.inr (Or.inl ⟨c1, e1, rest1, k1, k2, by simp [k3], ?_⟩)
            have e2 : st.calls.length + ((c, r) :: R).length =
                (st.calls ++ [(c, Outcome.ok r)]).length + R.length := by
              simp only [List.length_cons, List.length_append, List.length_nil]
              omega
            rw [e2]
            exact k4
          · exact Or.inr (Or.inr ⟨c1, rest1, k1, k2, by simp [k3]⟩)
      | error msg =>
        have hb : bs = st.suite := runBenchmark_not_ok_inv hR (by intro r h; cases h)
        subst hb
        have e : runConfigs worlds (c :: rest) st =
            (.error ("benchmark failed for " ++ c.Algorithm ++ ": " ++ msg),
              { suite := st.suite, calls := st.calls ++ [(c, .error msg)] }) := by
          simp only [runConfigs, hR]
        rw [e]
        exact ⟨[], [(c, .error msg)], by simp, by simp, by simp,
          Or.inr (Or.inl ⟨c, msg, rest, rfl, rfl, by simp, by simpa using hR⟩)⟩
      | crash =>
        have hb : bs = st.suite := runBenchmark_not_ok_inv hR (by intro r h; cases h)
        subst hb
        have e : runConfigs worlds (c :: rest) st =
            (.crash, { suite := st.suite, calls := st.calls ++ [(c, .crash)] }) := by
          simp only [runConfigs, hR]
        rw [e]
        exact ⟨[], [(c, .crash)], by simp, by simp, by simp,
          Or.inr (Or.inr ⟨c, rest, rfl, rfl, by simp⟩)⟩

theorem runConfigs_ok (worlds : Nat → Nat → Trial) :
    ∀ (E : List BenchmarkConfig) (st : SweepState),
      (∀ c ∈ E, 0 ≤ c.Size ∧ TrialSafe c) → (runConfigs worlds E st).1 = .ok () := by
  intro E
  induction E with
  | nil => intro st _; rfl
  | cons c rest ih =>
    intro st h
    obtain ⟨hsize, hsafe⟩ := h c (by simp)
    obtain ⟨r, hR⟩ := runBenchmark_ok st.suite (worlds st.calls.length) hsize hsafe
    simp only [runConfigs, hR]
    exact ih _ (fun c1 h1 => h c1 (by simp [h1]))

/-! ## The order of the configurations of a sweep -/

theorem mem_of_getElem?_some {α : Type} {l : List α} {k : Nat} {x : α}
    (h : l[k]? = some x) : x ∈ l := by
  obtain ⟨hlt, hv⟩ := List.getElem?_eq_some_iff.mp h
  exact hv ▸ List.getElem_mem hlt

theorem length_flatMap_uniform {α β : Type} (g : α → List β) (m : Nat)
    (hm : ∀ x, (g x).length = m) : ∀ l : List α, (l.flatMap g).length = l.length * m := by
  intro l
  induction l with
  | nil => simp
  | cons x rest ih =>
    simp only [List.flatMap_cons, List.length_append, hm, ih, List.length_cons]
    rw [Nat.add_mul, Nat.one_mul, Nat.add_comm]

theorem getElem?_flatMap_uniform {α β : Type} (g : α → List β) (m : Nat) (hpos : 0 < m)
    (hm : ∀ x, (g x).length = m) :
    ∀ (l : List α) (k : Nat),
      (l.flatMap g)[k]? = (l[k / m]?).bind (fun x => (g x)[k % m]?) := by
  intro l
  induction l with
  | nil => intro k; simp
  | cons x rest ih =>
    intro k
    simp only [List.flatMap_cons]
    rcases Nat.lt_or_ge k m with h | h
    · rw [List.getElem?_append_left (by rw [hm]; exact h), Nat.div_eq_of_lt h,
        Nat.mod_eq_of_lt h]
      simp
    · rw [List.getElem?_append_right (by rw [hm]; exact h), hm, ih]
      have e1 : k / m = (k - m) / m + 1 := by
        conv_lhs => rw [show k = (k - m) + m by omega]
        exact Nat.add_div_right _ hpos
      have e2 : k % m = (k - m) % m := by
        conv_lhs => rw [show k = (k - m) + m by omega]
        exact Nat.add_mod_right _ _
      rw [e1, e2]
      simp

theorem sweepConfigs_length (target : Int → Int) (runs : Int) (sizes : List Int)
    (arrayTypes : List ArrayType) (algorithms : List String) :
    (sweepConfigs target runs sizes arrayTypes algorithms).length =
      algorithms.length * (arrayTypes.length * sizes.length) := by
  unfold sweepConfigs
  apply length_flatMap_uniform
  intro a
  apply length_flatMap_uniform
  intro t
  simp

theorem sweepConfigs_getElem? {target : Int → Int} {runs : Int} {sizes : List Int}
    {arrayTypes : List ArrayType} {algorithms : List String} {k : Nat} {c : BenchmarkConfig}
    (h : (sweepConfigs target runs sizes arrayTypes algorithms)[k]? = some c) :
    c.Runs = runs ∧ c.Target = target c.Size ∧
      algorithms[k / (arrayTypes.length * sizes.length)]? = some c.Algorithm ∧
      arrayTypes[k / sizes.length % arrayTypes.length]? = some c.ArrayType ∧
      sizes[k % sizes.length]? = some c.Size := by
  have hk : k < (sweepConfigs target runs sizes arrayTypes algorithms).length := by
    rcases Nat.lt_or_ge k (sweepConfigs target runs sizes arrayTypes algorithms).length
      with h1 | h1
    · exact h1
    · rw [List.getElem?_eq_none h1] at h
      cases h
  rw [sweepConfigs_length] at hk
  have hm : 0 < arrayTypes.length * sizes.length := by
    rcases Nat.eq_zero_or_pos (arrayTypes.length * sizes.length) with e | e
    · rw [e] at hk; omega
    · exact e
  have hn : 0 < sizes.length := by
    rcases Nat.eq_zero_or_pos sizes.length with e | e
    · rw [e] at hm; omega
    · exact e
  unfold sweepConfigs at h
  rw [getElem?_flatMap_uniform _ (arrayTypes.length * sizes.length) hm
    (fun a => length_flatMap_uniform _ sizes.length (fun t => by simp) arrayTypes)] at h
  obtain ⟨a, ha, h1⟩ := Option.bind_eq_some.mp h
  rw [getElem?_flatMap_uniform _ sizes.length hn (fun t => by simp)] at h1
  obtain ⟨t, ht, h2⟩ := Option.bind_eq_some.mp h1
  rw [List.getElem?_map] at h2
  obtain ⟨s, hs, h3⟩ := Option.map_eq_some'.mp h2
  rw [Nat.mod_mul_left_div_self] at ht
  rw [Nat.mod_mul_left_mod] at hs
  subst h3
  exact ⟨rfl, rfl, ha, ht, hs⟩

theorem sweepConfigs_countP (target : Int → Int) (runs : Int) (sizes : List Int)
    (arrayTypes : List ArrayType) (a : String) :
    ∀ algorithms : List String,
      (sweepConfigs target runs sizes arrayTypes algorithms).countP
          (fun c => decide (c.Algorithm = a)) =
        algorithms.count a * (arrayTypes.length * sizes.length) := by
  intro algorithms
  induction algorithms with
  | nil => simp [sweepConfigs]
  | cons x rest ih =>
    have hblock : ∀ c ∈ arrayTypes.flatMap (fun arrayType => sizes.map (fun size =>
        ({ Algorithm := x, ArrayType := arrayType, Size := size, Runs := runs,
            Target := target size } : BenchmarkConfig))), c.Algorithm = x := by
      intro c hc
      obtain ⟨t, _, h1⟩ := List.mem_flatMap.mp hc
      obtain ⟨s, _, h2⟩ := List.mem_map.mp h1
      rw [← h2]
    have hlen := length_flatMap_uniform (fun arrayType => sizes.map (fun size =>
        ({ Algorithm := x, ArrayType := arrayType, Size := size, Runs := runs,
            Target := target size } : BenchmarkConfig))) sizes.length (fun t => by simp)
        arrayTypes
    unfold sweepConfigs at ih ⊢
    rw [List.flatMap_cons, List.countP_append, ih, List.count_cons]
    by_cases hx : x = a
    · have e : List.countP (fun c => decide (c.Algorithm = a))
          (arrayTypes.flatMap (fun arrayType => sizes.map (fun size =>
            ({ Algorithm := x, ArrayType := arrayType, Size := size, Runs := runs,
                Target := target size } : BenchmarkConfig)))) =
          arrayTypes.length * sizes.length := by
        rw [← hlen]
        apply List.countP_eq_length.mpr
        intro c hc
        simp [hblock c hc, hx]
      rw [e]
      simp only [hx, beq_self_eq_true, if_true]
      rw [Nat.add_mul, Nat.one_mul, Nat.add_comm]
    · have e : List.countP (fun c => decide (c.Algorithm = a))
          (arrayTypes.flatMap (fun arrayType => sizes.map (fun size =>
            ({ Algorithm := x, ArrayType := arrayType, Size := size, Runs := runs,
                Target := target size } : BenchmarkConfig)))) = 0 := by
        apply List.countP_eq_zero.mpr
        intro c hc
        simp [hblock c hc, hx]
      rw [e]
      have hb : (x == a) = false := by simpa using hx
      simp [hb]

/-! ## What a sweep leaves behind -/

theorem filterMap_okResult_map (R : List (BenchmarkConfig × BenchmarkResult)) :
    (R.map (fun p => (p.1, Outcome.ok p.2))).filterMap okResult = R.map Prod.snd := by
  induction R with
  | nil => rfl
  | cons p rest ih => simp [List.filterMap_cons, okResult, ih]

theorem sweepAlgorithms_trace (worlds : Nat → Nat → Trial) (target : Int → Int) (runs : Int)
    (sizes : List Int) (arrayTypes : List ArrayType) (algorithms : List String)
    (st : SweepState) :
    ∃ (R : List (BenchmarkConfig × BenchmarkResult))
      (tail : List (BenchmarkConfig × Outcome BenchmarkResult)),
      SweepTrace worlds (sweepConfigs target runs sizes arrayTypes algorithms) st
        (sweepAlgorithms worlds target runs sizes arrayTypes algorithms st).2
        (sweepAlgorithms worlds target runs sizes arrayTypes algorithms st).1 R tail := by
  rw [sweepAlgorithms_eq]
  exact runConfigs_trace worlds _ st

theorem sweep_ok_spec {worlds : Nat → Nat → Trial} {target : Int → Int} {runs : Int}
    {sizes : List Int} {arrayTypes : List ArrayType} {algorithms : List String}
    {bs : BenchmarkSuite}
    (hok : (sweepAlgorithms worlds target runs sizes arrayTypes algorithms
      { suite := bs, calls := [] }).1 = .ok ()) :
    ∃ added : List BenchmarkResult,
      (sweepAlgorithms worlds target runs sizes arrayTypes algorithms
        { suite := bs, calls := [] }).2.suite.results = bs.results ++ added ∧
      added.length = algorithms.length * (arrayTypes.length * sizes.length) ∧
      (sweepAlgorithms worlds target runs sizes arrayTypes algorithms
        { suite := bs, calls := [] }).2.calls.map Prod.fst =
          sweepConfigs target runs sizes arrayTypes algorithms ∧
      (∀ p ∈ (sweepAlgorithms worlds target runs sizes arrayTypes algorithms
        { suite := bs, calls := [] }).2.calls, ∃ r, p.2 = .ok r) ∧
      (∀ a : String, added.countP (fun r => decide (r.Algorithm = a)) =
        algorithms.count a * (arrayTypes.length * sizes.length)) ∧
      (∀ (k : Nat) (r : BenchmarkResult), added[k]? = some r →
        r.Runs = runs ∧
        algorithms[k / (arrayTypes.length * sizes.length)]? = some r.Algorithm ∧
        sizes[k % sizes.length]? = some r.Size) := by
  obtain ⟨R, tail, t1, t2, t3, t4⟩ :=
    sweepAlgorithms_trace worlds target runs sizes arrayTypes algorithms
      { suite := bs, calls := [] }
  rcases t4 with ⟨k1, _, k3⟩ | ⟨c, e, rest, _, k2, _⟩ | ⟨c, rest, _, k2, _⟩
  · subst k1
    simp only [List.nil_append, List.append_nil] at t1 t2
    have hlen : R.length = algorithms.length * (arrayTypes.length * sizes.length) := by
      rw [← sweepConfigs_length target runs, ← k3, List.length_map]
    refine ⟨R.map Prod.snd, t2, by rw [List.length_map, hlen], ?_, ?_, ?_, ?_⟩
    · rw [t1, List.map_map, ← k3]
      rfl
    · intro p hp
      rw [t1] at hp
      obtain ⟨q, _, hq⟩ := List.mem_map.mp hp
      exact ⟨q.2, by rw [← hq]⟩
    · intro a
      rw [← sweepConfigs_countP target runs sizes arrayTypes a algorithms, ← k3,
        List.countP_map, List.countP_map]
      apply List.countP_congr
      intro p hp
      simp [(t3 p hp).1]
    · intro k r hk
      rw [List.getElem?_map] at hk
      obtain ⟨p, hp, hpr⟩ := Option.map_eq_some'.mp hk
      have hpm : p ∈ R := mem_of_getElem?_some hp
      have hc : (sweepConfigs target runs sizes arrayTypes algorithms)[k]? = some p.1 := by
        rw [← k3, List.getElem?_map, hp]
        rfl
      obtain ⟨c1, _, c3, _, c5⟩ := sweepConfigs_getElem? hc
      obtain ⟨f1, f2, f3⟩ := t3 p hpm
      rw [← hpr, f1, f2, f3]
      exact ⟨c1, c3, c5⟩
  · rw [k2] at hok
    cases hok
  · rw [k2] at hok
    cases hok

theorem sweep_error_spec {worlds : Nat → Nat → Trial} {target : Int → Int} {runs : Int}
    {sizes : List Int} {arrayTypes : List ArrayType} {algorithms : List String}
    {bs : BenchmarkSuite} {k : Nat} {c : BenchmarkConfig} {e : String}
    (h : (sweepAlgorithms worlds target runs sizes arrayTypes algorithms
      { suite := bs, calls := [] }).2.calls[k]? = some (c, .error e)) :
    (sweepAlgorithms worlds target runs sizes arrayTypes algorithms
        { suite := bs, calls := [] }).1 =
        .error ("benchmark failed for " ++ c.Algorithm ++ ": " ++ e) ∧
      (sweepAlgorithms worlds target runs sizes arrayTypes algorithms
        { suite := bs, calls := [] }).2.calls.length = k + 1 ∧
      (sweepAlgorithms worlds target runs sizes arrayTypes algorithms
        { suite := bs, calls := [] }).2.calls.map Prod.fst =
          (sweepConfigs target runs sizes arrayTypes algorithms).take (k + 1) ∧
      (∀ j : Nat, j < k → ∃ (cj : BenchmarkConfig) (rj : BenchmarkResult),
        (sweepAlgorithms worlds target runs sizes arrayTypes algorithms
          { suite := bs, calls := [] }).2.calls[j]? = some (cj, .ok rj)) ∧
      (sweepAlgorithms worlds target runs sizes arrayTypes algorithms
        { suite := bs, calls := [] }).2.suite.results =
          bs.results ++
            ((sweepAlgorithms worlds target runs sizes arrayTypes algorithms
              { suite := bs, calls := [] }).2.calls.take k).filterMap okResult ∧
      RunBenchmark
          (sweepAlgorithms worlds target runs sizes arrayTypes algorithms
            { suite := bs, calls := [] }).2.suite c (worlds k) =
        (.error e,
          (sweepAlgorithms worlds target runs sizes arrayTypes algorithms
            { suite := bs, calls := [] }).2.suite) := by
  obtain ⟨R, tail, t1, t2, t3, t4⟩ :=
    sweepAlgorithms_trace worlds target runs sizes arrayTypes algorithms
      { suite := bs, calls := [] }
  simp only [List.nil_append, List.length_nil, Nat.zero_add] at t1 t2 t4
  have hRlen : (R.map (fun p => (p.1, Outcome.ok p.2))).length = R.length := by simp
  have hkR : R.length ≤ k := by
    by_contra hc
    have hlt : k < (R.map (fun p => (p.1, Outcome.ok p.2))).length := by
      rw [hRlen]; omega
    rw [t1, List.getElem?_append_left hlt, List.getElem?_map] at h
    obtain ⟨p, _, hp⟩ := Option.map_eq_some'.mp h
    cases hp
  rw [t1, List.getElem?_append_right (by rw [hRlen]; exact hkR), hRlen] at h
  rcases t4 with ⟨k1, _, _⟩ | ⟨c1, e1, rest, k1, k2, k3, k4⟩ | ⟨c1, rest, k1, _, _⟩
  · rw [k1] at h
    simp at h
  · rw [k1] at h
    have hk0 : k - R.length = 0 := by
      by_contra hc
      rw [List.getElem?_eq_none (by simp; omega)] at h
      cases h
    have hk : k = R.length := by omega
    rw [hk0] at h
    simp only [List.getElem?_cons_zero, Option.some.injEq, Prod.mk.injEq,
      Outcome.error.injEq] at h
    obtain ⟨hc, he⟩ := h
    subst hc he hk
    refine ⟨k2, ?_, ?_, ?_, ?_, k4⟩
    · rw [t1, k1]
      simp
    · rw [t1, k1, k3]
      have e2 : List.map Prod.fst R ++ c1 :: rest =
          (List.map Prod.fst R ++ [c1]) ++ rest := by
        simp
      rw [e2, List.take_left' (by simp)]
      simp [List.map_map, Function.comp_def]
    · intro j hj
      have hlt : j < (R.map (fun p => (p.1, Outcome.ok p.2))).length := by
        rw [hRlen]; exact hj
      rw [t1, List.getElem?_append_left hlt, List.getElem?_map]
      obtain ⟨p, hp⟩ : ∃ p, R[j]? = some p := ⟨R[j], List.getElem?_eq_getElem hj⟩
      exact ⟨p.1, p.2, by rw [hp]; rfl⟩
    · rw [t2, t1, List.take_left' hRlen, filterMap_okResult_map]
  · rw [k1] at h
    have hk0 : k - R.length = 0 := by
      by_contra hc
      rw [List.getElem?_eq_none (by simp; omega)] at h
      cases h
    rw [hk0] at h
    simp at h

theorem durationSamples_zero (config : BenchmarkConfig) (world : Nat → Trial) :
    durationSamples config world 0 =
      (List.range config.Runs.toNat).map (fun k => (world k).duration) := by
  simp [durationSamples]

theorem wrapUint64_sub_of_le {before after : Nat} (h : before ≤ after) (hlt : after < 2 ^ 64) :
    wrapUint64 ((after : Int) - (before : Int)) = after - before := by
  unfold wrapUint64
  omega

theorem wrapUint64_sub_of_lt {before after : Nat} (h : after < before) (hlt : before < 2 ^ 64) :
    wrapUint64 ((after : Int) - (before : Int)) = 2 ^ 64 - (before - after) := by
  unfold wrapUint64
  omega

/-! ## The claims C11 to C20 -/

/-- Claim C11. Whenever `RunBenchmark` returns a result without error, the
store afterwards is the store before the call with exactly that result
appended at the end (the earlier results unchanged and in their order), and
the fields `Algorithm`, `Size` and `Runs` of the result are those of the
configuration.  This holds for every value of `Runs`, in particular for
`Runs = R ≥ 1`. -/
theorem C11_runBenchmark_appends_one (bs bs1 : BenchmarkSuite) (config : BenchmarkConfig)
    (world : Nat → Trial) (r : BenchmarkResult)
    (hret : RunBenchmark bs config world = (.ok r, bs1)) :
    GetResults bs1 = GetResults bs ++ [r] ∧
      r.Algorithm = config.Algorithm ∧ r.Size = config.Size ∧ r.Runs = config.Runs := by
  obtain ⟨h1, h2, _, h3, h4, _⟩ := runBenchmark_ok_inv hret
  exact ⟨h1, h2, h3, h4⟩

/-- The theorem of claim C11 at two runs of `bubble_sort` on random slices of
size 3, on a store that holds one earlier result. -/
theorem C11_runBenchmark_appends_one_witness :
    GetResults
        { results := [
          { Algorithm := "linear_search", ArrayType := "Sorted", Size := 4, Duration := 7,
            MemoryBefore := 0, MemoryAfter := 0, MemoryUsed := 0, Runs := 1,
            MeanDuration := 7, StdDeviation := 0, MinDuration := 7, MaxDuration := 7 },
          { Algorithm := "bubble_sort", ArrayType := "Random", Size := 3, Duration := 1005,
            MemoryBefore := 0, MemoryAfter := 0, MemoryUsed := 40, Runs := 2,
            MeanDuration := 1005, StdDeviation := 0, MinDuration := 1000,
            MaxDuration := 1010 }] } =
      GetResults
        { results := [
          { Algorithm := "linear_search", ArrayType := "Sorted", Size := 4, Duration := 7,
            MemoryBefore := 0, MemoryAfter := 0, MemoryUsed := 0, Runs := 1,
            MeanDuration := 7, StdDeviation := 0, MinDuration := 7, MaxDuration := 7 }] } ++
        [{ Algorithm := "bubble_sort", ArrayType := "Random", Size := 3, Duration := 1005,
           MemoryBefore := 0, MemoryAfter := 0, MemoryUsed := 40, Runs := 2,
           MeanDuration := 1005, StdDeviation := 0, MinDuration := 1000,
           MaxDuration := 1010 }] ∧
      "bubble_sort" = "bubble_sort" ∧ (3 : Int) = 3 ∧ (2 : Int) = 2 :=
  C11_runBenchmark_appends_one
    { results := [
      { Algorithm := "linear_search", ArrayType := "Sorted", Size := 4, Duration := 7,
        MemoryBefore := 0, MemoryAfter := 0, MemoryUsed := 0, Runs := 1,
        MeanDuration := 7, StdDeviation := 0, MinDuration := 7, MaxDuration := 7 }] }
    _
    { Algorithm := "bubble_sort", ArrayType := Random, Size := 3, Runs := 2, Target := 0 }
    (fun k => { rand := fun i => 7 * i + 3, duration := 1000 + 10 * k, allocBefore := 10,
                allocAfter := 50 })
    _ (by decide)

/-- Claim C12. For a non-empty list of non-negative duration samples whose sum
fits in an `int64`, `calculateMin ≤ calculateMean ≤ calculateMax`, although the
mean is a truncated quotient.  Hence a result that `RunBenchmark` produces
from such samples (the list is non-empty exactly when `Runs ≥ 1`) has
`MinDuration ≤ MeanDuration ≤ MaxDuration`. -/
theorem C12_min_le_mean_le_max (ds : List Int) (hne : ds ≠ []) (h0 : ∀ d ∈ ds, 0 ≤ d)
    (hs : ds.sum < 2 ^ 63) :
    (calculateMin ds ≤ calculateMean ds ∧ calculateMean ds ≤ calculateMax ds) ∧
      ∀ (bs bs1 : BenchmarkSuite) (config : BenchmarkConfig) (world : Nat → Trial)
        (r : BenchmarkResult),
        (List.range config.Runs.toNat).map (fun k => (world k).duration) = ds →
        RunBenchmark bs config world = (.ok r, bs1) →
        1 ≤ config.Runs ∧ r.MinDuration ≤ r.MeanDuration ∧
          r.MeanDuration ≤ r.MaxDuration := by
  have h := min_le_mean_le_max hne h0 hs
  refine ⟨h, ?_⟩
  intro bs bs1 config world r hds hret
  obtain ⟨_, _, _, _, _, e1, _, _, e2, e3, _⟩ := runBenchmark_ok_inv hret
  rw [durationSamples_zero, hds] at e1 e2 e3
  rw [e1, e2, e3]
  refine ⟨?_, h⟩
  by_contra hc
  have e : config.Runs.toNat = 0 := by omega
  rw [e] at hds
  exact hne hds.symm

/-- The theorem of claim C12 at the samples 1000 ns and 1011 ns: the mean is
the truncated quotient 1005 of 2011 by 2. -/
theorem C12_min_le_mean_le_max_witness :
    (calculateMin [1000, 1011] ≤ calculateMean [1000, 1011] ∧
        calculateMean [1000, 1011] ≤ calculateMax [1000, 1011]) ∧
      calculateMean [1000, 1011] = 1005 :=
  ⟨(C12_min_le_mean_le_max [1000, 1011] (by decide) (by decide) (by decide)).1, by decide⟩

/-- Claim C13 fails on the code: `calculateStdDeviation` divides the sum of the
squared differences by `n - 1` and truncates the quotient, the variance, to
whole microseconds; it takes no square root.  For samples of 1 ms and 3 ms
(mean 2 ms) it returns 2 000 000 000 000 ns, while the sample standard
deviation, the square root of the variance 2 000 000 000 000, is between
1 414 000 ns and 1 415 000 ns, that is 1 414 000 ns after truncation. -/
theorem C13_stdDeviation_is_truncated_variance :
    calculateMean [1000000, 3000000] = 2000000 ∧
      calculateStdDeviation [1000000, 3000000] (calculateMean [1000000, 3000000]) =
        2000000000000 ∧
      ((1000000 - 2000000 : Int) ^ 2 + (3000000 - 2000000) ^ 2) / (2 - 1) = 2000000000000 ∧
      (1414000 : Int) ^ 2 ≤ 2000000000000 ∧ (2000000000000 : Int) < 1415000 ^ 2 ∧
      ∀ (ds : List Int) (mean : Int), 2 ≤ ds.length →
        calculateStdDeviation ds mean = Int.tdiv (varianceOf ds mean) 1000 * 1000 :=
  ⟨by decide, by decide, by decide, by decide, by decide,
    fun _ mean h => calculateStdDeviation_eq_truncated h mean⟩

/-- Claim C14. On at most one sample `calculateStdDeviation` returns 0,
whatever the mean; hence a result that `RunBenchmark` produces with `Runs = 1`
has `StdDeviation = 0`. -/
theorem C14_stdDeviation_zero_of_one_run :
    (∀ (ds : List Int) (mean : Int), ds.length ≤ 1 → calculateStdDeviation ds mean = 0) ∧
      ∀ (bs bs1 : BenchmarkSuite) (config : BenchmarkConfig) (world : Nat → Trial)
        (r : BenchmarkResult), config.Runs = 1 →
        RunBenchmark bs config world = (.ok r, bs1) → r.StdDeviation = 0 := by
  refine ⟨fun ds mean h => calculateStdDeviation_short h mean, ?_⟩
  intro bs bs1 config world r hruns hret
  obtain ⟨_, _, _, _, _, _, _, e, _⟩ := runBenchmark_ok_inv hret
  rw [e]
  apply calculateStdDeviation_short
  rw [durationSamples_zero, hruns]
  simp

/-- The theorem of claim C14 at the single sample 1234 ns with the mean argument
99, and at one run of `quick_sort` on a descending slice of size 4. -/
theorem C14_stdDeviation_zero_of_one_run_witness :
    calculateStdDeviation [1234] 99 = 0 ∧
      ({ Algorithm := "quick_sort", ArrayType := "Reverse Sorted", Size := 4,
         Duration := 1000, MemoryBefore := 0, MemoryAfter := 0, MemoryUsed := 40, Runs := 1,
         MeanDuration := 1000, StdDeviation := 0, MinDuration := 1000,
         MaxDuration := 1000 } : BenchmarkResult).StdDeviation = 0 :=
  ⟨C14_stdDeviation_zero_of_one_run.1 [1234] 99 (by decide),
    C14_stdDeviation_zero_of_one_run.2 NewBenchmarkSuite
      { results := [
        { Algorithm := "quick_sort", ArrayType := "Reverse Sorted", Size := 4,
          Duration := 1000, MemoryBefore := 0, MemoryAfter := 0, MemoryUsed := 40, Runs := 1,
          MeanDuration := 1000, StdDeviation := 0, MinDuration := 1000,
          MaxDuration := 1000 }] }
      { Algorithm := "quick_sort", ArrayType := ReverseSorted, Size := 4, Runs := 1,
        Target := 0 }
      (fun k => { rand := fun i => 7 * i + 3, duration := 1000 + 10 * k, allocBefore := 10,
                  allocAfter := 50 })
      _ (by decide) (by decide)⟩

/-- Claim C15. The value that `calculateStdDeviation` returns is a whole
multiple of 1000 ns.  With two samples or more it is the value `v` of the
local `variance` with the remainder of the division by 1000 discarded: for
`v ≥ 0` the result `r` satisfies `0 ≤ v - r < 1000`, and for `v < 0` (possible
only after an `int64` wrap-around of the sum) `-1000 < v - r ≤ 0`. -/
theorem C15_stdDeviation_whole_microseconds (ds : List Int) (mean : Int) :
    calculateStdDeviation ds mean % 1000 = 0 ∧
      (2 ≤ ds.length →
        calculateStdDeviation ds mean = Int.tdiv (varianceOf ds mean) 1000 * 1000 ∧
        (0 ≤ varianceOf ds mean →
          0 ≤ varianceOf ds mean - calculateStdDeviation ds mean ∧
          varianceOf ds mean - calculateStdDeviation ds mean < 1000) ∧
        (varianceOf ds mean < 0 →
          -1000 < varianceOf ds mean - calculateStdDeviation ds mean ∧
          varianceOf ds mean - calculateStdDeviation ds mean ≤ 0)) := by
  refine ⟨calculateStdDeviation_multiple ds mean, ?_⟩
  intro h
  have e := calculateStdDeviation_eq_truncated h mean
  refine ⟨e, ?_, ?_⟩
  · intro hv
    rw [e]
    rcases tdiv_cases (varianceOf ds mean) 1000 (by omega) with ⟨_, e1⟩ | ⟨k, _⟩
    · rw [e1]; omega
    · omega
  · intro hv
    rw [e]
    rcases tdiv_cases (varianceOf ds mean) 1000 (by omega) with ⟨k, _⟩ | ⟨_, e1⟩
    · omega
    · rw [e1]; omega

/-- The theorem of claim C15 at the samples 1 000 000 ns and 3 000 501 ns with
their mean 2 000 250 ns: the variance 2 001 002 125 501 is cut to
2 001 002 125 000. -/
theorem C15_stdDeviation_whole_microseconds_witness :
    varianceOf [1000000, 3000501] 2000250 = 2001002125501 ∧
      calculateStdDeviation [1000000, 3000501] 2000250 = 2001002125000 ∧
      calculateStdDeviation [1000000, 3000501] 2000250 % 1000 = 0 ∧
      0 ≤ varianceOf [1000000, 3000501] 2000250 -
        calculateStdDeviation [1000000, 3000501] 2000250 ∧
      varianceOf [1000000, 3000501] 2000250 -
        calculateStdDeviation [1000000, 3000501] 2000250 < 1000 :=
  ⟨by decide, by decide,
    (C15_stdDeviation_whole_microseconds [1000000, 3000501] 2000250).1,
    (((C15_stdDeviation_whole_microseconds [1000000, 3000501] 2000250).2
      (by decide)).2.1 (by decide)).1,
    (((C15_stdDeviation_whole_microseconds [1000000, 3000501] 2000250).2
      (by decide)).2.1 (by decide)).2⟩

/-- Claim C16 fails on the code: the memory delta of a trial is the unguarded
`uint64` subtraction `memStatsAfter.Alloc - memStatsBefore.Alloc`.  It is
`after - before` when `after ≥ before`, but when `after < before` it is
`2^64 - (before - after)`, not 0: with `before = 50` and `after = 10` one run
of `linear_search` records `MemoryUsed = 18446744073709551576`. -/
theorem C16_memory_delta_wraps_around :
    (∀ before after : Nat, before ≤ after → after < 2 ^ 64 →
        wrapUint64 ((after : Int) - (before : Int)) = after - before) ∧
      (∀ before after : Nat, after < before → before < 2 ^ 64 →
        wrapUint64 ((after : Int) - (before : Int)) = 2 ^ 64 - (before - after)) ∧
      (RunBenchmark NewBenchmarkSuite
          { Algorithm := "linear_search", ArrayType := Sorted, Size := 1, Runs := 1,
            Target := 0 }
          (fun _ => { rand := fun _ => 0, duration := 5, allocBefore := 50,
                      allocAfter := 10 })).1 =
        .ok { Algorithm := "linear_search", ArrayType := "Sorted", Size := 1, Duration := 5,
              MemoryBefore := 0, MemoryAfter := 0, MemoryUsed := 18446744073709551576,
              Runs := 1, MeanDuration := 5, StdDeviation := 0, MinDuration := 5,
              MaxDuration := 5 } :=
  ⟨fun _ _ h hlt => wrapUint64_sub_of_le h hlt, fun _ _ h hlt => wrapUint64_sub_of_lt h hlt,
    by decide⟩

theorem sortConfigs_safe {runs : Int} {sizes : List Int} (hsizes : ∀ s ∈ sizes, 0 ≤ s) :
    ∀ c ∈ sweepConfigs (fun _ => 0) runs sizes GetAllArrayTypes sortAlgorithms,
      0 ≤ c.Size ∧ TrialSafe c := by
  intro c hc
  obtain ⟨k, hk, e⟩ := List.getElem_of_mem hc
  have h := List.getElem?_eq_getElem hk
  rw [e] at h
  obtain ⟨_, _, h3, _, h5⟩ := sweepConfigs_getElem? h
  exact ⟨hsizes _ (mem_of_getElem?_some h5), trialSafe_sort (mem_of_getElem?_some h3)⟩

theorem searchConfigs_safe {runs : Int} {sizes : List Int} (hsizes : ∀ s ∈ sizes, 0 ≤ s) :
    ∀ c ∈ sweepConfigs (fun size => Int.tdiv size 2) runs sizes GetAllArrayTypes
        searchAlgorithms,
      0 ≤ c.Size ∧ TrialSafe c := by
  intro c hc
  obtain ⟨k, hk, e⟩ := List.getElem_of_mem hc
  have h := List.getElem?_eq_getElem hk
  rw [e] at h
  obtain ⟨_, _, h3, _, h5⟩ := sweepConfigs_getElem? h
  refine ⟨hsizes _ (mem_of_getElem?_some h5), trialSafe_search ?_⟩
  have hm : c.Algorithm ∈ searchAlgorithms := mem_of_getElem?_some h3
  simpa [searchAlgorithms] using hm

/-- Claim C17. For non-negative sizes and every value of `runs`,
`RunSortBenchmarks` returns no error: every call of `RunBenchmark` returns
normally, so the sort verification never fails; the sweep appends exactly
`6 × 3 × len(sizes)` results to the store, `3 × len(sizes)` of them for each of
the six sort algorithms. -/
theorem C17_sortSweep_succeeds (bs : BenchmarkSuite) (sizes : List Int) (runs : Int)
    (worlds : Nat → Nat → Trial) (hsizes : ∀ s ∈ sizes, 0 ≤ s) :
    (RunSortBenchmarks bs sizes runs worlds).1 = .ok () ∧
      (∀ p ∈ (RunSortBenchmarks bs sizes runs worlds).2.calls, ∃ r, p.2 = .ok r) ∧
      ∃ added : List BenchmarkResult,
        GetResults (RunSortBenchmarks bs sizes runs worlds).2.suite =
          GetResults bs ++ added ∧
        added.length = 6 * 3 * sizes.length ∧
        ∀ a ∈ sortAlgorithms,
          added.countP (fun r => decide (r.Algorithm = a)) = 3 * sizes.length := by
  have hok : (RunSortBenchmarks bs sizes runs worlds).1 = .ok () := by
    unfold RunSortBenchmarks
    rw [sweepAlgorithms_eq]
    exact runConfigs_ok worlds _ _ (sortConfigs_safe hsizes)
  obtain ⟨added, h1, h2, _, h4, h5, _⟩ := sweep_ok_spec hok
  refine ⟨hok, h4, added, h1, ?_, ?_⟩
  · rw [h2]
    simp [sortAlgorithms, GetAllArrayTypes]
    omega
  · intro a ha
    rw [h5 a]
    have hc : sortAlgorithms.count a = 1 := by
      simp only [sortAlgorithms, List.mem_cons, List.mem_singleton, List.not_mem_nil,
        or_false] at ha
      rcases ha with h | h | h | h | h | h <;> subst h <;> decide
    rw [hc]
    simp [GetAllArrayTypes]

/-- The theorem of claim C17 at the sizes 2 and 0 with one run each. -/
theorem C17_sortSweep_succeeds_witness :
    (RunSortBenchmarks NewBenchmarkSuite [2, 0] 1
        (fun c k => { rand := fun i => 7 * i + c, duration := 1000 + 10 * k,
                      allocBefore := 10, allocAfter := 50 })).1 = .ok () :=
  (C17_sortSweep_succeeds NewBenchmarkSuite [2, 0] 1 _ (by decide)).1

/-- Claim C18. For non-negative sizes and every value of `runs`,
`RunSearchBenchmarks` returns no error and appends exactly
`2 × 3 × len(sizes)` results to the store (12 for the sizes 100 and 1000),
`3 × len(sizes)` of them for `linear_search` and as many for
`binary_search`. -/
theorem C18_searchSweep_succeeds (bs : BenchmarkSuite) (sizes : List Int) (runs : Int)
    (worlds : Nat → Nat → Trial) (hsizes : ∀ s ∈ sizes, 0 ≤ s) :
    (RunSearchBenchmarks bs sizes runs worlds).1 = .ok () ∧
      ∃ added : List BenchmarkResult,
        GetResults (RunSearchBenchmarks bs sizes runs worlds).2.suite =
          GetResults bs ++ added ∧
        added.length = 2 * 3 * sizes.length ∧
        added.countP (fun r => decide (r.Algorithm = "linear_search")) = 3 * sizes.length ∧
        added.countP (fun r => decide (r.Algorithm = "binary_search")) = 3 * sizes.length := by
  have hok : (RunSearchBenchmarks bs sizes runs worlds).1 = .ok () := by
    unfold RunSearchBenchmarks
    rw [sweepAlgorithms_eq]
    exact runConfigs_ok worlds _ _ (searchConfigs_safe hsizes)
  obtain ⟨added, h1, h2, _, _, h5, _⟩ := sweep_ok_spec hok
  refine ⟨hok, added, h1, ?_, ?_, ?_⟩
  · rw [h2]
    simp [searchAlgorithms, GetAllArrayTypes]
    omega
  · rw [h5 "linear_search"]
    have hc : searchAlgorithms.count "linear_search" = 1 := by decide
    rw [hc]
    simp [GetAllArrayTypes]
  · rw [h5 "binary_search"]
    have hc : searchAlgorithms.count "binary_search" = 1 := by decide
    rw [hc]
    simp [GetAllArrayTypes]

/-- The theorem of claim C18 at the sizes 100 and 1000 with two runs each: twelve
results are appended to the empty store. -/
theorem C18_searchSweep_succeeds_witness :
    (RunSearchBenchmarks NewBenchmarkSuite [100, 1000] 2
        (fun c k => { rand := fun i => 7 * i + c, duration := 1000 + 10 * k,
                      allocBefore := 10, allocAfter := 50 })).1 = .ok () ∧
      ∃ added : List BenchmarkResult,
        GetResults (RunSearchBenchmarks NewBenchmarkSuite [100, 1000] 2
          (fun c k => { rand := fun i => 7 * i + c, duration := 1000 + 10 * k,
                        allocBefore := 10, allocAfter := 50 })).2.suite =
          GetResults NewBenchmarkSuite ++ added ∧
        added.length = 2 * 3 * ([100, 1000] : List Int).length ∧
        added.countP (fun r => decide (r.Algorithm = "linear_search")) =
          3 * ([100, 1000] : List Int).length ∧
        added.countP (fun r => decide (r.Algorithm = "binary_search")) =
          3 * ([100, 1000] : List Int).length :=
  C18_searchSweep_succeeds NewBenchmarkSuite [100, 1000] 2 _ (by decide)

theorem sweep_order_spec (worlds : Nat → Nat → Trial) (target : Int → Int) (runs : Int)
    (sizes : List Int) (algorithms : List String) (bs : BenchmarkSuite) :
    (sweepConfigs target runs sizes GetAllArrayTypes algorithms).length =
        algorithms.length * (3 * sizes.length) ∧
      (∀ (k : Nat) (c : BenchmarkConfig),
        (sweepConfigs target runs sizes GetAllArrayTypes algorithms)[k]? = some c →
        c.Runs = runs ∧ c.Target = target c.Size ∧
          algorithms[k / (3 * sizes.length)]? = some c.Algorithm ∧
          GetAllArrayTypes[k / sizes.length % 3]? = some c.ArrayType ∧
          sizes[k % sizes.length]? = some c.Size) ∧
      (∃ n : Nat,
        (sweepAlgorithms worlds target runs sizes GetAllArrayTypes algorithms
          { suite := bs, calls := [] }).2.calls.map Prod.fst =
          (sweepConfigs target runs sizes GetAllArrayTypes algorithms).take n) ∧
      ((sweepAlgorithms worlds target runs sizes GetAllArrayTypes algorithms
          { suite := bs, calls := [] }).1 = .ok () →
        (sweepAlgorithms worlds target runs sizes GetAllArrayTypes algorithms
          { suite := bs, calls := [] }).2.calls.map Prod.fst =
          sweepConfigs target runs sizes GetAllArrayTypes algorithms ∧
        ∃ added : List BenchmarkResult,
          GetResults (sweepAlgorithms worlds target runs sizes GetAllArrayTypes algorithms
            { suite := bs, calls := [] }).2.suite = GetResults bs ++ added ∧
          added.length = algorithms.length * (3 * sizes.length) ∧
          ∀ (k : Nat) (r : BenchmarkResult), added[k]? = some r →
            r.Runs = runs ∧ algorithms[k / (3 * sizes.length)]? = some r.Algorithm ∧
              sizes[k % sizes.length]? = some r.Size) := by
  have h3 : GetAllArrayTypes.length = 3 := rfl
  refine ⟨?_, ?_, ?_, ?_⟩
  · rw [sweepConfigs_length, h3]
  · intro k c h
    have := sweepConfigs_getElem? h
    rw [h3] at this
    exact this
  · obtain ⟨R, tail, t1, _, _, t4⟩ :=
      sweepAlgorithms_trace worlds target runs sizes GetAllArrayTypes algorithms
        { suite := bs, calls := [] }
    simp only [List.nil_append] at t1
    have hm : (R.map (fun p => (p.1, Outcome.ok p.2))).map Prod.fst = R.map Prod.fst := by
      simp [List.map_map, Function.comp_def]
    rcases t4 with ⟨k1, _, k3⟩ | ⟨c, e, rest, k1, _, k3, _⟩ | ⟨c, rest, k1, _, k3⟩
    · refine ⟨R.length, ?_⟩
      rw [t1, k1, List.append_nil, hm, ← k3, List.take_of_length_le (by simp)]
    · refine ⟨R.length + 1, ?_⟩
      have e2 : List.map Prod.fst R ++ c :: rest = (List.map Prod.fst R ++ [c]) ++ rest := by
        simp
      rw [t1, k1, k3, e2, List.take_left' (by simp), List.map_append, hm]
      rfl
    · refine ⟨R.length + 1, ?_⟩
      have e2 : List.map Prod.fst R ++ c :: rest = (List.map Prod.fst R ++ [c]) ++ rest := by
        simp
      rw [t1, k1, k3, e2, List.take_left' (by simp), List.map_append, hm]
      rfl
  · intro hok
    obtain ⟨added, a1, a2, a3, _, _, a6⟩ := sweep_ok_spec hok
    rw [h3] at a2 a6
    exact ⟨a3, added, a1, a2, a6⟩

/-- Claim C19 as stated fails on the code: for the sizes `[2, -1]` with one run
each, the second call of `RunBenchmark` panics in `GenerateArray`
(`make([]int, -1)`), so each sweep passes only the first two configurations
of its enumeration, of 12 in the search sweep and of 36 in the sort sweep. -/
theorem C19_sweep_nested_order_counterexample :
    ((RunSearchBenchmarks NewBenchmarkSuite [2, -1] 1
        (fun c k => { rand := fun i => 7 * i + c, duration := 1000 + 10 * k,
                      allocBefore := 10, allocAfter := 50 })).1 = .crash ∧
      (RunSearchBenchmarks NewBenchmarkSuite [2, -1] 1
        (fun c k => { rand := fun i => 7 * i + c, duration := 1000 + 10 * k,
                      allocBefore := 10, allocAfter := 50 })).2.calls.map Prod.fst =
        [{ Algorithm := "linear_search", ArrayType := Random, Size := 2, Runs := 1,
           Target := 1 },
         { Algorithm := "linear_search", ArrayType := Random, Size := -1, Runs := 1,
           Target := 0 }] ∧
      (sweepConfigs (fun size => Int.tdiv size 2) 1 [2, -1] GetAllArrayTypes
        searchAlgorithms).length = 12 ∧
      (RunSearchBenchmarks NewBenchmarkSuite [2, -1] 1
        (fun c k => { rand := fun i => 7 * i + c, duration := 1000 + 10 * k,
                      allocBefore := 10, allocAfter := 50 })).2.calls.map Prod.fst ≠
        sweepConfigs (fun size => Int.tdiv size 2) 1 [2, -1] GetAllArrayTypes
          searchAlgorithms) ∧
    ((RunSortBenchmarks NewBenchmarkSuite [2, -1] 1
        (fun c k => { rand := fun i => 7 * i + c, duration := 1000 + 10 * k,
                      allocBefore := 10, allocAfter := 50 })).1 = .crash ∧
      (RunSortBenchmarks NewBenchmarkSuite [2, -1] 1
        (fun c k => { rand := fun i => 7 * i + c, duration := 1000 + 10 * k,
                      allocBefore := 10, allocAfter := 50 })).2.calls.map Prod.fst =
        [{ Algorithm := "bubble_sort", ArrayType := Random, Size := 2, Runs := 1,
           Target := 0 },
         { Algorithm := "bubble_sort", ArrayType := Random, Size := -1, Runs := 1,
           Target := 0 }] ∧
      (sweepConfigs (fun _ => 0) 1 [2, -1] GetAllArrayTypes sortAlgorithms).length = 36 ∧
      (RunSortBenchmarks NewBenchmarkSuite [2, -1] 1
        (fun c k => { rand := fun i => 7 * i + c, duration := 1000 + 10 * k,
                      allocBefore := 10, allocAfter := 50 })).2.calls.map Prod.fst ≠
        sweepConfigs (fun _ => 0) 1 [2, -1] GetAllArrayTypes sortAlgorithms) :=
  ⟨⟨by decide, by decide, by decide, by decide⟩,
    ⟨by decide, by decide, by decide, by decide⟩⟩

/-- Claim C19, amended. For each sweep and every list of non-negative sizes,
the sweep returns no error and the configurations passed to `RunBenchmark`
are, in order, exactly those of the nested enumeration: algorithm outermost
(in the order of the family), distribution in the middle (`Random`, `Sorted`,
`ReverseSorted`), size innermost (in the given order), each with
`Runs = runs`, and with `Target = size / 2` in the search sweep and `0` in the
sort sweep; the `k`-th appended result has `Size = sizes[k mod len(sizes)]`
and `Algorithm = algorithms[k div (3 * len(sizes))]`.  For a list of sizes of
any sign the configurations passed are the first `n` of the enumeration, for
some `n`. -/
theorem C19_sweep_nested_order (bs : BenchmarkSuite) (sizes : List Int) (runs : Int)
    (worlds : Nat → Nat → Trial) (hsizes : ∀ s ∈ sizes, 0 ≤ s) :
    ((sweepConfigs (fun size => Int.tdiv size 2) runs sizes GetAllArrayTypes
          searchAlgorithms).length = 2 * (3 * sizes.length) ∧
      (∀ (k : Nat) (c : BenchmarkConfig),
        (sweepConfigs (fun size => Int.tdiv size 2) runs sizes GetAllArrayTypes
          searchAlgorithms)[k]? = some c →
        c.Runs = runs ∧ c.Target = Int.tdiv c.Size 2 ∧
          searchAlgorithms[k / (3 * sizes.length)]? = some c.Algorithm ∧
          GetAllArrayTypes[k / sizes.length % 3]? = some c.ArrayType ∧
          sizes[k % sizes.length]? = some c.Size) ∧
      (RunSearchBenchmarks bs sizes runs worlds).1 = .ok () ∧
      (RunSearchBenchmarks bs sizes runs worlds).2.calls.map Prod.fst =
        sweepConfigs (fun size => Int.tdiv size 2) runs sizes GetAllArrayTypes
          searchAlgorithms ∧
      (∃ added : List BenchmarkResult,
        GetResults (RunSearchBenchmarks bs sizes runs worlds).2.suite =
          GetResults bs ++ added ∧
        added.length = 2 * (3 * sizes.length) ∧
        ∀ (k : Nat) (r : BenchmarkResult), added[k]? = some r →
          r.Runs = runs ∧ searchAlgorithms[k / (3 * sizes.length)]? = some r.Algorithm ∧
            sizes[k % sizes.length]? = some r.Size) ∧
      ∀ anySizes : List Int, ∃ n : Nat,
        (RunSearchBenchmarks bs anySizes runs worlds).2.calls.map Prod.fst =
          (sweepConfigs (fun size => Int.tdiv size 2) runs anySizes GetAllArrayTypes
            searchAlgorithms).take n) ∧
    ((sweepConfigs (fun _ => 0) runs sizes GetAllArrayTypes sortAlgorithms).length =
        6 * (3 * sizes.length) ∧
      (∀ (k : Nat) (c : BenchmarkConfig),
        (sweepConfigs (fun _ => 0) runs sizes GetAllArrayTypes sortAlgorithms)[k]? = some c →
        c.Runs = runs ∧ c.Target = 0 ∧
          sortAlgorithms[k / (3 * sizes.length)]? = some c.Algorithm ∧
          GetAllArrayTypes[k / sizes.length % 3]? = some c.ArrayType ∧
          sizes[k % sizes.length]? = some c.Size) ∧
      (RunSortBenchmarks bs sizes runs worlds).1 = .ok () ∧
      (RunSortBenchmarks bs sizes runs worlds).2.calls.map Prod.fst =
        sweepConfigs (fun _ => 0) runs sizes GetAllArrayTypes sortAlgorithms ∧
      (∃ added : List BenchmarkResult,
        GetResults (RunSortBenchmarks bs sizes runs worlds).2.suite =
          GetResults bs ++ added ∧
        added.length = 6 * (3 * sizes.length) ∧
        ∀ (k : Nat) (r : BenchmarkResult), added[k]? = some r →
          r.Runs = runs ∧ sortAlgorithms[k / (3 * sizes.length)]? = some r.Algorithm ∧
            sizes[k % sizes.length]? = some r.Size) ∧
      ∀ anySizes : List Int, ∃ n : Nat,
        (RunSortBenchmarks bs anySizes runs worlds).2.calls.map Prod.fst =
          (sweepConfigs (fun _ => 0) runs anySizes GetAllArrayTypes sortAlgorithms).take n) := by
  have hokSearch : (RunSearchBenchmarks bs sizes runs worlds).1 = .ok () := by
    unfold RunSearchBenchmarks
    rw [sweepAlgorithms_eq]
    exact runConfigs_ok worlds _ _ (searchConfigs_safe hsizes)
  have hokSort : (RunSortBenchmarks bs sizes runs worlds).1 = .ok () := by
    unfold RunSortBenchmarks
    rw [sweepAlgorithms_eq]
    exact runConfigs_ok worlds _ _ (sortConfigs_safe hsizes)
  obtain ⟨s1, s2, _, s4⟩ :=
    sweep_order_spec worlds (fun size => Int.tdiv size 2) runs sizes searchAlgorithms bs
  obtain ⟨s5, s6⟩ := s4 hokSearch
  obtain ⟨t1, t2, _, t4⟩ := sweep_order_spec worlds (fun _ => 0) runs sizes sortAlgorithms bs
  obtain ⟨t5, t6⟩ := t4 hokSort
  exact ⟨⟨s1, s2, hokSearch, s5, s6, fun anySizes =>
      (sweep_order_spec worlds (fun size => Int.tdiv size 2) runs anySizes searchAlgorithms
        bs).2.2.1⟩,
    ⟨t1, t2, hokSort, t5, t6, fun anySizes =>
      (sweep_order_spec worlds (fun _ => 0) runs anySizes sortAlgorithms bs).2.2.1⟩⟩

/-- The theorem of claim C19 at the search sweep over the sizes 5 and 2 with one
run each: the sweep returns no error, the twelve calls are the whole
enumeration, and the configuration number 7 (the second algorithm, the first
distribution, the second size) is `binary_search` on a random slice of size 2
with target 1. -/
theorem C19_sweep_nested_order_witness :
    (∀ s ∈ ([5, 2] : List Int), 0 ≤ s) ∧
      (RunSearchBenchmarks NewBenchmarkSuite [5, 2] 1
        (fun c k => { rand := fun i => 7 * i + c, duration := 1000 + 10 * k,
                      allocBefore := 10, allocAfter := 50 })).1 = .ok () ∧
      (RunSearchBenchmarks NewBenchmarkSuite [5, 2] 1
        (fun c k => { rand := fun i => 7 * i + c, duration := 1000 + 10 * k,
                      allocBefore := 10, allocAfter := 50 })).2.calls.map Prod.fst =
        sweepConfigs (fun size => Int.tdiv size 2) 1 [5, 2] GetAllArrayTypes
          searchAlgorithms ∧
      (sweepConfigs (fun size => Int.tdiv size 2) 1 [5, 2] GetAllArrayTypes
          searchAlgorithms)[7]? =
        some { Algorithm := "binary_search", ArrayType := Random, Size := 2, Runs := 1,
               Target := 1 } :=
  ⟨by decide, (C19_sweep_nested_order NewBenchmarkSuite [5, 2] 1 _ (by decide)).1.2.2.1,
    (C19_sweep_nested_order NewBenchmarkSuite [5, 2] 1 _ (by decide)).1.2.2.2.1, by decide⟩

/-- Claim C20. The two sweeps are the three nested loops `sweepAlgorithms` run
on their list of algorithms.  In these loops, if a call of `RunBenchmark`
returns an error `e` for the configuration `c`, that call is the last one
made (no later combination is run), the sweep returns the error
`benchmark failed for ` + `c.Algorithm` + `: ` + `e`, every earlier call
returned normally, and the store holds the results it held before followed by
the results of the earlier calls, in order. -/
theorem C20_sweep_fails_fast (worlds : Nat → Nat → Trial) (target : Int → Int) (runs : Int)
    (sizes : List Int) (arrayTypes : List ArrayType) (algorithms : List String)
    (bs : BenchmarkSuite) (k : Nat) (c : BenchmarkConfig) (e : String)
    (herr : (sweepAlgorithms worlds target runs sizes arrayTypes algorithms
      { suite := bs, calls := [] }).2.calls[k]? = some (c, .error e)) :
    (RunSearchBenchmarks bs sizes runs worlds =
        sweepAlgorithms worlds (fun size => Int.tdiv size 2) runs sizes GetAllArrayTypes
          searchAlgorithms { suite := bs, calls := [] } ∧
      RunSortBenchmarks bs sizes runs worlds =
        sweepAlgorithms worlds (fun _ => 0) runs sizes GetAllArrayTypes sortAlgorithms
          { suite := bs, calls := [] }) ∧
    (sweepAlgorithms worlds target runs sizes arrayTypes algorithms
        { suite := bs, calls := [] }).1 =
        .error ("benchmark failed for " ++ c.Algorithm ++ ": " ++ e) ∧
      (sweepAlgorithms worlds target runs sizes arrayTypes algorithms
        { suite := bs, calls := [] }).2.calls.length = k + 1 ∧
      (sweepAlgorithms worlds target runs sizes arrayTypes algorithms
        { suite := bs, calls := [] }).2.calls.map Prod.fst =
          (sweepConfigs target runs sizes arrayTypes algorithms).take (k + 1) ∧
      (∀ j : Nat, j < k → ∃ (cj : BenchmarkConfig) (rj : BenchmarkResult),
        (sweepAlgorithms worlds target runs sizes arrayTypes algorithms
          { suite := bs, calls := [] }).2.calls[j]? = some (cj, .ok rj)) ∧
      GetResults (sweepAlgorithms worlds target runs sizes arrayTypes algorithms
          { suite := bs, calls := [] }).2.suite =
        GetResults bs ++
          ((sweepAlgorithms worlds target runs sizes arrayTypes algorithms
            { suite := bs, calls := [] }).2.calls.take k).filterMap okResult ∧
      RunBenchmark
          (sweepAlgorithms worlds target runs sizes arrayTypes algorithms
            { suite := bs, calls := [] }).2.suite c (worlds k) =
        (.error e,
          (sweepAlgorithms worlds target runs sizes arrayTypes algorithms
            { suite := bs, calls := [] }).2.suite) :=
  ⟨⟨rfl, rfl⟩, sweep_error_spec herr⟩

/-- The theorem of claim C20 at the loops run on the algorithms `linear_search`,
`bogo_sort` and `binary_search` with the size 2 and one run: the three calls
for `linear_search` return normally, the fourth call returns the error of the
unregistered name, and the sweep ends there with three results in the
store. -/
theorem C20_sweep_fails_fast_witness :
    (sweepAlgorithms
        (fun _ _ => { rand := fun i => i, duration := 5, allocBefore := 0, allocAfter := 0 })
        (fun size => Int.tdiv size 2) 1 [2] GetAllArrayTypes
        ["linear_search", "bogo_sort", "binary_search"]
        { suite := NewBenchmarkSuite, calls := [] }).1 =
        .error "benchmark failed for bogo_sort: unknown algorithm: bogo_sort" ∧
      (sweepAlgorithms
        (fun _ _ => { rand := fun i => i, duration := 5, allocBefore := 0, allocAfter := 0 })
        (fun size => Int.tdiv size 2) 1 [2] GetAllArrayTypes
        ["linear_search", "bogo_sort", "binary_search"]
        { suite := NewBenchmarkSuite, calls := [] }).2.calls.length = 3 + 1 :=
  ⟨(C20_sweep_fails_fast _ _ 1 [2] GetAllArrayTypes
      ["linear_search", "bogo_sort", "binary_search"] NewBenchmarkSuite 3
      { Algorithm := "bogo_sort", ArrayType := Random, Size := 2, Runs := 1, Target := 1 }
      "unknown algorithm: bogo_sort" (by decide)).2.1,
    (C20_sweep_fails_fast _ _ 1 [2] GetAllArrayTypes
      ["linear_search", "bogo_sort", "binary_search"] NewBenchmarkSuite 3
      { Algorithm := "bogo_sort", ArrayType := Random, Size := 2, Runs := 1, Target := 1 }
      "unknown algorithm: bogo_sort" (by decide)).2.2.1⟩

/-! ## `GenerateArray` and `IsSorted` -/

theorem fillLoop_spec (f : Int → Int) (n : Nat) :
    ∀ (fuel k : Nat) (arr : List Int), k ≤ n → n - k < fuel →
      arr = (List.range k).map (fun j : Nat => f (j : Int)) ++ List.replicate (n - k) 0 →
      fillLoop f (n : Int) fuel arr (k : Int) =
        some ((List.range n).map (fun j : Nat => f (j : Int))) := by
  intro fuel
  induction fuel with
  | zero => intro k arr _ h; omega
  | succ fuel ih =>
    intro k arr hk hf harr
    by_cases hlt : k < n
    · have hlt1 : (k : Int) < (n : Int) := by omega
      have hrep : List.replicate (n - k) (0 : Int) = 0 :: List.replicate (n - (k + 1)) 0 := by
        have e : n - k = (n - (k + 1)) + 1 := by omega
        rw [e, List.replicate_succ]
      have hu : upd arr (k : Int) (f k) =
          some ((List.range k).map (fun j : Nat => f (j : Int)) ++
            f k :: List.replicate (n - (k + 1)) 0) := by
        rw [harr, hrep]
        exact upd_append_cons _ _ _ _ _ (by simp)
      simp only [fillLoop, hlt1, if_true, hu]
      have e1 : (k : Int) + 1 = ((k + 1 : Nat) : Int) := by push_cast; rfl
      rw [e1]
      apply ih (k + 1) _ (by omega) (by omega)
      rw [List.range_succ, List.map_append]
      simp
    · have hk2 : k = n := by omega
      subst hk2
      have hlt1 : ¬ ((k : Int) < (k : Int)) := by omega
      simp only [fillLoop, hlt1, if_false, harr]
      simp

theorem fillLoop_replicate (f : Int → Int) {size : Int} (h : 0 ≤ size) :
    fillLoop f size (size.toNat + 1) (List.replicate size.toNat 0) 0 =
      some ((List.range size.toNat).map (fun j : Nat => f (j : Int))) := by
  have h1 := fillLoop_spec f size.toNat (size.toNat + 1) 0 (List.replicate size.toNat 0)
    (by omega) (by omega) (by simp)
  rw [Int.toNat_of_nonneg h] at h1
  exact h1

theorem flatMap_singleton_eq_map {α β : Type} (g : α → β) (l : List α) :
    (l.flatMap fun a => [g a]) = l.map g := by
  induction l with
  | nil => rfl
  | cons x rest ih => simp [List.flatMap_cons, ih]

theorem generateArray_random {size : Int} (rand : Nat → Int) (h : 0 ≤ size) :
    GenerateArray rand size Random =
      some ((List.range size.toNat).map (fun i : Nat => rand i % (size * 2))) := by
  have h1 : ¬ size < 0 := by omega
  simp [GenerateArray, h1]

theorem generateArray_sorted {size : Int} (rand : Nat → Int) (h : 0 ≤ size) :
    GenerateArray rand size Sorted =
      some ((List.range size.toNat).map (fun i : Nat => (i : Int))) := by
  have h1 : ¬ size < 0 := by omega
  have h2 : ¬ Sorted = Random := by decide
  simp [GenerateArray, h1, h2, flatMap_singleton_eq_map]

theorem generateArray_reverseSorted {size : Int} (rand : Nat → Int) (h : 0 ≤ size) :
    GenerateArray rand size ReverseSorted =
      some ((List.range size.toNat).map (fun i : Nat => size - (i : Int) - 1)) := by
  have h1 : ¬ size < 0 := by omega
  have h2 : ¬ ReverseSorted = Random := by decide
  have h3 : ¬ ReverseSorted = Sorted := by decide
  simp [GenerateArray, h1, h2, h3, flatMap_singleton_eq_map]

theorem generateArray_other {size : Int} (rand : Nat → Int) (h : 0 ≤ size)
    {arrayType : ArrayType} (h1 : arrayType ≠ Random) (h2 : arrayType ≠ Sorted)
    (h3 : arrayType ≠ ReverseSorted) :
    GenerateArray rand size arrayType = some (List.replicate size.toNat 0) := by
  have h0 : ¬ size < 0 := by omega
  simp [GenerateArray, h0, h1, h2, h3]

theorem generateArrayLoop_eq (rand : Nat → Int) (size : Int) (arrayType : ArrayType) :
    GenerateArrayLoop rand size arrayType = GenerateArray rand size arrayType := by
  by_cases hneg : size < 0
  · simp [GenerateArrayLoop, GenerateArray, hneg]
  · have h0 : 0 ≤ size := by omega
    by_cases c1 : arrayType = Random
    · subst c1
      rw [generateArray_random rand h0]
      simp only [GenerateArrayLoop, hneg, if_false, if_true, fillLoop_replicate _ h0]
      simp
    · by_cases c2 : arrayType = Sorted
      · subst c2
        rw [generateArray_sorted rand h0]
        simp only [GenerateArrayLoop, hneg, c1, if_false, if_true, fillLoop_replicate _ h0]
      · by_cases c3 : arrayType = ReverseSorted
        · subst c3
          rw [generateArray_reverseSorted rand h0]
          simp only [GenerateArrayLoop, hneg, c1, c2, if_false, if_true,
            fillLoop_replicate _ h0]
        · rw [generateArray_other rand h0 c1 c2 c3]
          simp only [GenerateArrayLoop, hneg, c1, c2, c3, if_false]

theorem generateArray_length (rand : Nat → Int) {size : Int} (h : 0 ≤ size)
    (arrayType : ArrayType) :
    ∃ arr : List Int, GenerateArray rand size arrayType = some arr ∧
      (arr.length : Int) = size := by
  by_cases c1 : arrayType = Random
  · subst c1
    exact ⟨_, generateArray_random rand h, by simp [h]⟩
  · by_cases c2 : arrayType = Sorted
    · subst c2
      exact ⟨_, generateArray_sorted rand h, by simp [h]⟩
    · by_cases c3 : arrayType = ReverseSorted
      · subst c3
        exact ⟨_, generateArray_reverseSorted rand h, by simp [h]⟩
      · exact ⟨_, generateArray_other rand h c1 c2 c3, by simp [h]⟩

theorem elemAt_eq_of_getElem? {a : List Int} {k : Nat} {x : Int} (h : a[k]? = some x) :
    (k : Int) < a.length ∧ elemAt a (k : Int) = x := by
  obtain ⟨hlt, hv⟩ := List.getElem?_eq_some_iff.mp h
  exact ⟨by omega, by rw [elemAt_eq_getElem hlt, hv]⟩

theorem isSortedLoop_spec (arr : List Int) :
    ∀ (fuel : Nat) (i : Int), 1 ≤ i → 0 < fuel → arr.length - i < fuel →
      (∀ p : Int, 1 ≤ p → p < i → p < arr.length → elemAt arr (p - 1) ≤ elemAt arr p) →
      ∃ b : Bool, isSortedLoop arr fuel i = some b ∧
        (b = true ↔
          ∀ p : Int, 1 ≤ p → p < arr.length → elemAt arr (p - 1) ≤ elemAt arr p) := by
  intro fuel
  induction fuel with
  | zero => intro i _ h; omega
  | succ fuel ih =>
    intro i hi _ hf hinv
    by_cases hlt : i < arr.length
    · have b0 : 0 ≤ i := by omega
      have b1 : 0 ≤ i - 1 := by omega
      have b2 : i - 1 < arr.length := by omega
      simp only [isSortedLoop, hlt, if_true, idx_eq b0 hlt, idx_eq b1 b2]
      by_cases hx : elemAt arr i < elemAt arr (i - 1)
      · refine ⟨false, by simp [hx], ?_⟩
        constructor
        · intro h; cases h
        · intro h
          have := h i hi hlt
          omega
      · simp only [hx, if_false]
        apply ih (i + 1) (by omega) (by omega) (by omega)
        intro p hp1 hp2 hp3
        by_cases hpi : p = i
        · rw [hpi]; omega
        · exact hinv p hp1 (by omega) hp3
    · refine ⟨true, by simp [isSortedLoop, hlt], ?_⟩
      constructor
      · intro _ p hp1 hp2
        exact hinv p hp1 (by omega) hp2
      · intro _; rfl

theorem isSorted_spec (arr : List Int) :
    ∃ b : Bool, IsSorted arr = some b ∧ (b = true ↔ arr.Sorted (· ≤ ·)) := by
  obtain ⟨b, e, hb⟩ := isSortedLoop_spec arr (arr.length + 1) 1 (le_refl _) (by omega)
    (by push_cast; omega) (by intro p h1 h2; omega)
  refine ⟨b, e, hb.trans ?_⟩
  constructor
  · intro h
    apply sorted_of_elemAt
    intro p q hp0 hpq hq
    have hadj : ∀ t : Int, 0 ≤ t → t < (arr.length : Int) - 1 →
        elemAt arr t ≤ elemAt arr (t + 1) := by
      intro t ht0 ht1
      have := h (t + 1) (by omega) (by omega)
      simpa using this
    have hd := adjacent_le_chain hadj (q - p).toNat p hp0 (by omega)
    have e2 : p + ((q - p).toNat : Int) = q := by omega
    rwa [e2] at hd
  · intro h p hp1 hp2
    exact elemAt_of_sorted h (by omega) (by omega) hp2

theorem sorted_iff_adjacent (arr : List Int) :
    arr.Sorted (· ≤ ·) ↔
      ∀ (i : Nat) (x y : Int), arr[i]? = some x → arr[i + 1]? = some y → x ≤ y := by
  constructor
  · intro h i x y hx hy
    obtain ⟨_, ex⟩ := elemAt_eq_of_getElem? hx
    obtain ⟨ly, ey⟩ := elemAt_eq_of_getElem? hy
    rw [← ex, ← ey]
    exact elemAt_of_sorted h (by omega) (by push_cast; omega) ly
  · intro h
    apply sorted_of_elemAt
    intro p q hp0 hpq hq
    have hadj : ∀ t : Int, 0 ≤ t → t < (arr.length : Int) - 1 →
        elemAt arr t ≤ elemAt arr (t + 1) := by
      intro t ht0 ht1
      have h1 := getElem?_toNat_eq ht0 (show t < arr.length by omega)
      have h2 := getElem?_toNat_eq (show 0 ≤ t + 1 by omega) (show t + 1 < arr.length by omega)
      have e : (t + 1).toNat = t.toNat + 1 := by omega
      rw [e] at h2
      exact h t.toNat _ _ h1 h2
    have hd := adjacent_le_chain hadj (q - p).toNat p hp0 (by omega)
    have e2 : p + ((q - p).toNat : Int) = q := by omega
    rwa [e2] at hd

theorem getElem?_map_range {n : Nat} (g : Nat → Int) {i : Nat} (h : i < n) :
    ((List.range n).map g)[i]? = some (g i) := by
  simp [List.getElem?_map, List.getElem?_range, h]

theorem getElem?_map_range_some {n : Nat} {g : Nat → Int} {i : Nat} {x : Int}
    (h : ((List.range n).map g)[i]? = some x) : i < n ∧ x = g i := by
  have hi : i < n := by
    obtain ⟨hlt, _⟩ := List.getElem?_eq_some_iff.mp h
    simpa using hlt
  rw [getElem?_map_range g hi] at h
  exact ⟨hi, (Option.some.inj h).symm⟩

/-! ## The mean, and a run without trials -/

theorem wrapInt64_add_wrap (a d : Int) : wrapInt64 (wrapInt64 a + d) = wrapInt64 (a + d) := by
  unfold wrapInt64
  omega

theorem foldl_wrap_eq :
    ∀ (ds : List Int) (acc : Int),
      ds.foldl (fun total d => wrapInt64 (total + d)) (wrapInt64 acc) =
        wrapInt64 (acc + ds.sum) := by
  intro ds
  induction ds with
  | nil => intro acc; simp
  | cons d rest ih =>
    intro acc
    simp only [List.foldl_cons, List.sum_cons, wrapInt64_add_wrap, ih]
    congr 1
    omega

theorem calculateMean_eq_tdiv {ds : List Int} (hne : ds ≠ []) (hlo : -2 ^ 63 ≤ ds.sum)
    (hhi : ds.sum < 2 ^ 63) : calculateMean ds = Int.tdiv ds.sum (ds.length : Int) := by
  have hlen : ds.length ≠ 0 := fun e => hne (List.length_eq_zero.mp e)
  have hf := foldl_wrap_eq ds 0
  have h0 : wrapInt64 0 = 0 := by decide
  rw [h0, zero_add, wrapInt64_eq hlo hhi] at hf
  unfold calculateMean
  rw [if_neg hlen]
  show Int.tdiv (ds.foldl (fun total d => wrapInt64 (total + d)) 0) ds.length = _
  rw [hf]

theorem trialLoop_no_runs (config : BenchmarkConfig) (world : Nat → Trial)
    (h : config.Runs ≤ 0) :
    trialLoop config world (config.Runs.toNat + 1) 0 [] [] = .ok ([], []) := by
  have hlt : ¬ (0 : Int) < config.Runs := by omega
  simp [trialLoop, hlt]

/-! ## Slices on the heap -/

theorem sliceContents_length {h : Heap} {s : Slice} (hv : ValidSlice h s) :
    (sliceContents h s).length = s.len := by
  obtain ⟨_, h2⟩ := hv
  simp only [sliceContents, List.length_take, List.length_drop]
  omega

theorem getD_set_self {h : Heap} {a : Nat} (x : List Int) (ha : a < h.length) :
    (h.set a x).getD a [] = x := by
  simp [List.getD_eq_getElem?_getD, List.getElem?_set_self ha]

theorem window_split (b : List Int) (o n : Nat) :
    b = b.take o ++ (b.drop o).take n ++ b.drop (o + n) := by
  have h1 : b.drop (o + n) = (b.drop o).drop n := by
    rw [List.drop_drop, Nat.add_comm]
  rw [h1, List.append_assoc, List.take_append_drop, List.take_append_drop]

theorem set_append3 (A M C : List Int) (k : Nat) (v : Int) (hk : k < M.length) :
    (A ++ M ++ C).set (A.length + k) v = A ++ M.set k v ++ C := by
  rw [List.append_assoc, List.append_assoc, List.set_append_right _ _ (by omega)]
  congr 1
  rw [Nat.add_sub_cancel_left, List.set_append_left _ _ hk]

/-- Reading through a slice on the heap is reading its contents. -/
theorem readAt_eq {h : Heap} {s : Slice} (hv : ValidSlice h s) (i : Int) :
    readAt h s i = idx (sliceContents h s) i := by
  obtain ⟨_, h2⟩ := hv
  unfold readAt idx sliceContents
  by_cases hi : 0 ≤ i ∧ i < s.len
  · have hneg : ¬ i < 0 := by omega
    rw [if_pos hi, if_neg hneg, List.getElem?_take_of_lt (by omega), List.getElem?_drop]
  · rw [if_neg hi]
    by_cases hneg : i < 0
    · rw [if_pos hneg]
    · rw [if_neg hneg]
      symm
      apply List.getElem?_eq_none
      simp only [List.length_take, List.length_drop]
      omega

/-- One assignment through a slice is an in-place step on its contents. -/
theorem writeAt_eq {h : Heap} {s : Slice} (hv : ValidSlice h s) (i v : Int) :
    writeAt h s i v = inPlace h s (fun l => upd l i v) := by
  have hlen := sliceContents_length hv
  obtain ⟨_, h2⟩ := hv
  simp only [writeAt, inPlace, upd, hlen]
  by_cases hi : 0 ≤ i ∧ i < s.len
  · simp only [if_pos hi, storeContents]
    congr 2
    have hk : i.toNat < (((h.getD s.array []).drop s.off).take s.len).length := by
      simp only [List.length_take, List.length_drop]
      omega
    have e := set_append3 ((h.getD s.array []).take s.off)
      (((h.getD s.array []).drop s.off).take s.len) ((h.getD s.array []).drop (s.off + s.len))
      i.toNat v hk
    rw [← window_split, List.length_take, Nat.min_eq_left (by omega)] at e
    exact e
  · simp only [if_neg hi]

theorem sliceContents_store {h : Heap} {s : Slice} (hv : ValidSlice h s) {l : List Int}
    (hl : l.length = s.len) : sliceContents (storeContents h s l) s = l := by
  obtain ⟨h1, h2⟩ := hv
  unfold sliceContents storeContents
  rw [getD_set_self _ h1, List.append_assoc]
  have e : ((h.getD s.array []).take s.off).length = s.off := by
    rw [List.length_take]; omega
  rw [List.drop_append_of_le_length (by omega), List.drop_of_length_le (by omega),
    List.nil_append, List.take_append_of_le_length (by omega), List.take_of_length_le (by omega)]

theorem validSlice_store {h : Heap} {s : Slice} (hv : ValidSlice h s) {l : List Int}
    (hl : l.length = s.len) : ValidSlice (storeContents h s l) s := by
  obtain ⟨h1, h2⟩ := hv
  refine ⟨by simpa [storeContents] using h1, ?_⟩
  unfold storeContents
  rw [getD_set_self _ h1]
  simp only [List.length_append, List.length_take, List.length_drop]
  omega

theorem storeContents_store {h : Heap} {s : Slice} (hv : ValidSlice h s) {l : List Int}
    (hl : l.length = s.len) (r : List Int) :
    storeContents (storeContents h s l) s r = storeContents h s r := by
  obtain ⟨h1, h2⟩ := hv
  have e : ((h.getD s.array []).take s.off).length = s.off := by
    rw [List.length_take]; omega
  have t1 : ((h.getD s.array []).take s.off ++ l ++
      (h.getD s.array []).drop (s.off + s.len)).take s.off = (h.getD s.array []).take s.off := by
    rw [List.append_assoc, List.take_append_of_le_length (by omega),
      List.take_of_length_le (by omega)]
  have t2 : ((h.getD s.array []).take s.off ++ l ++
      (h.getD s.array []).drop (s.off + s.len)).drop (s.off + s.len) =
      (h.getD s.array []).drop (s.off + s.len) := by
    have e2 : s.off + s.len = ((h.getD s.array []).take s.off ++ l).length := by
      rw [List.length_append, e, hl]
    exact (congrArg (fun k => List.drop k ((h.getD s.array []).take s.off ++ l ++
      (h.getD s.array []).drop (s.off + s.len))) e2).trans (List.drop_left _ _)
  unfold storeContents
  rw [getD_set_self _ h1, List.set_set, t1, t2]

/-- Two runs of in-place steps through one slice, one after the other, are one
run of in-place steps: the loops of a sort function, which read and write
through `result` only, act on the heap as `inPlace` of their effect on the
contents of `result`. -/
theorem inPlace_seq {h : Heap} {s : Slice} (hv : ValidSlice h s)
    (f g : List Int → Option (List Int))
    (hf : ∀ l r : List Int, f l = some r → r.length = l.length) :
    (inPlace h s f).bind (fun h1 => inPlace h1 s g) = inPlace h s (fun l => (f l).bind g) := by
  cases e : f (sliceContents h s) with
  | none => simp only [inPlace, e, Option.none_bind]
  | some l =>
    have hl : l.length = s.len := by rw [hf _ _ e, sliceContents_length hv]
    simp only [inPlace, e, Option.some_bind, sliceContents_store hv hl]
    cases g l with
    | none => rfl
    | some r => simp only [storeContents_store hv hl]

theorem getD_append_left (h extra : Heap) {k : Nat} (hk : k < h.length) :
    (h ++ extra).getD k [] = h.getD k [] := by
  simp [List.getD_eq_getElem?_getD, List.getElem?_append_left hk]

theorem sliceContents_append (h extra : Heap) {s : Slice} (hs : s.array < h.length) :
    sliceContents (h ++ extra) s = sliceContents h s := by
  unfold sliceContents
  rw [getD_append_left h extra hs]

theorem validSlice_append {h : Heap} (extra : Heap) {s : Slice} (hv : ValidSlice h s) :
    ValidSlice (h ++ extra) s := by
  obtain ⟨h1, h2⟩ := hv
  refine ⟨by rw [List.length_append]; omega, ?_⟩
  rw [getD_append_left h extra h1]
  exact h2

theorem getD_alloc (h : Heap) (l : List Int) : (h ++ [l]).getD h.length [] = l := by
  simp [List.getD_eq_getElem?_getD]

theorem sliceContents_alloc (h : Heap) (l : List Int) :
    sliceContents (h ++ [l]) { array := h.length, off := 0, len := l.length } = l := by
  unfold sliceContents
  simp only [getD_alloc, List.drop_zero, List.take_length]

theorem validSlice_alloc (h : Heap) (l : List Int) :
    ValidSlice (h ++ [l]) { array := h.length, off := 0, len := l.length } := by
  refine ⟨by simp, ?_⟩
  simp only [getD_alloc]
  omega

theorem storeContents_alloc (h : Heap) (l r : List Int) :
    storeContents (h ++ [l]) { array := h.length, off := 0, len := l.length } r =
      h ++ [r] := by
  unfold storeContents
  simp only [getD_alloc, List.take_zero, List.nil_append, Nat.zero_add, List.drop_length,
    List.append_nil]
  rw [List.set_append_right _ _ (le_refl _), Nat.sub_self]
  rfl

/-- The pattern of five of the sort functions: `result` is a fresh copy of
`arr`, and the in-place steps `f` run on `result`. -/
theorem copy_inPlace (h : Heap) (arr : Slice) {f : List Int → Option (List Int)}
    {r : List Int} (hf : f (sliceContents h arr) = some r) :
    inPlace (allocSlice h (sliceContents h arr)).1 (allocSlice h (sliceContents h arr)).2 f =
      some (h ++ [r]) := by
  simp only [allocSlice, inPlace, sliceContents_alloc, hf, storeContents_alloc]

theorem sliceContents_takeWindow (h : Heap) (s : Slice) {m : Nat} (hm : m ≤ s.len) :
    sliceContents h { array := s.array, off := s.off, len := m } =
      (sliceContents h s).take m := by
  unfold sliceContents
  simp only [List.take_take, Nat.min_eq_left hm]

theorem sliceContents_dropWindow (h : Heap) (s : Slice) (m : Nat) :
    sliceContents h { array := s.array, off := s.off + m, len := s.len - m } =
      (sliceContents h s).drop m := by
  unfold sliceContents
  simp only [List.drop_take, List.drop_drop]

theorem sortInts_of_sorted {l : List Int} (h : l.Sorted (· ≤ ·)) : sortInts l = l :=
  (sortInts_unique (List.Perm.refl l) h).symm

theorem sortInts_short {l : List Int} (h : l.length ≤ 1) : sortInts l = l := by
  apply sortInts_of_sorted
  match l, h with
  | [], _ => simp
  | [x], _ => simp
  | x :: y :: rest, h => simp at h

theorem leaves_of_append {h : Heap} {arr : Slice} (hv : ValidSlice h arr)
    {res : Option (Heap × Slice)} {extra : Heap} {out : Slice}
    (e : res = some (h ++ extra, out))
    (hc : sliceContents (h ++ extra) out = sortInts (sliceContents h arr)) :
    LeavesHeapAndSorts h arr res :=
  ⟨h ++ extra, out, e, fun _ hk => getD_append_left h extra hk,
    fun _ hs => sliceContents_append h extra hs.1, sliceContents_append h extra hv.1, hc⟩

theorem bubbleSortMem_eq (h : Heap) (arr : Slice) :
    BubbleSortMem h arr = some (h ++ [sortInts (sliceContents h arr)],
      { array := h.length, off := 0, len := (sliceContents h arr).length }) := by
  obtain ⟨out, e, hp, hs⟩ := bubbleSort_spec (sliceContents h arr)
  rw [sortInts_unique hp hs] at e
  unfold BubbleSort at e
  simp only [BubbleSortMem, allocSlice, inPlace, sliceContents_alloc, storeContents_alloc, e]

theorem insertionSortMem_eq (h : Heap) (arr : Slice) :
    InsertionSortMem h arr = some (h ++ [sortInts (sliceContents h arr)],
      { array := h.length, off := 0, len := (sliceContents h arr).length }) := by
  obtain ⟨out, e, hp, hs⟩ := insertionSort_spec (sliceContents h arr)
  rw [sortInts_unique hp hs] at e
  unfold InsertionSort at e
  simp only [InsertionSortMem, allocSlice, inPlace, sliceContents_alloc, storeContents_alloc,
    e]

theorem heapSortMem_eq (h : Heap) (arr : Slice) :
    HeapSortMem h arr = some (h ++ [sortInts (sliceContents h arr)],
      { array := h.length, off := 0, len := (sliceContents h arr).length }) := by
  obtain ⟨out, e, hp, hs⟩ := heapSort_spec (sliceContents h arr)
  rw [sortInts_unique hp hs] at e
  simp only [HeapSortMem, allocSlice, inPlace, sliceContents_alloc, storeContents_alloc, e]

theorem nativeSortMem_eq (h : Heap) (arr : Slice) :
    NativeSortMem h arr = some (h ++ [sortInts (sliceContents h arr)],
      { array := h.length, off := 0, len := (sliceContents h arr).length }) := by
  simp only [NativeSortMem, allocSlice, inPlace, sliceContents_alloc, storeContents_alloc]

theorem quickSortMem_short {h : Heap} {arr : Slice} (hle : arr.len ≤ 1) :
    QuickSortMem h arr = some (h, arr) := by
  simp only [QuickSortMem, hle, if_true]

theorem quickSortMem_long {h : Heap} {arr : Slice} (hv : ValidSlice h arr)
    (hlt : 1 < arr.len) :
    QuickSortMem h arr = some (h ++ [sortInts (sliceContents h arr)],
      { array := h.length, off := 0, len := (sliceContents h arr).length }) := by
  have hlen := sliceContents_length hv
  obtain ⟨out, e, hp, hs⟩ := quickSort_spec (sliceContents h arr)
  rw [sortInts_unique hp hs] at e
  have hnot : ¬ ((sliceContents h arr).length : Int) ≤ 1 := by omega
  simp only [QuickSort, hnot, if_false] at e
  have hnle : ¬ arr.len ≤ 1 := by omega
  simp only [QuickSortMem, hnle, if_false, allocSlice, inPlace, sliceContents_alloc,
    storeContents_alloc, e]

theorem mergeSortMemAux_spec :
    ∀ (fuel : Nat) (h : Heap) (arr : Slice), ValidSlice h arr → arr.len < fuel →
      ∃ (extra : Heap) (out : Slice), mergeSortMemAux fuel h arr = some (h ++ extra, out) ∧
        ValidSlice (h ++ extra) out ∧
        sliceContents (h ++ extra) out = sortInts (sliceContents h arr) := by
  intro fuel
  induction fuel with
  | zero => intro h arr _ hf; omega
  | succ fuel ih =>
    intro h arr hv hf
    have hlen := sliceContents_length hv
    by_cases hle : arr.len ≤ 1
    · refine ⟨[], arr, by simp [mergeSortMemAux, hle], by simpa using hv, ?_⟩
      rw [List.append_nil, sortInts_short (by omega)]
    · have hmid1 : 1 ≤ arr.len / 2 := by omega
      have hmid2 : arr.len / 2 < arr.len := by omega
      have hvL : ValidSlice h { array := arr.array, off := arr.off, len := arr.len / 2 } :=
        ⟨hv.1, by have := hv.2; simp only; omega⟩
      obtain ⟨e1, left, eL, vL, cL⟩ := ih h _ hvL (by simp only; omega)
      have hvR : ValidSlice h
          { array := arr.array, off := arr.off + arr.len / 2, len := arr.len - arr.len / 2 } :=
        ⟨hv.1, by have := hv.2; simp only; omega⟩
      obtain ⟨e2, right, eR, vR, cR⟩ := ih (h ++ e1) _ (validSlice_append e1 hvR)
        (by simp only; omega)
      rw [sliceContents_takeWindow h arr (by omega)] at cL
      rw [sliceContents_append h e1 hvR.1, sliceContents_dropWindow h arr] at cR
      have cL2 : sliceContents (h ++ e1 ++ e2) left =
          sortInts ((sliceContents h arr).take (arr.len / 2)) := by
        rw [sliceContents_append (h ++ e1) e2 vL.1, cL]
      obtain ⟨m, em, pm, sm⟩ := merge_spec
        (sortInts_sorted ((sliceContents h arr).take (arr.len / 2)))
        (sortInts_sorted ((sliceContents h arr).drop (arr.len / 2)))
      have hm : m = sortInts (sliceContents h arr) := by
        apply sortInts_unique _ sm
        refine pm.trans (((sortInts_perm _).append (sortInts_perm _)).trans ?_)
        rw [List.take_append_drop]
      refine ⟨e1 ++ e2 ++ [m], { array := (h ++ e1 ++ e2).length, off := 0, len := m.length },
        ?_, ?_, ?_⟩
      · simp only [mergeSortMemAux, hle, if_false, eL, eR, mergeMem, cL2, cR, em, allocSlice]
        simp
      · have := validSlice_alloc (h ++ e1 ++ e2) m
        simpa [List.append_assoc] using this
      · have := sliceContents_alloc (h ++ e1 ++ e2) m
        rw [← hm]
        simpa [List.append_assoc] using this

theorem mergeSortMem_spec {h : Heap} {arr : Slice} (hv : ValidSlice h arr) :
    ∃ (extra : Heap) (out : Slice), MergeSortMem h arr = some (h ++ extra, out) ∧
      sliceContents (h ++ extra) out = sortInts (sliceContents h arr) := by
  obtain ⟨extra, out, e, _, c⟩ := mergeSortMemAux_spec (arr.len + 1) h arr hv (by omega)
  exact ⟨extra, out, e, c⟩

/-! ## The claims C21 to C30 -/

/-- Claim C21. After any sequence of calls of `RunBenchmark`,
`RunSearchBenchmarks`, `RunSortBenchmarks` and `ClearResults` on a freshly
created suite, whatever the calls returned, `ClearResults` leaves
`GetResults()` empty; the same holds from every state of the store, and a
freshly created suite has no results. -/
theorem C21_clearResults_empties (calls : List SuiteCall) :
    GetResults (ClearResults (applyCalls NewBenchmarkSuite calls)) = [] ∧
      (GetResults (ClearResults (applyCalls NewBenchmarkSuite calls))).length = 0 ∧
      GetResults (applyCalls NewBenchmarkSuite (calls ++ [SuiteCall.clearResults])) = [] ∧
      (∀ bs : BenchmarkSuite, GetResults (ClearResults bs) = []) ∧
      GetResults NewBenchmarkSuite = [] := by
  refine ⟨rfl, rfl, ?_, fun _ => rfl, rfl⟩
  simp [applyCalls, List.foldl_append, applyCall, ClearResults, GetResults]

/-- The theorem of claim C21 after one run of `bubble_sort`, as in the test
`TestClearResults`, where the store holds one result before it is cleared. -/
theorem C21_clearResults_empties_witness :
    (GetResults (applyCalls NewBenchmarkSuite
        [SuiteCall.runBenchmark
          { Algorithm := "bubble_sort", ArrayType := Random, Size := 4, Runs := 1,
            Target := 0 }
          (fun _ => { rand := fun i => 7 * i + 3, duration := 5, allocBefore := 0,
                      allocAfter := 8 })])).length = 1 ∧
      GetResults (ClearResults (applyCalls NewBenchmarkSuite
        [SuiteCall.runBenchmark
          { Algorithm := "bubble_sort", ArrayType := Random, Size := 4, Runs := 1,
            Target := 0 }
          (fun _ => { rand := fun i => 7 * i + 3, duration := 5, allocBefore := 0,
                      allocAfter := 8 })])) = [] :=
  ⟨by decide, (C21_clearResults_empties _).1⟩

/-- Claim C22. For each of the six sort functions and every input slice, the
call returns, and the contents of the input after the call are its contents
before the call: every backing array that existed before the call is left as
it was (the in-place steps write to the fresh copy `result` only, and `merge`
appends to a fresh `result`), and the slice handed back holds the elements of
the input in non-decreasing order. -/
theorem C22_sorts_leave_input (h : Heap) (arr : Slice) (hv : ValidSlice h arr) :
    LeavesHeapAndSorts h arr (BubbleSortMem h arr) ∧
      LeavesHeapAndSorts h arr (InsertionSortMem h arr) ∧
      LeavesHeapAndSorts h arr (MergeSortMem h arr) ∧
      LeavesHeapAndSorts h arr (QuickSortMem h arr) ∧
      LeavesHeapAndSorts h arr (HeapSortMem h arr) ∧
      LeavesHeapAndSorts h arr (NativeSortMem h arr) := by
  have hfresh : sliceContents (h ++ [sortInts (sliceContents h arr)])
      { array := h.length, off := 0, len := (sliceContents h arr).length } =
      sortInts (sliceContents h arr) := by
    have e := sliceContents_alloc h (sortInts (sliceContents h arr))
    rw [sortInts_length] at e
    exact e
  refine ⟨leaves_of_append hv (bubbleSortMem_eq h arr) hfresh,
    leaves_of_append hv (insertionSortMem_eq h arr) hfresh, ?_, ?_,
    leaves_of_append hv (heapSortMem_eq h arr) hfresh,
    leaves_of_append hv (nativeSortMem_eq h arr) hfresh⟩
  · obtain ⟨extra, out, e, c⟩ := mergeSortMem_spec hv
    exact leaves_of_append hv e c
  · by_cases hle : arr.len ≤ 1
    · have e : QuickSortMem h arr = some (h ++ [], arr) := by
        rw [List.append_nil]
        exact quickSortMem_short hle
      refine leaves_of_append hv e ?_
      rw [List.append_nil, sortInts_short (by rw [sliceContents_length hv]; exact hle)]
    · exact leaves_of_append hv (quickSortMem_long hv (by omega)) hfresh

/-- The theorem of claim C22 at the slice `a[1:5]` of the array
`a = [9, 3, 1, 2, 8, 7]`, with one other array in the heap: `QuickSort` adds
one array, `MergeSort` three, and the arrays that were there are as before. -/
theorem C22_sorts_leave_input_witness :
    sliceContents [[9, 3, 1, 2, 8, 7], [4]] { array := 0, off := 1, len := 4 } =
        [3, 1, 2, 8] ∧
      QuickSortMem [[9, 3, 1, 2, 8, 7], [4]] { array := 0, off := 1, len := 4 } =
        some ([[9, 3, 1, 2, 8, 7], [4], [1, 2, 3, 8]], { array := 2, off := 0, len := 4 }) ∧
      MergeSortMem [[9, 3, 1, 2, 8, 7], [4]] { array := 0, off := 1, len := 4 } =
        some ([[9, 3, 1, 2, 8, 7], [4], [1, 3], [2, 8], [1, 2, 3, 8]],
          { array := 4, off := 0, len := 4 }) ∧
      LeavesHeapAndSorts [[9, 3, 1, 2, 8, 7], [4]] { array := 0, off := 1, len := 4 }
        (HeapSortMem [[9, 3, 1, 2, 8, 7], [4]] { array := 0, off := 1, len := 4 }) :=
  ⟨by decide, by decide, by decide,
    (C22_sorts_leave_input [[9, 3, 1, 2, 8, 7], [4]] { array := 0, off := 1, len := 4 }
      ⟨by decide, by decide⟩).2.2.2.2.1⟩

/-- Claim C23. For every size at least 0 and every distribution tag (the three
declared ones and any other value), `GenerateArray` returns a slice of
length exactly `size`; so does the function written out with its loops. -/
theorem C23_generateArray_length (rand : Nat → Int) (size : Int) (arrayType : ArrayType)
    (hsize : 0 ≤ size) :
    ∃ arr : List Int, GenerateArray rand size arrayType = some arr ∧
      GenerateArrayLoop rand size arrayType = some arr ∧ (arr.length : Int) = size := by
  obtain ⟨arr, e, hlen⟩ := generateArray_length rand hsize arrayType
  exact ⟨arr, e, by rw [generateArrayLoop_eq, e], hlen⟩

/-- The theorem of claim C23 at the size 3 and the tag `Random`. -/
theorem C23_generateArray_length_witness :
    ∃ arr : List Int, GenerateArray (fun i => 7 * i + 3) 3 Random = some arr ∧
      GenerateArrayLoop (fun i => 7 * i + 3) 3 Random = some arr ∧ (arr.length : Int) = 3 :=
  C23_generateArray_length (fun i => 7 * i + 3) 3 Random (by decide)

/-- Claim C24. For every size at least 0, `GenerateArray(size, Sorted)` is the
slice of length `size` whose element at index `i` is `i`, and `IsSorted`
returns true on it. -/
theorem C24_generateArray_sorted (rand : Nat → Int) (size : Int) (hsize : 0 ≤ size) :
    ∃ arr : List Int, GenerateArray rand size Sorted = some arr ∧
      GenerateArrayLoop rand size Sorted = some arr ∧ (arr.length : Int) = size ∧
      (∀ i : Nat, (i : Int) < size → arr[i]? = some (i : Int)) ∧
      IsSorted arr = some true := by
  refine ⟨_, generateArray_sorted rand hsize,
    by rw [generateArrayLoop_eq, generateArray_sorted rand hsize], by simp [hsize], ?_, ?_⟩
  · intro i hi
    exact getElem?_map_range _ (by omega)
  · obtain ⟨b, e, hb⟩ := isSorted_spec
      ((List.range size.toNat).map (fun i : Nat => (i : Int)))
    have ht : b = true := by
      rw [hb, sorted_iff_adjacent]
      intro i x y hx hy
      obtain ⟨_, ex⟩ := getElem?_map_range_some hx
      obtain ⟨_, ey⟩ := getElem?_map_range_some hy
      rw [ex, ey]
      push_cast
      omega
    rw [e, ht]

/-- The theorem of claim C24 at the size 4: the slice is `[0, 1, 2, 3]`. -/
theorem C24_generateArray_sorted_witness :
    GenerateArray (fun _ => 0) 4 Sorted = some [0, 1, 2, 3] ∧
      ∃ arr : List Int, GenerateArray (fun _ => 0) 4 Sorted = some arr ∧
        GenerateArrayLoop (fun _ => 0) 4 Sorted = some arr ∧ (arr.length : Int) = 4 ∧
        (∀ i : Nat, (i : Int) < 4 → arr[i]? = some (i : Int)) ∧
        IsSorted arr = some true :=
  ⟨by decide, C24_generateArray_sorted (fun _ => 0) 4 (by decide)⟩

/-- Claim C25. For every size at least 0, `GenerateArray(size, ReverseSorted)`
is the slice of length `size` whose element at index `i` is `size - i - 1`,
and it is non-increasing: no element is greater than its predecessor. -/
theorem C25_generateArray_reverseSorted (rand : Nat → Int) (size : Int) (hsize : 0 ≤ size) :
    ∃ arr : List Int, GenerateArray rand size ReverseSorted = some arr ∧
      GenerateArrayLoop rand size ReverseSorted = some arr ∧ (arr.length : Int) = size ∧
      (∀ i : Nat, (i : Int) < size → arr[i]? = some (size - (i : Int) - 1)) ∧
      (∀ (i : Nat) (x y : Int), 1 ≤ i → arr[i - 1]? = some x → arr[i]? = some y → y ≤ x) := by
  refine ⟨_, generateArray_reverseSorted rand hsize,
    by rw [generateArrayLoop_eq, generateArray_reverseSorted rand hsize], by simp [hsize],
    ?_, ?_⟩
  · intro i hi
    exact getElem?_map_range _ (by omega)
  · intro i x y h1 hx hy
    obtain ⟨_, ex⟩ := getElem?_map_range_some hx
    obtain ⟨_, ey⟩ := getElem?_map_range_some hy
    rw [ex, ey]
    have e : ((i - 1 : Nat) : Int) = (i : Int) - 1 := by omega
    rw [e]
    omega

/-- The theorem of claim C25 at the size 4: the slice is `[3, 2, 1, 0]`. -/
theorem C25_generateArray_reverseSorted_witness :
    GenerateArray (fun _ => 0) 4 ReverseSorted = some [3, 2, 1, 0] ∧
      ∃ arr : List Int, GenerateArray (fun _ => 0) 4 ReverseSorted = some arr ∧
        GenerateArrayLoop (fun _ => 0) 4 ReverseSorted = some arr ∧
        (arr.length : Int) = 4 ∧
        (∀ i : Nat, (i : Int) < 4 → arr[i]? = some (4 - (i : Int) - 1)) ∧
        (∀ (i : Nat) (x y : Int), 1 ≤ i → arr[i - 1]? = some x → arr[i]? = some y →
          y ≤ x) :=
  ⟨by decide, C25_generateArray_reverseSorted (fun _ => 0) 4 (by decide)⟩

/-- Claim C26. `IsSorted(arr)` always returns, and it returns true exactly when
`arr[i-1] <= arr[i]` for every `1 <= i < len(arr)`, that is when `arr` is in
non-decreasing order; in particular it is true for the empty slice, every
slice of one element and every slice of equal elements. -/
theorem C26_isSorted_iff (arr : List Int) :
    (∃ b : Bool, IsSorted arr = some b) ∧
      (IsSorted arr = some true ↔
        ∀ (i : Nat) (x y : Int), 1 ≤ i → arr[i - 1]? = some x → arr[i]? = some y → x ≤ y) ∧
      (IsSorted arr = some true ↔ arr.Sorted (· ≤ ·)) ∧
      IsSorted [] = some true ∧ (∀ x : Int, IsSorted [x] = some true) ∧
      (∀ (n : Nat) (x : Int), IsSorted (List.replicate n x) = some true) := by
  have key : ∀ l : List Int, IsSorted l = some true ↔ l.Sorted (· ≤ ·) := by
    intro l
    obtain ⟨b, e, hb⟩ := isSorted_spec l
    rw [e, ← hb]
    simp
  obtain ⟨b, e, _⟩ := isSorted_spec arr
  refine ⟨⟨b, e⟩, ?_, key arr, by decide, ?_, ?_⟩
  · rw [key arr, sorted_iff_adjacent]
    constructor
    · intro h i x y h1 hx hy
      have e1 : i - 1 + 1 = i := by omega
      exact h (i - 1) x y hx (by rw [e1]; exact hy)
    · intro h i x y hx hy
      exact h (i + 1) x y (by omega) (by simpa using hx) hy
  · intro x
    rw [key]
    simp
  · intro n x
    rw [key, sorted_iff_adjacent]
    intro i a b ha hb
    have h1 := mem_of_getElem?_some ha
    have h2 := mem_of_getElem?_some hb
    rw [List.eq_of_mem_replicate h1, List.eq_of_mem_replicate h2]

/-- The theorem of claim C26 at the slices of the test `TestIsSorted`:
`[1, 2, 3, 4, 5]` is accepted and `[1, 3, 2, 4, 5]` is not. -/
theorem C26_isSorted_iff_witness :
    IsSorted [1, 2, 3, 4, 5] = some true ∧ IsSorted [1, 3, 2, 4, 5] ≠ some true :=
  ⟨(C26_isSorted_iff [1, 2, 3, 4, 5]).2.2.1.mpr (by decide),
    fun h => absurd ((C26_isSorted_iff [1, 3, 2, 4, 5]).2.2.1.mp h) (by decide)⟩

/-- Claim C27 as stated fails on the code: the header written for the empty
list of results is not the row with the names `Mean Duration(ns)`,
`Std Deviation(ns)`, `Min Duration(ns)`, `Max Duration(ns)` and
`Memory Used(bytes)`. -/
theorem C27_csv_header_counterexample :
    (ExportToCSV []).head? ≠
      some ["Algorithm", "Array Type", "Size", "Mean Duration(ns)", "Std Deviation(ns)",
        "Min Duration(ns)", "Max Duration(ns)", "Memory Used(bytes)", "Runs"] := by
  decide

/-- Claim C27, amended. The header row that `ExportToCSV` writes, before the
record of any result, consists of exactly the nine column names `Algorithm`,
`Array Type`, `Size`, `Mean Duration (ns)`, `Std Deviation (ns)`,
`Min Duration (ns)`, `Max Duration (ns)`, `Memory Used (bytes)` and `Runs`, in
that order: each unit in parentheses is preceded by a space. -/
theorem C27_csv_header (results : List BenchmarkResult) :
    (ExportToCSV results).head? =
        some ["Algorithm", "Array Type", "Size", "Mean Duration (ns)", "Std Deviation (ns)",
          "Min Duration (ns)", "Max Duration (ns)", "Memory Used (bytes)", "Runs"] ∧
      csvHeader.length = 9 ∧ (ExportToCSV results).length = results.length + 1 ∧
      ∀ row ∈ ExportToCSV results, row.length = 9 := by
  refine ⟨rfl, rfl, by simp [ExportToCSV], ?_⟩
  intro row hrow
  simp only [ExportToCSV, List.mem_cons, List.mem_map] at hrow
  rcases hrow with h | ⟨r, _, h⟩
  · rw [h]; rfl
  · rw [← h]; rfl

/-- Claim C28. For every non-empty list of duration samples whose sum fits in
`int64`, `calculateMean` returns the sum divided by the count with the
division of Go, which truncates toward zero: the floor of the arithmetic mean
when the sum is not negative (so when the samples are not), its ceiling when
the sum is negative.  `RunBenchmark` stores this one value in both `Duration`
and `MeanDuration`. -/
theorem C28_calculateMean_truncated (ds : List Int) (hne : ds ≠ [])
    (hlo : -2 ^ 63 ≤ ds.sum) (hhi : ds.sum < 2 ^ 63) :
    calculateMean ds = Int.tdiv ds.sum (ds.length : Int) ∧
      (0 ≤ ds.sum → calculateMean ds = ds.sum / (ds.length : Int) ∧
        calculateMean ds * (ds.length : Int) ≤ ds.sum ∧
        ds.sum < (calculateMean ds + 1) * (ds.length : Int)) ∧
      ((∀ d ∈ ds, 0 ≤ d) → calculateMean ds = ds.sum / (ds.length : Int)) ∧
      (ds.sum < 0 → calculateMean ds = -((-ds.sum) / (ds.length : Int)) ∧
        ds.sum ≤ calculateMean ds * (ds.length : Int) ∧
        (calculateMean ds - 1) * (ds.length : Int) < ds.sum) ∧
      ∀ (bs bs1 : BenchmarkSuite) (config : BenchmarkConfig) (world : Nat → Trial)
        (r : BenchmarkResult), RunBenchmark bs config world = (.ok r, bs1) →
        durationSamples config world 0 = ds →
        r.Duration = Int.tdiv ds.sum (ds.length : Int) ∧
          r.MeanDuration = Int.tdiv ds.sum (ds.length : Int) ∧
          r.Duration = r.MeanDuration := by
  have hm := calculateMean_eq_tdiv hne hlo hhi
  have hlen : (0 : Int) < (ds.length : Int) := by
    have : ds.length ≠ 0 := fun e => hne (List.length_eq_zero.mp e)
    omega
  have hfloor : 0 ≤ ds.sum → calculateMean ds = ds.sum / (ds.length : Int) := by
    intro h0
    rw [hm]
    exact Int.tdiv_eq_ediv h0 (Int.natCast_nonneg _)
  refine ⟨hm, ?_, ?_, ?_, ?_⟩
  · intro h0
    refine ⟨hfloor h0, ?_, ?_⟩
    · rw [hfloor h0]
      exact Int.ediv_mul_le _ (by omega)
    · rw [hfloor h0]
      exact Int.lt_ediv_add_one_mul_self _ hlen
  · intro h0
    exact hfloor (List.sum_nonneg h0)
  · intro hneg
    have e : calculateMean ds = -((-ds.sum) / (ds.length : Int)) := by
      rw [hm]
      have h1 : Int.tdiv ds.sum (ds.length : Int) =
          -(Int.tdiv (-ds.sum) (ds.length : Int)) := by
        rw [Int.neg_tdiv, neg_neg]
      rw [h1, Int.tdiv_eq_ediv (by omega) (Int.natCast_nonneg _)]
    have h2 := Int.ediv_mul_le (-ds.sum) (show (ds.length : Int) ≠ 0 by omega)
    have h3 := Int.lt_ediv_add_one_mul_self (-ds.sum) hlen
    refine ⟨e, ?_, ?_⟩
    · rw [e]
      have : -(-ds.sum / (ds.length : Int)) * (ds.length : Int) =
          -((-ds.sum / (ds.length : Int)) * (ds.length : Int)) := by ring
      omega
    · rw [e]
      have : (-(-ds.sum / (ds.length : Int)) - 1) * (ds.length : Int) =
          -((-ds.sum / (ds.length : Int) + 1) * (ds.length : Int)) := by ring
      omega
  · intro bs bs1 config world r hrun hds
    obtain ⟨_, _, _, _, _, hmean, hdur, _⟩ := runBenchmark_ok_inv hrun
    rw [hds] at hmean hdur
    rw [hmean, hdur, hm]
    exact ⟨rfl, rfl, rfl⟩

/-- The theorem of claim C28 at the samples `[7, 2, 2]`, whose mean `11 / 3`
is stored as 3 in both fields by a run of three trials with these durations;
the mean of `[-7, 2]` is -2, not the floor -3. -/
theorem C28_calculateMean_truncated_witness :
    calculateMean [7, 2, 2] = 3 ∧ calculateMean [-7, 2] = -2 ∧
      ([7, 2, 2] : List Int) ≠ [] ∧
      calculateMean [7, 2, 2] = Int.tdiv ([7, 2, 2] : List Int).sum 3 ∧
      ∃ r : BenchmarkResult,
        (RunBenchmark NewBenchmarkSuite
          { Algorithm := "bubble_sort", ArrayType := Sorted, Size := 3, Runs := 3,
            Target := 0 }
          (fun k => { rand := fun _ => 0, duration := if k = 0 then 7 else 2,
                      allocBefore := 0, allocAfter := 8 })).1 = .ok r ∧
          r.Duration = Int.tdiv ([7, 2, 2] : List Int).sum 3 ∧
          r.MeanDuration = Int.tdiv ([7, 2, 2] : List Int).sum 3 := by
  have h := C28_calculateMean_truncated [7, 2, 2] (by decide) (by decide) (by decide)
  have hrun : RunBenchmark NewBenchmarkSuite
      { Algorithm := "bubble_sort", ArrayType := Sorted, Size := 3, Runs := 3, Target := 0 }
      (fun k => { rand := fun _ => 0, duration := if k = 0 then 7 else 2,
                  allocBefore := 0, allocAfter := 8 }) =
      (.ok { Algorithm := "bubble_sort", ArrayType := "Sorted", Size := 3, Duration := 3,
             MemoryBefore := 0, MemoryAfter := 0, MemoryUsed := 8, Runs := 3,
             MeanDuration := 3, StdDeviation := 0, MinDuration := 2, MaxDuration := 7 },
        { results := [{ Algorithm := "bubble_sort", ArrayType := "Sorted", Size := 3,
                        Duration := 3, MemoryBefore := 0, MemoryAfter := 0, MemoryUsed := 8,
                        Runs := 3, MeanDuration := 3, StdDeviation := 0, MinDuration := 2,
                        MaxDuration := 7 }] }) := by decide
  have hr := h.2.2.2.2 _ _ _ _ _ hrun (by decide)
  exact ⟨by decide, by decide, by decide, h.1, _, congrArg Prod.fst hrun, hr.1, hr.2.1⟩

/-- Claim C29. For every non-empty list of duration samples, `calculateMin`
returns an element of the list that is at most every element of the list, and
`calculateMax` returns an element of the list that is at least every element
of the list. -/
theorem C29_calculateMin_calculateMax (ds : List Int) (hne : ds ≠ []) :
    (calculateMin ds ∈ ds ∧ ∀ d ∈ ds, calculateMin ds ≤ d) ∧
      (calculateMax ds ∈ ds ∧ ∀ d ∈ ds, d ≤ calculateMax ds) :=
  ⟨calculateMin_spec hne, calculateMax_spec hne⟩

/-- The theorem of claim C29 at the samples `[5, 3, 9, 3]`: the minimum is 3
and the maximum is 9. -/
theorem C29_calculateMin_calculateMax_witness :
    calculateMin [5, 3, 9, 3] = 3 ∧ calculateMax [5, 3, 9, 3] = 9 ∧
      (calculateMin [5, 3, 9, 3] ∈ ([5, 3, 9, 3] : List Int) ∧
        ∀ d ∈ ([5, 3, 9, 3] : List Int), calculateMin [5, 3, 9, 3] ≤ d) ∧
      (calculateMax [5, 3, 9, 3] ∈ ([5, 3, 9, 3] : List Int) ∧
        ∀ d ∈ ([5, 3, 9, 3] : List Int), d ≤ calculateMax [5, 3, 9, 3]) :=
  ⟨by decide, by decide, C29_calculateMin_calculateMax [5, 3, 9, 3] (by decide)⟩

/-- Claim C30. For every configuration with `Runs <= 0`, whatever its
`Algorithm` string and its other fields, `RunBenchmark` runs no trial (the
loop ends at once with no sample, and nothing of the world is observed),
returns no error, and appends to the store one result, whose `MeanDuration`,
`StdDeviation`, `MinDuration`, `MaxDuration` and `MemoryUsed` are all 0: each
statistics helper returns 0 on the empty list of samples. -/
theorem C30_no_runs (bs : BenchmarkSuite) (config : BenchmarkConfig) (world : Nat → Trial)
    (hruns : config.Runs ≤ 0) :
    trialLoop config world (config.Runs.toNat + 1) 0 [] [] = .ok ([], []) ∧
      (∀ world1 : Nat → Trial, RunBenchmark bs config world1 = RunBenchmark bs config world) ∧
      (calculateMean [] = 0 ∧ (∀ mean : Int, calculateStdDeviation [] mean = 0) ∧
        calculateMin [] = 0 ∧ calculateMax [] = 0 ∧ calculateMeanUint64 [] = 0) ∧
      ∃ r : BenchmarkResult,
        RunBenchmark bs config world = (.ok r, { results := bs.results ++ [r] }) ∧
          r.Algorithm = config.Algorithm ∧ r.Size = config.Size ∧ r.Runs = config.Runs ∧
          r.Duration = 0 ∧ r.MeanDuration = 0 ∧ r.StdDeviation = 0 ∧ r.MinDuration = 0 ∧
          r.MaxDuration = 0 ∧ r.MemoryUsed = 0 := by
  have hT := trialLoop_no_runs config world hruns
  refine ⟨hT, ?_, ⟨rfl, fun _ => rfl, rfl, rfl, rfl⟩, ?_⟩
  · intro world1
    simp only [RunBenchmark, hT, trialLoop_no_runs config world1 hruns]
  · simp only [RunBenchmark, hT]
    exact ⟨_, rfl, rfl, rfl, rfl, rfl, rfl, rfl, rfl, rfl, rfl⟩

/-- The theorem of claim C30 at a name that is not registered: with `Runs` 0
the call succeeds, where with `Runs` 1 it returns the error
`unknown algorithm`. -/
theorem C30_no_runs_witness :
    (RunBenchmark NewBenchmarkSuite
        { Algorithm := "no_such_algorithm", ArrayType := Random, Size := 4, Runs := 1,
          Target := 0 }
        (fun _ => { rand := fun i => 7 * i + 3, duration := 5, allocBefore := 0,
                    allocAfter := 8 })).1 = .error "unknown algorithm: no_such_algorithm" ∧
      ∃ r : BenchmarkResult,
        RunBenchmark NewBenchmarkSuite
            { Algorithm := "no_such_algorithm", ArrayType := Random, Size := 4, Runs := 0,
              Target := 0 }
            (fun _ => { rand := fun i => 7 * i + 3, duration := 5, allocBefore := 0,
                        allocAfter := 8 }) =
          (.ok r, { results := NewBenchmarkSuite.results ++ [r] }) ∧
          r.Algorithm = "no_such_algorithm" ∧ r.Size = 4 ∧ r.Runs = 0 ∧
          r.Duration = 0 ∧ r.MeanDuration = 0 ∧ r.StdDeviation = 0 ∧ r.MinDuration = 0 ∧
          r.MaxDuration = 0 ∧ r.MemoryUsed = 0 :=
  ⟨by decide,
    (C30_no_runs NewBenchmarkSuite
      { Algorithm := "no_such_algorithm", ArrayType := Random, Size := 4, Runs := 0,
        Target := 0 }
      (fun _ => { rand := fun i => 7 * i + 3, duration := 5, allocBefore := 0,
                  allocAfter := 8 }) (by decide)).2.2.2⟩

/-! ## The sum of squares, with and without wrap-around -/

theorem abs_le_mul_self (x : Int) : -(x * x) ≤ x ∧ x ≤ x * x := by
  constructor <;> nlinarith [mul_self_nonneg x, mul_self_nonneg (x - 1), mul_self_nonneg (x + 1)]

theorem sumSquares_fold_exact (mean : Int) :
    ∀ (ds : List Int) (acc : Int), 0 ≤ acc → acc + sumSquaresExact ds mean < 2 ^ 63 →
      ds.foldl (fun sumSquares d =>
        wrapInt64 (sumSquares + wrapInt64 (wrapInt64 (d - mean) * wrapInt64 (d - mean)))) acc =
        acc + sumSquaresExact ds mean := by
  intro ds
  induction ds with
  | nil => intro acc _ _; simp [sumSquaresExact]
  | cons d rest ih =>
    intro acc h0 h1
    have hrest : 0 ≤ sumSquaresExact rest mean := by
      apply List.sum_nonneg
      intro x hx
      obtain ⟨y, _, e⟩ := List.mem_map.mp hx
      rw [← e]
      exact mul_self_nonneg _
    have hq : 0 ≤ (d - mean) * (d - mean) := mul_self_nonneg _
    have hsum : sumSquaresExact (d :: rest) mean =
        (d - mean) * (d - mean) + sumSquaresExact rest mean := by
      simp [sumSquaresExact]
    rw [hsum] at h1
    obtain ⟨a1, a2⟩ := abs_le_mul_self (d - mean)
    have e1 : wrapInt64 (d - mean) = d - mean := wrapInt64_eq (by omega) (by omega)
    have e2 : wrapInt64 ((d - mean) * (d - mean)) = (d - mean) * (d - mean) :=
      wrapInt64_eq (by omega) (by omega)
    have e3 : wrapInt64 (acc + (d - mean) * (d - mean)) = acc + (d - mean) * (d - mean) :=
      wrapInt64_eq (by omega) (by omega)
    simp only [List.foldl_cons, e1, e2, e3]
    rw [ih _ (by omega) (by omega), hsum]
    omega

theorem sumSquaresOf_exact {ds : List Int} {mean : Int} (h : sumSquaresExact ds mean < 2 ^ 63) :
    sumSquaresOf ds mean = sumSquaresExact ds mean := by
  have e := sumSquares_fold_exact mean ds 0 (le_refl _) (by omega)
  rw [zero_add] at e
  exact e

theorem sumSquaresExact_nonneg (ds : List Int) (mean : Int) : 0 ≤ sumSquaresExact ds mean := by
  apply List.sum_nonneg
  intro x hx
  obtain ⟨y, _, e⟩ := List.mem_map.mp hx
  rw [← e]
  exact mul_self_nonneg _

theorem calculateStdDeviation_nonneg {ds : List Int} {mean : Int}
    (h : sumSquaresExact ds mean < 2 ^ 63) : 0 ≤ calculateStdDeviation ds mean := by
  rcases Nat.lt_or_ge ds.length 2 with hl | hl
  · rw [calculateStdDeviation_short (by omega)]
  · rw [calculateStdDeviation_eq_truncated hl]
    have hv : 0 ≤ varianceOf ds mean := by
      unfold varianceOf
      rw [sumSquaresOf_exact h]
      rcases tdiv_cases (sumSquaresExact ds mean) ((ds.length : Int) - 1) (by omega) with
        ⟨_, e⟩ | ⟨k, _⟩
      · rw [e]
        exact Int.ediv_nonneg (sumSquaresExact_nonneg ds mean) (by omega)
      · have := sumSquaresExact_nonneg ds mean
        omega
    rcases tdiv_cases (varianceOf ds mean) 1000 (by omega) with ⟨_, e⟩ | ⟨k, _⟩
    · rw [e]
      have := Int.ediv_nonneg hv (show (0 : Int) ≤ 1000 by omega)
      omega
    · omega

/-! ## `BinarySearch` on a slice in any order -/

theorem binarySearchReads_bounds (arr : List Int) (t : Int) :
    ∀ (fuel : Nat) (left right : Int), 0 ≤ left → right < arr.length →
      ∀ m ∈ binarySearchReads arr t fuel left right, 0 ≤ m ∧ m < arr.length := by
  intro fuel
  induction fuel with
  | zero => intro left right _ _ m hm; simp [binarySearchReads] at hm
  | succ fuel ih =>
    intro left right hl hr m hm
    by_cases hlr : left ≤ right
    · have hmid : Int.tdiv (right - left) 2 = (right - left) / 2 :=
        Int.tdiv_eq_ediv (by omega) (by omega)
      have hm0 : 0 ≤ left + (right - left) / 2 := by omega
      have hm1 : left + (right - left) / 2 < arr.length := by omega
      simp only [binarySearchReads, hlr, if_true, hmid, idx_eq hm0 hm1, List.mem_cons] at hm
      rcases hm with e | hm
      · rw [e]; exact ⟨hm0, hm1⟩
      · by_cases hv : elemAt arr (left + (right - left) / 2) = t
        · simp [hv] at hm
        · simp only [hv, if_false] at hm
          by_cases hlt : elemAt arr (left + (right - left) / 2) < t
          · simp only [hlt, if_true] at hm
            exact ih _ _ (by omega) hr m hm
          · simp only [hlt, if_false] at hm
            exact ih _ _ hl (by omega) m hm
    · simp [binarySearchReads, hlr] at hm

theorem binarySearchReads_length (arr : List Int) (t : Int) :
    ∀ (fuel : Nat) (left right : Int), left ≤ right + 1 →
      ((binarySearchReads arr t fuel left right).length : Int) ≤ right - left + 1 := by
  intro fuel
  induction fuel with
  | zero => intro left right h; simp only [binarySearchReads, List.length_nil]; omega
  | succ fuel ih =>
    intro left right h
    by_cases hlr : left ≤ right
    · have hmid : Int.tdiv (right - left) 2 = (right - left) / 2 :=
        Int.tdiv_eq_ediv (by omega) (by omega)
      simp only [binarySearchReads, hlr, if_true, hmid, List.length_cons]
      cases idx arr (left + (right - left) / 2) with
      | none => simp only [List.length_nil]; omega
      | some v =>
        by_cases hv : v = t
        · simp only [hv, if_true, List.length_nil]; omega
        · simp only [hv, if_false]
          by_cases hlt : v < t
          · simp only [hlt, if_true]
            have := ih (left + (right - left) / 2 + 1) right (by omega)
            omega
          · simp only [hlt, if_false]
            have := ih left (left + (right - left) / 2 - 1) (by omega)
            omega
    · simp only [binarySearchReads, hlr, if_false, List.length_nil]; omega

/-! ## The claims C31 to C33 -/

/-- Claim C31 fails on the code: for the two samples 0 s and 5 s, with their
mean 2.5 s, each squared difference is 6 250 000 000 000 000 000, the sum
12 500 000 000 000 000 000 exceeds the largest `int64` and wraps to
-5 946 744 073 709 551 616, and `calculateStdDeviation` returns
-5 946 744 073 709 551 000 ns; `RunBenchmark` stores that value in
`StdDeviation` for two trials with these durations.  The value is not negative
whenever the sum of the squared differences is below `2^63`. -/
theorem C31_stdDeviation_negative_after_wrap :
    (∀ d ∈ ([0, 5000000000] : List Int), 0 ≤ d) ∧
      calculateMean [0, 5000000000] = 2500000000 ∧
      sumSquaresExact [0, 5000000000] 2500000000 = 12500000000000000000 ∧
      sumSquaresOf [0, 5000000000] 2500000000 = 12500000000000000000 - 2 ^ 64 ∧
      calculateStdDeviation [0, 5000000000] (calculateMean [0, 5000000000]) =
        -5946744073709551000 ∧
      calculateStdDeviation [0, 5000000000] (calculateMean [0, 5000000000]) < 0 ∧
      (RunBenchmark NewBenchmarkSuite
        { Algorithm := "linear_search", ArrayType := Sorted, Size := 3, Runs := 2,
          Target := 1 }
        (fun k => { rand := fun _ => 0, duration := if k = 0 then 0 else 5000000000,
                    allocBefore := 0, allocAfter := 8 })).1 =
        .ok { Algorithm := "linear_search", ArrayType := "Sorted", Size := 3,
              Duration := 2500000000, MemoryBefore := 0, MemoryAfter := 0, MemoryUsed := 8,
              Runs := 2, MeanDuration := 2500000000, StdDeviation := -5946744073709551000,
              MinDuration := 0, MaxDuration := 5000000000 } ∧
      ∀ (ds : List Int) (mean : Int), sumSquaresExact ds mean < 2 ^ 63 →
        0 ≤ calculateStdDeviation ds mean :=
  ⟨by decide, by decide, by decide, by decide, by decide, by decide, by decide,
    fun _ _ h => calculateStdDeviation_nonneg h⟩

/-- Claim C32. For every slice `arr` and every target `t`,
`BinarySearchUnsorted(arr, t)` returns what `LinearSearch(arr, t)` returns:
the first index at which `t` occurs in `arr`, or `-1` when `t` does not occur.
So the `binary_search` of `RunBenchmark`, which calls `BinarySearchUnsorted`
for every array type but `Sorted`, produces for such a configuration the
result that `linear_search` produces. -/
theorem C32_binarySearchUnsorted_eq_linearSearch (arr : List Int) (t : Int) :
    BinarySearchUnsorted arr t = some (LinearSearch arr t) ∧
      (t ∈ arr → 0 ≤ LinearSearch arr t ∧ LinearSearch arr t < arr.length ∧
        arr[(LinearSearch arr t).toNat]? = some t ∧
        ∀ k : Nat, (k : Int) < LinearSearch arr t → arr[k]? ≠ some t) ∧
      (t ∉ arr → LinearSearch arr t = -1) ∧
      ∀ config : BenchmarkConfig, config.Algorithm = "binary_search" →
        config.ArrayType ≠ Sorted → config.Target = t →
        runAlgorithm config arr = .ok (.index (LinearSearch arr t)) ∧
          runAlgorithm config arr =
            runAlgorithm { config with Algorithm := "linear_search" } arr := by
  refine ⟨binarySearchUnsorted_eq arr t, fun hm => linearSearch_present hm, ?_, ?_⟩
  · intro hm
    rw [LinearSearch, linearSearchFrom_absent hm]
  · intro config ha hs ht
    have e : runAlgorithm config arr = .ok (.index (LinearSearch arr t)) := by
      simp [runAlgorithm, ha, hs, ht, binarySearchUnsorted_eq, liftResult]
    refine ⟨e, ?_⟩
    rw [e]
    simp [runAlgorithm, ht]

/-- The theorem of claim C32 at the slice `[5, 1, 9, 3, 7, 1]`: both functions
return 1 for the target 1, which occurs at the indices 1 and 5, and -1 for the
target 4. -/
theorem C32_binarySearchUnsorted_eq_linearSearch_witness :
    LinearSearch [5, 1, 9, 3, 7, 1] 1 = 1 ∧ LinearSearch [5, 1, 9, 3, 7, 1] 4 = -1 ∧
      BinarySearchUnsorted [5, 1, 9, 3, 7, 1] 1 = some (LinearSearch [5, 1, 9, 3, 7, 1] 1) ∧
      BinarySearchUnsorted [5, 1, 9, 3, 7, 1] 4 = some (LinearSearch [5, 1, 9, 3, 7, 1] 4) :=
  ⟨by decide, by decide, (C32_binarySearchUnsorted_eq_linearSearch [5, 1, 9, 3, 7, 1] 1).1,
    (C32_binarySearchUnsorted_eq_linearSearch [5, 1, 9, 3, 7, 1] 4).1⟩

/-- Claim C33. For every slice `arr`, in any order and of any length, and
every target `t`, `BinarySearch(arr, t)` returns, after at most `len(arr)`
iterations; every index at which it reads `arr` is in `0..len(arr)-1`; and it
returns `-1` or an index `j` with `0 <= j < len(arr)` and `arr[j] == t`.  On
the empty slice it returns `-1`. -/
theorem C33_binarySearch_safe (arr : List Int) (t : Int) :
    (∃ r : Int, BinarySearch arr t = some r ∧
        (r = -1 ∨ (0 ≤ r ∧ r < arr.length ∧ arr[r.toNat]? = some t))) ∧
      (∀ m ∈ binarySearchReads arr t (arr.length + 1) 0 (arr.length - 1),
        0 ≤ m ∧ m < arr.length) ∧
      (binarySearchReads arr t (arr.length + 1) 0 (arr.length - 1)).length ≤ arr.length ∧
      BinarySearch [] t = some (-1) := by
  refine ⟨?_, binarySearchReads_bounds arr t _ _ _ (le_refl _) (by omega), ?_, rfl⟩
  · obtain ⟨r, e, h⟩ := binarySearch_total arr t
    refine ⟨r, e, ?_⟩
    rcases h with h | ⟨h0, h1, h2⟩
    · exact Or.inl h
    · exact Or.inr ⟨h0, h1, by rw [getElem?_toNat_eq h0 h1, h2]⟩
  · have := binarySearchReads_length arr t (arr.length + 1) 0 (arr.length - 1) (by omega)
    omega

/-- The theorem of claim C33 at the unsorted slice `[9, 1, 5, 3]`: the target 1
is found at its index 1, the target 9, which occurs at index 0, is reported
absent, and the reads for the target 9 are at the indices 1, 2 and 3. -/
theorem C33_binarySearch_safe_witness :
    BinarySearch [9, 1, 5, 3] 1 = some 1 ∧ BinarySearch [9, 1, 5, 3] 9 = some (-1) ∧
      binarySearchReads [9, 1, 5, 3] 9 5 0 3 = [1, 2, 3] ∧
      ∃ r : Int, BinarySearch [9, 1, 5, 3] 9 = some r ∧
        (r = -1 ∨ (0 ≤ r ∧ r < ([9, 1, 5, 3] : List Int).length ∧
          ([9, 1, 5, 3] : List Int)[r.toNat]? = some 9)) :=
  ⟨by decide, by decide, by decide, (C33_binarySearch_safe [9, 1, 5, 3] 9).1⟩

end AlgoBench
